import Mathlib

/-! Virtual memory manager (`my_vm.c`, `my_vm.h`).

A shallow embedding of the two-level virtual memory manager: the geometry
computed by `SetPhysicalMem`, the two byte-per-entry bitmaps, the page
directory with its lazily created tables, the FIFO translation buffer and the
five public operations `myalloc`, `myfree`, `PutVal`, `GetVal`, `Translate`.

Conventions of the embedding.

* Pointers and `size_t` values are natural numbers below `2 ^ 64`; `NULL` is `0`.
* A call either returns (`Outcome.ret`), waits for ever on a mutex that is
  already held (`Outcome.blocked`), or runs into an access outside a bitmap or
  through a `NULL` pointer (`Outcome.fault`). The three mutexes are flags of
  the state; `pthread_mutex_lock` on a held flag blocks the (single) caller.
* `page_num_to_address` and `address_to_page_num` end without a `return`
  statement in the source; their callers use the result, and the embedding
  takes the value of the local variable computed last (`address`, `page_num`).
* `myfree` reaches its end without a `return` statement on its success path;
  its value is then `none`.
* `int` arithmetic that overflows wraps to 32 bits, and the conversion of an
  `int` to `size_t` extends the sign.
* Page counts are computed as the source does, in single precision.
* The allocations whose result the source does not test (the physical buffer,
  the bitmaps, the directory, the translation buffer and its nodes) are taken
  to succeed; the address of the physical buffer is the field `heap` of the
  state. The allocation of a page table in `PageMap`, whose result the source
  tests, may fail: the state records what the host answers to each request
  (`host_grants`), and executions start with any such host.
-/

namespace MyVM

/-! ## Constants of `my_vm.h` and the geometry of `SetPhysicalMem` -/

/-- Page size, `#define PGSIZE 4096`. -/
def PGSIZE : Nat := 4096

/-- Size of the virtual address space, `#define MAX_MEMSIZE 4ULL*1024*1024*1024`. -/
def MAX_MEMSIZE : Nat := 4 * 1024 * 1024 * 1024

/-- Size of the physical buffer, `#define MEMSIZE 1024*1024*1024`. -/
def MEMSIZE : Nat := 1024 * 1024 * 1024

/-- Capacity of the translation buffer, `#define TLB_SIZE 120`. -/
def TLB_SIZE : Nat := 120

/-- Width of `size_t` and of pointers. -/
def WORD : Nat := 2 ^ 64

/-- Number of virtual pages, `virtual_pages = MAX_MEMSIZE / PGSIZE`. -/
def virtual_pages : Nat := MAX_MEMSIZE / PGSIZE

/-- Number of physical frames, `physical_pages = MEMSIZE / PGSIZE`. -/
def physical_pages : Nat := MEMSIZE / PGSIZE

/-- Number of offset bits, `offset_size = log(PGSIZE) / log(2)`. -/
def offset_size : Nat := 12

/-- Number of directory index bits, `upper_size = floor((32 - offset_size) / 2)`. -/
def upper_size : Nat := (32 - offset_size) / 2

/-- Number of table index bits: the other half, plus the odd bit if there is one. -/
def lower_size : Nat :=
  (32 - offset_size) / 2 + (if (32 - offset_size) % 2 ≠ 0 then 1 else 0)

/-- Bit mask with the bits `a .. b-1` set, `((1ull << (b - a)) - 1ull) << a`. -/
def createMask (a b : Nat) : Nat := (((1 <<< (b - a)) - 1) <<< a) % WORD

/-- Mask of the directory index. -/
def upper_mask : Nat :=
  createMask (offset_size + lower_size) (offset_size + lower_size + upper_size)

/-- Mask of the table index. -/
def lower_mask : Nat := createMask offset_size (offset_size + lower_size)

/-- Mask of the offset inside a page. -/
def offset_mask : Nat := createMask 0 offset_size

/-- Number of directory entries, `pow(2, upper_size)`. -/
def directory_size : Nat := 2 ^ upper_size

/-- Number of entries of a table, `pow(2, lower_size)`. -/
def table_size : Nat := 2 ^ lower_size

/-! ## State -/

/-- One node of the translation buffer (`TLB_node`), without its links. -/
structure TLB_node where
  va : Nat
  pa : Nat

/-- The translation buffer (`TLB`): the nodes reached from `oldest` by
following `next`, and the three counters. -/
structure TLB where
  nodes : List TLB_node
  count : Nat
  miss_count : Nat
  hit_count : Nat

/-- The global variables of `my_vm.c`, the bytes of host memory, and the host
allocator: the address `heap` that it hands out for the physical buffer, the
number `table_requests` of page tables `PageMap` has asked it for, and for
every `k` whether it grants the request number `k` (`host_grants k`) or
returns `NULL`. -/
structure State where
  heap : Nat
  memory : Nat
  is_initilized : Bool
  virtual_bitmap : Nat → Nat
  physical_bitmap : Nat → Nat
  pgdir : Nat → Option (Nat → Nat)
  tlb_store : Option TLB
  ram : Nat → Nat
  bitmap_lock : Bool
  pagedir_lock : Bool
  tlb_lock : Bool
  host_grants : Nat → Bool
  table_requests : Nat

/-- How a call ends. -/
inductive Outcome (α : Type) where
  | ret (v : α) (s : State) : Outcome α
  | blocked : Outcome α
  | fault : Outcome α

/-- The state a call returns in, if it returns. -/
def Outcome.state? {α : Type} : Outcome α → Option State
  | .ret _ s => some s
  | .blocked => none
  | .fault => none

/-- The value a call returns, if it returns. -/
def Outcome.value? {α : Type} : Outcome α → Option α
  | .ret v _ => some v
  | .blocked => none
  | .fault => none

/-- Array or table `f` with entry `k` replaced by `v`. -/
def setAt {β : Type} (f : Nat → β) (k : Nat) (v : β) : Nat → β :=
  fun i => if i = k then v else f i

/-- The state before the first call: nothing is initialised, no lock is held,
no table has been asked for; the host of this state grants every table. -/
def boot_state (heap : Nat) (ram : Nat → Nat) : State where
  heap := heap
  memory := 0
  is_initilized := false
  virtual_bitmap := fun _ => 0
  physical_bitmap := fun _ => 0
  pgdir := fun _ => none
  tlb_store := none
  ram := ram
  bitmap_lock := false
  pagedir_lock := false
  tlb_lock := false
  host_grants := fun _ => true
  table_requests := 0

/-! ## Initialisation -/

/-- The empty translation buffer of `init_TLB`. -/
def init_TLB : TLB where
  nodes := []
  count := 0
  miss_count := 0
  hit_count := 0

/-- One-shot initialisation (`SetPhysicalMem`): the buffer, both bitmaps
zeroed, an empty directory, an empty translation buffer. -/
def SetPhysicalMem (s : State) : State :=
  if s.is_initilized then s
  else
    { s with
      memory := s.heap
      virtual_bitmap := fun _ => 0
      physical_bitmap := fun _ => 0
      pgdir := fun _ => none
      tlb_store := some init_TLB
      is_initilized := true }

/-! ## Translation buffer -/

/-- The walk of `check_TLB` from `oldest` along `next`: the `pa` of the first
node whose `va` equals the key. -/
def check_TLB_walk (va : Nat) : List TLB_node → Option Nat
  | [] => none
  | n :: rest => if va = n.va then some n.pa else check_TLB_walk va rest

/-- Lookup in the translation buffer (`check_TLB`): the stored `pa` and one
more hit, or `NULL` and one more miss; `NULL` when there is no buffer yet. -/
def check_TLB (va : Nat) (s : State) : Nat × State :=
  match s.tlb_store with
  | none => (0, s)
  | some t =>
    match check_TLB_walk va t.nodes with
    | some pa => (pa, { s with tlb_store := some { t with hit_count := t.hit_count + 1 } })
    | none => (0, { s with tlb_store := some { t with miss_count := t.miss_count + 1 } })

/-- Insertion into the translation buffer (`add_TLB`): when `count` equals
`TLB_SIZE` the oldest node is unlinked first; the new node becomes the newest. -/
def add_TLB (va pa : Nat) (s : State) : Outcome Unit :=
  match s.tlb_store with
  | none => .fault
  | some t =>
    if t.count = TLB_SIZE then
      match t.nodes with
      | [] => .fault
      | _ :: rest =>
        .ret () { s with tlb_store := some { t with
                    nodes := rest ++ [⟨va, pa⟩], count := t.count - 1 + 1 } }
    else
      .ret () { s with tlb_store := some { t with
                  nodes := t.nodes ++ [⟨va, pa⟩], count := t.count + 1 } }

/-! ## Address decomposition -/

/-- Directory index of an address, `(va & upper_mask) >> (offset_size + lower_size)`. -/
def upper_index_of (va : Nat) : Nat := (va &&& upper_mask) >>> (offset_size + lower_size)

/-- Table index of an address, `(va & lower_mask) >> offset_size`. -/
def lower_index_of (va : Nat) : Nat := (va &&& lower_mask) >>> offset_size

/-- Offset of an address inside its page, `va & offset_mask`. -/
def offset_of (va : Nat) : Nat := va &&& offset_mask

/-- Virtual page number of an address, `upper_index * table_size + lower_index`. -/
def page_num_of (va : Nat) : Nat := upper_index_of va * table_size + lower_index_of va

/-- The value `address` computed by `page_num_to_address`:
`x * table_size + y * PGSIZE` with `x = page_num / table_size` and
`y = page_num % table_size`. -/
def page_num_to_address (page_num : Nat) : Nat :=
  ((page_num / table_size) * table_size + (page_num % table_size) * PGSIZE) % WORD

/-- The value `page_num` computed by `address_to_page_num`: the page number
of `address - memory_offset`. -/
def address_to_page_num (address memory_offset : Nat) : Nat :=
  page_num_of ((address + WORD - memory_offset % WORD) % WORD)

/-! ## Translation and mapping -/

/-- Translation of a virtual address (`Translate`). The early `return NULL`
for an unallocated page leaves `tlb_lock` held. -/
def Translate (va : Nat) (s : State) : Outcome Nat :=
  if s.tlb_lock then .blocked
  else
    let r := check_TLB va { s with tlb_lock := true }
    if r.1 ≠ 0 then .ret r.1 { r.2 with tlb_lock := false }
    else if r.2.is_initilized = false then .fault
    else if r.2.virtual_bitmap (page_num_of va) = 0 then .ret 0 r.2
    else
      match r.2.pgdir (upper_index_of va) with
      | none => .fault
      | some table =>
        let physical := (table (lower_index_of va) + offset_of va) % WORD
        match add_TLB va physical r.2 with
        | .ret _ s3 => .ret physical { s3 with tlb_lock := false }
        | .blocked => .blocked
        | .fault => .fault

/-- Installation of one mapping (`PageMap`): `-1` when the page is not marked
in the virtual bitmap. Otherwise, if the directory slot is empty, a table is
asked of the host: when the host returns `NULL` the result is `-1`, with
`pagedir_lock` left held; when it grants the table, every entry is set to
`NULL`. Then the entry is written. -/
def PageMap (va pa : Nat) (s : State) : Outcome Int :=
  if s.virtual_bitmap (page_num_of va) = 0 then .ret (-1) s
  else if s.pagedir_lock then .blocked
  else
    match s.pgdir (upper_index_of va) with
    | none =>
      if s.host_grants s.table_requests then
        .ret 0 { s with
          pgdir := setAt s.pgdir (upper_index_of va)
            (some (setAt (fun _ => 0) (lower_index_of va) pa))
          table_requests := s.table_requests + 1
          pagedir_lock := false }
      else
        .ret (-1) { s with table_requests := s.table_requests + 1, pagedir_lock := true }
    | some table =>
      .ret 0 { s with
        pgdir := setAt s.pgdir (upper_index_of va) (some (setAt table (lower_index_of va) pa))
        pagedir_lock := false }

/-! ## Searching the bitmaps -/

/-- Result of the search for a run of free virtual pages. -/
inductive RunSearch where
  | found (first_page : Nat) : RunSearch
  | absent : RunSearch
  | outside : RunSearch

/-- Conversion of the bit pattern of a 32-bit `int` to `size_t` (sign extension). -/
def int_to_size_t (w : Nat) : Nat := if w < 2 ^ 31 then w else w + (WORD - 2 ^ 32)

/-- The address `get_next_avail` builds for page `i`, in `int` arithmetic:
`(upper_index << offset_size + lower_size) | (lower_index << offset_size)`
with `upper_index = i / table_size` and `lower_index = i % table_size`. -/
def first_page_address (i : Nat) : Nat :=
  int_to_size_t
    ((((i / table_size) <<< (offset_size + lower_size)) |||
      ((i % table_size) <<< offset_size)) % 2 ^ 32)

/-- The inner loop of `get_next_avail`: `for (j = 1; j <= num_pages - 1; j++)`
stopping at the first `virtual_bitmap[i + j] == 1`; the result is the final
`j`, or `none` when the loop reads an entry past the end of the bitmap. -/
def run_scan (vb : Nat → Nat) (i num_pages : Nat) : Nat → Nat → Option Nat
  | 0, j => some j
  | fuel + 1, j =>
    if j < num_pages then
      if i + j < virtual_pages then
        if vb (i + j) = 1 then some j else run_scan vb i num_pages fuel (j + 1)
      else none
    else some j

/-- The outer loop of `get_next_avail`, from page `i` on, for `fuel` more pages. -/
def get_next_avail_loop (vb : Nat → Nat) (num_pages : Nat) : Nat → Nat → RunSearch
  | 0, _ => .absent
  | fuel + 1, i =>
    if vb i = 0 then
      match run_scan vb i num_pages num_pages 1 with
      | none => .outside
      | some j =>
        if j = num_pages then .found (first_page_address i)
        else get_next_avail_loop vb num_pages fuel (i + 1)
    else get_next_avail_loop vb num_pages fuel (i + 1)

/-- First-fit search for `num_pages` consecutive free virtual pages
(`get_next_avail`), scanning pages `1 .. virtual_pages - 1`. -/
def get_next_avail (num_pages : Nat) (s : State) : RunSearch :=
  get_next_avail_loop s.virtual_bitmap num_pages (virtual_pages - 1) 1

/-- The loop of `get_avail_physical` from frame `i` on, for `fuel` more frames,
with `need` frames still to find: the free frames in the order found. -/
def collect_frames (pb : Nat → Nat) : Nat → Nat → Nat → List Nat
  | 0, _, _ => []
  | _ + 1, _, 0 => []
  | fuel + 1, i, need + 1 =>
    if pb i = 0 then i :: collect_frames pb fuel (i + 1) need
    else collect_frames pb fuel (i + 1) (need + 1)

/-- The first `num_pages` free frames among `1 .. physical_pages - 1`
(`get_avail_physical`), or `none` (the source's `-1`) when there are fewer. -/
def get_avail_physical (num_pages : Nat) (s : State) : Option (List Nat) :=
  let pages := collect_frames s.physical_bitmap (physical_pages - 1) 1 num_pages
  if pages.length ≠ num_pages then none else some pages

/-! ## Page counts

The source computes `ceil(n * 1.0f / PGSIZE)`: the byte count is converted to
single precision (24 significant bits, round to nearest, ties to even),
divided exactly by the power of two `PGSIZE`, and rounded up. -/

/-- Number of low bits a value loses when converted to single precision. -/
def float_shift : Nat → Nat → Nat
  | 0, _ => 0
  | fuel + 1, n => if n < 2 ^ 24 then 0 else float_shift fuel (n / 2) + 1

/-- The value of `(float) n`, for `n` below `2 ^ 64`. -/
def to_float (n : Nat) : Nat :=
  let k := float_shift 64 n
  let q := n / 2 ^ k
  let r := n % 2 ^ k
  let up : Bool := decide (2 ^ k < 2 * r) || (decide (2 * r = 2 ^ k) && decide (q % 2 = 1))
  (if up then q + 1 else q) * 2 ^ k

/-- The page count `ceil(n * 1.0f / PGSIZE)` of `myalloc`, `myfree`, `PutVal`
and `GetVal`. -/
def pages_for (n : Nat) : Nat := (to_float n + (PGSIZE - 1)) / PGSIZE

/-! ## Allocation -/

/-- The mapping loop of `myalloc`, for the frames still to map and the loop
index `i`: both bitmap entries are set, then `PageMap` installs the entry. The
`return NULL` after a failed `PageMap` leaves `bitmap_lock` held. -/
def myalloc_loop (va_first virtual_page_num : Nat) : List Nat → Nat → State → Outcome Nat
  | [], _, s => .ret va_first { s with bitmap_lock := false }
  | f :: rest, i, s =>
    if virtual_pages ≤ virtual_page_num + i then .fault
    else
      let s1 : State := { s with
        virtual_bitmap := setAt s.virtual_bitmap (virtual_page_num + i) 1
        physical_bitmap := setAt s.physical_bitmap f 1 }
      let pa := (page_num_to_address f + s.memory) % WORD
      let va := (va_first + PGSIZE * i) % WORD
      match PageMap va pa s1 with
      | .ret r s2 =>
        if r ≠ 0 then .ret 0 s2
        else myalloc_loop va_first virtual_page_num rest (i + 1) s2
      | .blocked => .blocked
      | .fault => .fault

/-- The state after the first four lines of `myalloc`: `bitmap_lock` and
`pagedir_lock` taken, `SetPhysicalMem` run if needed, `pagedir_lock` released. -/
def myalloc_entry (s : State) : State :=
  { SetPhysicalMem { s with bitmap_lock := true, pagedir_lock := true } with
    pagedir_lock := false }

/-- The rest of `myalloc`, for `num_pages` pages: both searches, then the
mapping loop. Both failure returns leave `bitmap_lock` held. -/
def myalloc_pages (num_pages : Nat) (s0 : State) : Outcome Nat :=
  match get_next_avail num_pages s0 with
  | .outside => .fault
  | .absent => .ret 0 s0
  | .found va_first =>
    match get_avail_physical num_pages s0 with
    | none => .ret 0 s0
    | some pa_nums =>
      myalloc_loop va_first (address_to_page_num va_first 0) pa_nums 0 s0

/-- Allocation of `num_bytes` bytes (`myalloc`): the address of the first page,
or `NULL`. -/
def myalloc (num_bytes : Nat) (s : State) : Outcome Nat :=
  if s.bitmap_lock then .blocked
  else if s.pagedir_lock then .blocked
  else myalloc_pages (pages_for num_bytes) (myalloc_entry s)

/-! ## Release -/

/-- The first loop of `myfree`: the translations of `va`, `va + PGSIZE`, ...,
or `none` as soon as one of them is `NULL`. -/
def myfree_translate (va : Nat) : Nat → Nat → State → Outcome (Option (List Nat))
  | 0, _, s => .ret (some []) s
  | k + 1, i, s =>
    match Translate ((va + PGSIZE * i) % WORD) s with
    | .ret pa s1 =>
      if pa = 0 then .ret none s1
      else
        match myfree_translate va k (i + 1) s1 with
        | .ret (some l) s2 => .ret (some (pa :: l)) s2
        | .ret none s2 => .ret none s2
        | .blocked => .blocked
        | .fault => .fault
    | .blocked => .blocked
    | .fault => .fault

/-- The scan at the end of each round of the second loop of `myfree`
(`for (j = 0; j < table_size; j++)`): it stops at once when the directory slot
holds a table; for an empty slot it ends in `free(NULL)`. The directory is the
same afterwards in both cases. -/
def table_release_scan (pgdir : Nat → Option (Nat → Nat)) (upper_index : Nat) :
    Nat → Nat → (Nat → Option (Nat → Nat))
  | 0, _ => pgdir
  | fuel + 1, j =>
    if (pgdir upper_index).isSome then pgdir
    else if j = table_size - 1 then pgdir
    else table_release_scan pgdir upper_index fuel (j + 1)

/-- The second loop of `myfree`, for the translations still to handle and the
loop index `i`: the table entry is set to `NULL`, the physical bitmap entry of
the frame number recomputed from the translation and the virtual bitmap entry
of the page are cleared. -/
def myfree_release (va : Nat) : List Nat → Nat → State → Outcome Unit
  | [], _, s => .ret () s
  | pa :: rest, i, s =>
    let va_curr := (va + PGSIZE * i) % WORD
    let physical_page_num := address_to_page_num pa s.memory
    match s.pgdir (upper_index_of va_curr) with
    | none => .fault
    | some table =>
      if physical_pages ≤ physical_page_num then .fault
      else
        let pgdir1 :=
          setAt s.pgdir (upper_index_of va_curr) (some (setAt table (lower_index_of va_curr) 0))
        myfree_release va rest (i + 1) { s with
          pgdir := table_release_scan pgdir1 (upper_index_of va_curr) table_size 0
          physical_bitmap := setAt s.physical_bitmap physical_page_num 0
          virtual_bitmap := setAt s.virtual_bitmap (page_num_of va_curr) 0 }

/-- Release of the pages of `[va, va + size)` (`myfree`). The value is
`some (-1)` for the two `return -1`; it is `none` when the end of the function
is reached, where the source has no `return` statement. The `return -1` of the
first loop leaves `bitmap_lock`, `pagedir_lock` and `tlb_lock` held. -/
def myfree (va size : Nat) (s : State) : Outcome (Option Int) :=
  if s.is_initilized = false then .ret (some (-1)) s
  else if s.bitmap_lock then .blocked
  else if s.pagedir_lock then .blocked
  else
    match myfree_translate va (pages_for size) 0
        { s with bitmap_lock := true, pagedir_lock := true } with
    | .ret none s1 => .ret (some (-1)) s1
    | .ret (some pas) s1 =>
      match myfree_release va pas 0 s1 with
      | .ret _ s2 => .ret none { s2 with pagedir_lock := false, bitmap_lock := false }
      | .blocked => .blocked
      | .fault => .fault
    | .blocked => .blocked
    | .fault => .fault

/-! ## Copy in and copy out -/

/-- Host memory after `memcpy(dst, val + off, n)`, the source buffer `val`
given by its bytes. -/
def copy_in (ram : Nat → Nat) (dst : Nat) (val : Nat → Nat) (off n : Nat) : Nat → Nat :=
  fun a => if dst ≤ a ∧ a < dst + n then val (off + (a - dst)) else ram a

/-- The destination buffer `val` after `memcpy(val + off, src, n)`. -/
def copy_out (ram : Nat → Nat) (src : Nat) (val : Nat → Nat) (off n : Nat) : Nat → Nat :=
  fun k => if off ≤ k ∧ k < off + n then ram (src + (k - off)) else val k

/-- The loop of `PutVal`, for `k` more pages, loop index `i` and `bytes_put`
bytes copied so far. The `return -1` leaves `bitmap_lock` held. -/
def PutVal_loop (va : Nat) (val : Nat → Nat) (size : Nat) :
    Nat → Nat → Nat → State → Outcome Int
  | 0, _, _, s => .ret 0 s
  | k + 1, i, bytes_put, s =>
    if s.bitmap_lock then .blocked
    else
      match Translate ((va + PGSIZE * i) % WORD) { s with bitmap_lock := true } with
      | .ret entry s1 =>
        if entry = 0 then .ret (-1) s1
        else
          let to_put := if size - bytes_put < PGSIZE then size - bytes_put else PGSIZE
          PutVal_loop va val size k (i + 1) (bytes_put + to_put) { s1 with
            ram := copy_in s1.ram entry val bytes_put to_put
            bitmap_lock := false }
      | .blocked => .blocked
      | .fault => .fault

/-- Copy of `size` bytes of `val` to the virtual address `va` (`PutVal`). -/
def PutVal (va : Nat) (val : Nat → Nat) (size : Nat) (s : State) : Outcome Int :=
  if s.is_initilized = false then .ret (-1) s
  else PutVal_loop va val size (pages_for size) 0 0 s

/-- The loop of `GetVal`; the destination buffer is returned with the result. -/
def GetVal_loop (va : Nat) (size : Nat) :
    Nat → Nat → Nat → (Nat → Nat) → State → Outcome (Int × (Nat → Nat))
  | 0, _, _, val, s => .ret (0, val) s
  | k + 1, i, bytes_got, val, s =>
    if s.bitmap_lock then .blocked
    else
      match Translate ((va + PGSIZE * i) % WORD) { s with bitmap_lock := true } with
      | .ret entry s1 =>
        if entry = 0 then .ret (-1, val) s1
        else
          let to_get := if size - bytes_got < PGSIZE then size - bytes_got else PGSIZE
          GetVal_loop va size k (i + 1) (bytes_got + to_get)
            (copy_out s1.ram entry val bytes_got to_get) { s1 with bitmap_lock := false }
      | .blocked => .blocked
      | .fault => .fault

/-- Copy of `size` bytes at the virtual address `va` into `val` (`GetVal`):
the result and the destination buffer afterwards. -/
def GetVal (va : Nat) (val : Nat → Nat) (size : Nat) (s : State) :
    Outcome (Int × (Nat → Nat)) :=
  if s.is_initilized = false then .ret (-1, val) s
  else GetVal_loop va size (pages_for size) 0 0 val s

/-! ## Executions -/

/-- A call of one of the five public operations. -/
inductive Call where
  | myalloc (num_bytes : Nat) : Call
  | myfree (va size : Nat) : Call
  | PutVal (va : Nat) (val : Nat → Nat) (size : Nat) : Call
  | GetVal (va : Nat) (val : Nat → Nat) (size : Nat) : Call
  | Translate (va : Nat) : Call

/-- The state in which a call returns, `none` when it does not return. -/
def Call.run : Call → State → Option State
  | .myalloc n, s => (MyVM.myalloc n s).state?
  | .myfree va size, s => (MyVM.myfree va size s).state?
  | .PutVal va val size, s => (MyVM.PutVal va val size s).state?
  | .GetVal va val size, s => (MyVM.GetVal va val size s).state?
  | .Translate va, s => (MyVM.Translate va s).state?

/-- The state after a sequence of calls that all return. -/
def run_calls : List Call → State → Option State
  | [], s => some s
  | c :: rest, s =>
    match c.run s with
    | none => none
    | some s1 => run_calls rest s1

/-- The host provides a buffer of `MEMSIZE` bytes at a non-null address. -/
def heap_ok (heap : Nat) : Prop := 0 < heap ∧ heap + MEMSIZE ≤ WORD

/-- States reached from the uninitialised state by calls that return, whatever
the host answers to the requests for page tables. -/
inductive Reachable : State → Prop where
  | boot (heap : Nat) (ram : Nat → Nat) (host : Nat → Bool) (h : heap_ok heap) :
      Reachable { boot_state heap ram with host_grants := host }
  | call (c : Call) (s s1 : State) (h : Reachable s) (hs : c.run s = some s1) : Reachable s1

/-! ## Predicates on states -/

/-- The fields that only `myalloc` and `myfree` write are the same in both states. -/
def SameTables (s s1 : State) : Prop :=
  s1.heap = s.heap ∧ s1.memory = s.memory ∧ s1.is_initilized = s.is_initilized ∧
  s1.virtual_bitmap = s.virtual_bitmap ∧ s1.physical_bitmap = s.physical_bitmap ∧
  s1.pgdir = s.pgdir

/-- The virtual bitmap and the page tables agree: page `v` is marked `1` exactly
when the directory slot of `v` holds a table whose entry for `v` is not `NULL`. -/
def Consistent (s : State) : Prop :=
  ∀ v, s.virtual_bitmap v = 1 ↔
    ∃ t, s.pgdir (v / table_size) = some t ∧ t (v % table_size) ≠ 0

/-- The invariant carried along all executions. -/
def Inv (s : State) : Prop :=
  Consistent s ∧ s.virtual_bitmap 0 = 0 ∧ heap_ok s.heap ∧
  (s.is_initilized = true → s.memory = s.heap)

/-- The state in which `PageMap` returns `0`: the entry is written, in a new
table if the directory slot was empty, and `pagedir_lock` is released. -/
def PageMap_done (va pa : Nat) (s : State) : State :=
  { s with
    pgdir := setAt s.pgdir (upper_index_of va)
      (some (setAt (match s.pgdir (upper_index_of va) with
                    | none => fun _ => 0
                    | some t => t) (lower_index_of va) pa))
    table_requests :=
      match s.pgdir (upper_index_of va) with
      | none => s.table_requests + 1
      | some _ => s.table_requests
    pagedir_lock := false }

/-- The state after one round of the mapping loop of `myalloc` in which
`PageMap` returns `0`. -/
def map_step (va_first virtual_page_num f i : Nat) (s : State) : State :=
  PageMap_done ((va_first + PGSIZE * i) % WORD) ((page_num_to_address f + s.memory) % WORD)
    { s with
      virtual_bitmap := setAt s.virtual_bitmap (virtual_page_num + i) 1
      physical_bitmap := setAt s.physical_bitmap f 1 }

/-! ## Concrete executions -/

/-- The next call of an execution, made in the state the previous call returned in. -/
def Outcome.andThen {α β : Type} (o : Outcome α) (f : α → State → Outcome β) : Outcome β :=
  match o with
  | .ret v s => f v s
  | .blocked => .blocked
  | .fault => .fault

/-- A host address for the physical buffer. -/
def heap0 : Nat := 2 ^ 40

/-- A buffer of zero bytes. -/
def zeros : Nat → Nat := fun _ => 0

/-- The state after `myalloc(1)` on a fresh manager. -/
def state_one_page : State :=
  match myalloc 1 (boot_state heap0 zeros) with
  | .ret _ s => s
  | .blocked => boot_state heap0 zeros
  | .fault => boot_state heap0 zeros

/-- The fresh manager of the concrete executions. -/
def fresh : State := boot_state heap0 zeros

/-- A source buffer whose bytes `0 .. 8191` are `65` and whose later bytes are `67`. -/
def letters : Nat → Nat := fun k => if k < 8192 then 65 else 67

/-- The four bytes of `"ABCD"`, followed by zero bytes. -/
def abcd : Nat → Nat := fun k => [65, 66, 67, 68].getD k 0

/-- What is observed in `scenario_first_round_trip`. -/
structure FirstRoundTripView where
  va : Nat
  put_result : Int
  get_result : Int
  bytes_read : List Nat
deriving DecidableEq

/-- One byte is allocated at `va` on a fresh manager, `"ABCD"` is written at
`va` and four bytes are read back. -/
def scenario_first_round_trip : Outcome FirstRoundTripView :=
  (myalloc 1 fresh).andThen fun va s1 =>
  (PutVal va abcd 4 s1).andThen fun rp s2 =>
  (GetVal va zeros 4 s2).andThen fun rg s3 =>
  .ret ⟨va, rp, rg.1, (List.range 4).map rg.2⟩ s3

/-- What is observed in `scenario_round_trip`. -/
structure RoundTripView where
  d : Nat
  put_result : Int
  get_result : Int
  first_byte_read : Nat
deriving DecidableEq

/-- Two pages are allocated and the first is released; two more pages are
allocated and released; the second page is released; three pages are allocated
at `d`; then 8193 bytes are written at `d` and read back. -/
def scenario_round_trip : Outcome RoundTripView :=
  (myalloc 8192 fresh).andThen fun a s1 =>
  (myfree a 4096 s1).andThen fun _ s2 =>
  (myalloc 8192 s2).andThen fun b s3 =>
  (myfree b 8192 s3).andThen fun _ s4 =>
  (myfree (a + 4096) 4096 s4).andThen fun _ s5 =>
  (myalloc 12288 s5).andThen fun d s6 =>
  (PutVal d letters 8193 s6).andThen fun rp s7 =>
  (GetVal d zeros 8193 s7).andThen fun rg s8 =>
  .ret ⟨d, rp, rg.1, rg.2 0⟩ s8

/-- What is observed in `scenario_overlap`. -/
structure OverlapView where
  a : Nat
  b : Nat
  translate_a : Nat
  translate_last_of_b : Nat
deriving DecidableEq

/-- One page is allocated at `a`, then 1023 pages at `b`; `a` and the last
page of `b` are translated. -/
def scenario_overlap : Outcome OverlapView :=
  (myalloc 4096 fresh).andThen fun a s1 =>
  (myalloc (1023 * 4096) s1).andThen fun b s2 =>
  (Translate a s2).andThen fun pa s3 =>
  (Translate (b + 1022 * 4096) s3).andThen fun pb s4 =>
  .ret ⟨a, b, pa, pb⟩ s4

/-- What is observed in `scenario_unmap`. -/
structure UnmapView where
  va : Nat
  first_read : Int
  bitmap_after_free : Nat
  translate_after_free : Option Nat
  second_read : Int
deriving DecidableEq

/-- Two pages are allocated at `va`, four bytes are read at `va + 4096`, the
two pages are released, and four bytes are read at `va + 4096` again. The view
holds the virtual bitmap entry of the page of `va + 4096` and the translation
of `va + 4096` in the state after the release. -/
def scenario_unmap : Outcome UnmapView :=
  (myalloc 8192 fresh).andThen fun va s1 =>
  (GetVal (va + 4096) zeros 4 s1).andThen fun r1 s2 =>
  (myfree va 8192 s2).andThen fun _ s3 =>
  (GetVal (va + 4096) zeros 4 s3).andThen fun r2 s4 =>
  .ret ⟨va, r1.1, s3.virtual_bitmap (page_num_of (va + 4096)),
    (Translate (va + 4096) s3).value?, r2.1⟩ s4

/-- What is observed in `scenario_double_free`. -/
structure DoubleFreeView where
  a : Nat
  b : Nat
  page_bit_before : Nat
  frame_bit_before : Nat
  entry_of_b : Nat
  free_value : Option Int
  frame_bit_after : Nat
deriving DecidableEq

/-- Two pages are allocated at `a` and the first is released; two pages are
allocated at `b`; the first page of `a` is released a second time. The view
holds, before the second release, the virtual bitmap entry of the page of `a`,
the physical bitmap entry of frame 1 and the table entry of `b`, then the
value of the second release and the physical bitmap entry of frame 1 after it. -/
def scenario_double_free : Outcome DoubleFreeView :=
  (myalloc 8192 fresh).andThen fun a s1 =>
  (myfree a 4096 s1).andThen fun _ s2 =>
  (myalloc 8192 s2).andThen fun b s3 =>
  (myfree a 4096 s3).andThen fun r s4 =>
  .ret ⟨a, b, s3.virtual_bitmap (page_num_of a), s3.physical_bitmap 1,
    (match s3.pgdir (upper_index_of b) with
     | none => 0
     | some t => t (lower_index_of b)), r, s4.physical_bitmap 1⟩ s4

/-- What is observed in `scenario_frame_leak`. -/
structure FrameLeakView where
  va : Nat
  frame_bit_before : Nat
  translate_before : Option Nat
  free_value : Option Int
  page_bit_after : Nat
  entry_after : Nat
  frame_bit_after : Nat
deriving DecidableEq

/-- 1024 pages are allocated at `va` and the last of them is released. The
view holds the physical bitmap entry of frame 1024 and the translation of the
last page before the release, the value of the release, and after it the
virtual bitmap entry and the table entry of page 1024 and the physical bitmap
entry of frame 1024. -/
def scenario_frame_leak : Outcome FrameLeakView :=
  (myalloc (1024 * 4096) fresh).andThen fun va s1 =>
  (myfree (va + 1023 * 4096) 4096 s1).andThen fun r s2 =>
  .ret ⟨va, s1.physical_bitmap 1024, (Translate (va + 1023 * 4096) s1).value?, r,
    s2.virtual_bitmap 1024,
    (match s2.pgdir (1024 / table_size) with
     | none => 0
     | some t => t (1024 % table_size)),
    s2.physical_bitmap 1024⟩ s2

/-- What is observed in `scenario_wrong_frame`. -/
structure WrongFrameView where
  frame_1022 : Option Nat
  va : Nat
  page_bit : Nat
  frame_bit : Nat
  translate_page_1022 : Nat
deriving DecidableEq

/-- One byte is allocated, then 1023 pages at `va`. The view holds the frame
number with index 1022 among the frames free before the second call, and after
it the virtual bitmap entry of the page of `va + 1022 * PGSIZE`, the physical
bitmap entry of frame 1024 and the translation of `va + 1022 * PGSIZE`. -/
def scenario_wrong_frame : Outcome WrongFrameView :=
  (myalloc 1 fresh).andThen fun _ s1 =>
  (myalloc (1023 * 4096) s1).andThen fun va s2 =>
  (Translate (va + 1022 * PGSIZE) s2).andThen fun pa s3 =>
  .ret ⟨(get_avail_physical 1023 s1).bind fun l => l.get? 1022, va,
    s2.virtual_bitmap (page_num_of (va + 1022 * PGSIZE)), s2.physical_bitmap 1024, pa⟩ s3

/-- The values returned by `k` calls of `myalloc(1)` in a row. -/
def alloc_ones : Nat → State → Outcome (List Nat)
  | 0, s => .ret [] s
  | k + 1, s =>
    (myalloc 1 s).andThen fun va s1 =>
    (alloc_ones k s1).andThen fun l s2 => .ret (va :: l) s2

/-- The host grants every request for a page table. -/
def Granting (s : State) : Prop := ∀ k, s.host_grants k = true

/-- Both bitmaps, as `myalloc` finds them, mark exactly the entries `1 .. k`,
the two locks `myalloc` takes are free, and the host grants every table. -/
def Filled (k : Nat) (s : State) : Prop :=
  s.bitmap_lock = false ∧ s.pagedir_lock = false ∧
  (∀ i, (SetPhysicalMem s).virtual_bitmap i = if 1 ≤ i ∧ i ≤ k then 1 else 0) ∧
  (∀ i, (SetPhysicalMem s).physical_bitmap i = if 1 ≤ i ∧ i ≤ k then 1 else 0) ∧
  Granting s

/-! ## Further concrete executions -/

/-- What is observed in `scenario_unmarked_frame`. -/
structure UnmarkedFrameView where
  entry : Nat
  frame_of_entry : Nat
  frame_bit : Nat
deriving DecidableEq

/-- 1024 pages are allocated on a fresh manager. The view holds the table
entry of page 1024, the number of the frame that contains it,
`(entry - memory) / PGSIZE`, and the physical bitmap entry of that frame. -/
def scenario_unmarked_frame : Outcome UnmarkedFrameView :=
  (myalloc (1024 * 4096) fresh).andThen fun _ s1 =>
  .ret ⟨(match s1.pgdir (1024 / table_size) with
         | none => 0
         | some t => t (1024 % table_size)),
        ((match s1.pgdir (1024 / table_size) with
          | none => 0
          | some t => t (1024 % table_size)) - s1.memory) / PGSIZE,
        s1.physical_bitmap
          (((match s1.pgdir (1024 / table_size) with
             | none => 0
             | some t => t (1024 % table_size)) - s1.memory) / PGSIZE)⟩ s1

/-- The calls of `scenario_double_free`, observed afterwards: the table entry
of the first page of `b` (page 3), the number of the frame that contains it,
and the physical bitmap entry of that frame. -/
def scenario_cleared_frame : Outcome UnmarkedFrameView :=
  (myalloc 8192 fresh).andThen fun a s1 =>
  (myfree a 4096 s1).andThen fun _ s2 =>
  (myalloc 8192 s2).andThen fun b s3 =>
  (myfree a 4096 s3).andThen fun _ s4 =>
  .ret ⟨(match s4.pgdir (upper_index_of b) with
         | none => 0
         | some t => t (lower_index_of b)),
        ((match s4.pgdir (upper_index_of b) with
          | none => 0
          | some t => t (lower_index_of b)) - s4.memory) / PGSIZE,
        s4.physical_bitmap
          (((match s4.pgdir (upper_index_of b) with
             | none => 0
             | some t => t (lower_index_of b)) - s4.memory) / PGSIZE)⟩ s4

/-- What is observed in `scenario_spill`. -/
structure SpillView where
  a : Nat
  d : Nat
  page_2_bit : Nat
  entry_of_d : Nat
  put_result : Int
  get_result : Int
  bytes_of_d : List Nat
deriving DecidableEq

/-- Three single pages `a`, `b`, `c` are allocated, `b` is released, and two
pages are allocated at `d` (pages 4 and 5, the first on frame 2). Then the four
bytes `"ABCD"` are written at `a + 4094`, and two bytes are read at `d`. The
view holds the virtual bitmap entry of page 2, the table entry of `d`, the
results of the two calls and the two bytes read. -/
def scenario_spill : Outcome SpillView :=
  (myalloc 1 fresh).andThen fun a s1 =>
  (myalloc 1 s1).andThen fun b s2 =>
  (myalloc 1 s2).andThen fun _ s3 =>
  (myfree b 1 s3).andThen fun _ s4 =>
  (myalloc 8192 s4).andThen fun d s5 =>
  (PutVal (a + 4094) abcd 4 s5).andThen fun rp s6 =>
  (GetVal d zeros 2 s6).andThen fun rg s7 =>
  .ret ⟨a, d, s5.virtual_bitmap 2,
    (match s5.pgdir (upper_index_of d) with
     | none => 0
     | some t => t (lower_index_of d)),
    rp, rg.1, (List.range 2).map rg.2⟩ s7

/-- The three lock flags of a state. -/
structure LockView where
  bitmap_lock : Bool
  pagedir_lock : Bool
  tlb_lock : Bool
deriving DecidableEq

/-- The lock flags of the state a call returns in. -/
def Outcome.locks? {α : Type} : Outcome α → Option LockView
  | .ret _ s => some ⟨s.bitmap_lock, s.pagedir_lock, s.tlb_lock⟩
  | .blocked => none
  | .fault => none

/-- What is observed in `scenario_kept_table`. -/
structure KeptTableView where
  va : Nat
  free_value : Option Int
  slot_holds_table : Bool
  entries_all_unmapped : Bool
deriving DecidableEq

/-- One page is allocated at `va` and released. The view holds the value of
`myfree`, whether directory slot 0 still holds a table, and whether all
`table_size` entries of that table are `NULL`. -/
def scenario_kept_table : Outcome KeptTableView :=
  (myalloc 1 fresh).andThen fun va s1 =>
  (myfree va 1 s1).andThen fun r s2 =>
  .ret ⟨va, r, (s2.pgdir 0).isSome,
    (match s2.pgdir 0 with
     | none => false
     | some t => (List.range table_size).all fun j => t j == 0)⟩ s2

/-- The lock flags of a state. -/
def State.locks (s : State) : LockView := ⟨s.bitmap_lock, s.pagedir_lock, s.tlb_lock⟩

/-- The address of page `n` as the formula of `get_next_avail` gives it in
unbounded arithmetic:
`((n / table_size) << (offset_size + lower_size)) | ((n % table_size) << offset_size)`. -/
def page_address (n : Nat) : Nat :=
  ((n / table_size) <<< (offset_size + lower_size)) ||| ((n % table_size) <<< offset_size)

/-- An initialised state whose virtual bitmap marks every page but the last. -/
def last_page_free : State :=
  { myalloc_entry fresh with
    virtual_bitmap := fun i => if i = virtual_pages - 1 then 0 else 1 }

/-! ## Sequences of insertions into the translation buffer -/

/-- One call of `add_TLB` for each node of the list, in order. -/
def add_TLB_all : List TLB_node → State → Outcome Unit
  | [], s => .ret () s
  | n :: rest, s => (add_TLB n.va n.pa s).andThen fun _ s1 => add_TLB_all rest s1

/-- The nodes `⟨1, 1001⟩, ⟨2, 1002⟩, ..., ⟨k, 1000 + k⟩`. -/
def numbered_nodes (k : Nat) : List TLB_node :=
  (List.range k).map fun i => ⟨i + 1, i + 1001⟩

/-! ## The translation buffer as linked nodes in memory

The list `TLB.nodes` stands for the nodes reached from `oldest` by following
`next`. The definitions below follow `add_TLB` and `check_TLB` on the nodes
themselves, with their `next` and `prev` links; the address of a new node is
the address `malloc` returns for it. -/

/-- A `TLB_node` in memory, with its links; `NULL` is `0`. -/
structure TLB_cell where
  va : Nat
  pa : Nat
  next : Nat
  prev : Nat

/-- The `TLB` structure in memory: the nodes by address, and the fields of `TLB`. -/
structure TLB_mem where
  cell : Nat → TLB_cell
  oldest : Nat
  newest : Nat
  count : Nat
  miss_count : Nat
  hit_count : Nat

/-- The structure `init_TLB` returns: no node, all counters zero. -/
def init_TLB_mem (cell : Nat → TLB_cell) : TLB_mem where
  cell := cell
  oldest := 0
  newest := 0
  count := 0
  miss_count := 0
  hit_count := 0

/-- The node `init_TLB_Node` writes at the address `node`. -/
def init_TLB_Node (cell : Nat → TLB_cell) (node va pa : Nat) : Nat → TLB_cell :=
  setAt cell node ⟨va, pa, 0, 0⟩

/-- The second part of `add_TLB`: the new node is created, linked behind
`newest`, becomes `newest`, and becomes `oldest` if there is no `oldest`. -/
def add_TLB_link (va pa node : Nat) (t : TLB_mem) : TLB_mem :=
  let c1 := init_TLB_Node t.cell node va pa
  let c2 := setAt c1 node { c1 node with prev := t.newest }
  let c3 := if t.newest ≠ 0 then setAt c2 t.newest { c2 t.newest with next := node } else c2
  { t with
    cell := c3
    newest := node
    oldest := if t.oldest = 0 then node else t.oldest
    count := t.count + 1 }

/-- Insertion on the linked nodes (`add_TLB`): when `count` equals `TLB_SIZE`,
`oldest` moves to its `next` first; `none` stands for the access through a
`NULL` `oldest`. -/
def add_TLB_mem (va pa node : Nat) (t : TLB_mem) : Option TLB_mem :=
  if t.count = TLB_SIZE then
    if t.oldest = 0 then none
    else
      some (add_TLB_link va pa node
        { t with oldest := (t.cell t.oldest).next, count := t.count - 1 })
  else some (add_TLB_link va pa node t)

/-- The loop of `check_TLB` on the linked nodes, from `curr`: `some none` for a
miss, `some (some pa)` for a hit, `none` when `fuel` nodes were not enough. -/
def check_TLB_mem_walk (cell : Nat → TLB_cell) (va : Nat) : Nat → Nat → Option (Option Nat)
  | 0, _ => none
  | fuel + 1, curr =>
    if curr = 0 then some none
    else if va = (cell curr).va then some (some (cell curr).pa)
    else check_TLB_mem_walk cell va fuel (cell curr).next

/-- Lookup on the linked nodes (`check_TLB`). -/
def check_TLB_mem (va fuel : Nat) (t : TLB_mem) : Option (Nat × TLB_mem) :=
  match check_TLB_mem_walk t.cell va fuel t.oldest with
  | none => none
  | some (some pa) => some (pa, { t with hit_count := t.hit_count + 1 })
  | some none => some (0, { t with miss_count := t.miss_count + 1 })

/-- The nodes reached from `a` by following `next`, up to `NULL`, are the
nodes of `l`, in order. -/
def Chain (cell : Nat → TLB_cell) : Nat → List Nat → Prop
  | a, [] => a = 0
  | a, b :: rest => a = b ∧ b ≠ 0 ∧ Chain cell (cell b).next rest

/-- The `TLB` of the list embedding that the linked nodes `l` stand for. -/
def TLB_mem.view (t : TLB_mem) (l : List Nat) : TLB where
  nodes := l.map fun a => ⟨(t.cell a).va, (t.cell a).pa⟩
  count := t.count
  miss_count := t.miss_count
  hit_count := t.hit_count

/-- The nodes `l` are reached from `oldest`, they are distinct, `count` is
their number and at most `TLB_SIZE`, and the last of them is `newest`. -/
def Linked (t : TLB_mem) (l : List Nat) : Prop :=
  Chain t.cell t.oldest l ∧ l.Nodup ∧ t.count = l.length ∧ t.count ≤ TLB_SIZE ∧
  ((l = [] ∧ t.newest = 0) ∨ l.getLast? = some t.newest)

/-- A call on the translation buffer: an insertion, with the address of the
new node, or a lookup. -/
inductive TLB_op where
  | add (va pa node : Nat) : TLB_op
  | check (va : Nat) : TLB_op

/-- The address of the node a call creates. -/
def TLB_op.node? : TLB_op → Option Nat
  | .add _ _ node => some node
  | .check _ => none

/-- The buffer after one call; a lookup walks at most `count + 1` steps. -/
def TLB_mem.step : TLB_op → TLB_mem → Option TLB_mem
  | .add va pa node, t => add_TLB_mem va pa node t
  | .check va, t => (check_TLB_mem va (t.count + 1) t).map Prod.snd

/-- The buffer after a sequence of calls. -/
def TLB_mem.run : List TLB_op → TLB_mem → Option TLB_mem
  | [], t => some t
  | op :: rest, t =>
    match t.step op with
    | none => none
    | some t1 => TLB_mem.run rest t1

/-- Nodes without content. -/
def blank_cells : Nat → TLB_cell := fun _ => ⟨0, 0, 0, 0⟩


/-- The insertions of the pairs `ins`, in order, the new node of each at the
address of `addrs` in the same position. -/
def insertions : List TLB_node → List Nat → List TLB_op
  | n :: ns, a :: rest => .add n.va n.pa a :: insertions ns rest
  | _, _ => []

/-- The addresses `8, 16, ..., 8 * k`. -/
def numbered_addrs (k : Nat) : List Nat := (List.range k).map fun i => 8 * (i + 1)

/-- A sequence of calls: 125 insertions with keys `1 .. 125`, then the lookup
of a key that was replaced and of a key that is kept. -/
def sample_ops : List TLB_op :=
  insertions (numbered_nodes 125) (numbered_addrs 125) ++ [.check 3, .check 124]

/-! ## Translation against the page tables -/

/-- The translation of `va` read from the virtual bitmap and the page tables
alone, without the translation buffer: `NULL` for a page that is not marked,
the table entry plus the offset for a marked page; `none` when the directory
slot of a marked page holds no table. -/
def table_walk (va : Nat) (s : State) : Option Nat :=
  if s.virtual_bitmap (page_num_of va) = 0 then some 0
  else
    match s.pgdir (upper_index_of va) with
    | none => none
    | some table => some ((table (lower_index_of va) + offset_of va) % WORD)

/-- The two counters of the translation buffer, `(miss_count, hit_count)`. -/
def State.counters (s : State) : Option (Nat × Nat) :=
  s.tlb_store.map fun t => (t.miss_count, t.hit_count)

/-- The keys and physical addresses held in the translation buffer, oldest first. -/
def State.tlb_pairs (s : State) : Option (List (Nat × Nat)) :=
  s.tlb_store.map fun t => t.nodes.map fun n => (n.va, n.pa)

/-- The state after `myalloc(1)` and `Translate` of the unallocated address
`8192` on a fresh manager. -/
def state_null_translation : State :=
  match Translate 8192 state_one_page with
  | .ret _ s => s
  | .blocked => state_one_page
  | .fault => state_one_page

/-- The calls `myalloc(1)`, `PutVal(4096, "ABCD", 4)` and `Translate(8192)`. -/
def calls_without_free : List Call :=
  [Call.myalloc 1, Call.PutVal 4096 abcd 4, Call.Translate 8192]

/-- The state after `calls_without_free` on a fresh manager. -/
def state_without_free : State :=
  match run_calls calls_without_free fresh with
  | some s => s
  | none => fresh

/-- A call other than `myfree`. -/
def Call.not_free : Call → Bool
  | .myfree _ _ => false
  | _ => true

/-- States reached from the uninitialised state by calls of `myalloc`,
`PutVal`, `GetVal` and `Translate` that return. -/
inductive ReachableWithoutFree : State → Prop where
  | boot (heap : Nat) (ram : Nat → Nat) (host : Nat → Bool) (h : heap_ok heap) :
      ReachableWithoutFree { boot_state heap ram with host_grants := host }
  | call (c : Call) (s s1 : State) (h : ReachableWithoutFree s) (hc : c.not_free = true)
      (hs : c.run s = some s1) : ReachableWithoutFree s1

/-- The translation buffer of an initialised state exists, its `count` is the
number of its nodes and is at most `TLB_SIZE`, and no node holds `NULL` as
physical address. -/
def TLBWell (s : State) : Prop :=
  s.is_initilized = true →
    ∃ t, s.tlb_store = some t ∧ t.count = t.nodes.length ∧ t.count ≤ TLB_SIZE ∧
      ∀ n ∈ t.nodes, n.pa ≠ 0

/-- The translation buffer of an initialised state exists, its `count` is the
number of its nodes and is at most `TLB_SIZE`. -/
def TLBBound (s : State) : Prop :=
  s.is_initilized = true →
    ∃ t, s.tlb_store = some t ∧ t.count = t.nodes.length ∧ t.count ≤ TLB_SIZE

/-- Every table entry that is not `NULL` is the address of a whole page inside
the physical buffer. -/
def EntriesInHeap (s : State) : Prop :=
  ∀ u table k, s.pgdir u = some table → table k ≠ 0 →
    s.heap ≤ table k ∧ table k + PGSIZE ≤ s.heap + MEMSIZE

/-- Every entry of the virtual bitmap is `0` or `1`, and all are `0` before
the initialisation. -/
def Binary (s : State) : Prop :=
  (∀ v, s.virtual_bitmap v = 0 ∨ s.virtual_bitmap v = 1) ∧
  (s.is_initilized = false → ∀ v, s.virtual_bitmap v = 0)

/-- The second invariant carried along all executions. -/
def TInv (s : State) : Prop := TLBWell s ∧ EntriesInHeap s ∧ Binary s

/-- The translation buffer is coherent with the page tables: its keys are
pairwise distinct, and every node `(va, pa)` has the page of `va` marked in the
virtual bitmap and `pa` equal to the table entry of `va` plus the offset of `va`. -/
def Coherent (s : State) : Prop :=
  ∀ t, s.tlb_store = some t →
    (t.nodes.map TLB_node.va).Nodup ∧
    ∀ n ∈ t.nodes, s.virtual_bitmap (page_num_of n.va) = 1 ∧
      ∃ table, s.pgdir (upper_index_of n.va) = some table ∧
        n.pa = table (lower_index_of n.va) + offset_of n.va

/-- From `s` to `s1` the translation buffer is the same, every page marked in
`s` is marked in `s1`, and its table entry is the same. -/
def Keeps (s s1 : State) : Prop :=
  s1.tlb_store = s.tlb_store ∧
  ∀ va, s.virtual_bitmap (page_num_of va) = 1 →
    s1.virtual_bitmap (page_num_of va) = 1 ∧
    ∀ table, s.pgdir (upper_index_of va) = some table →
      ∃ table1, s1.pgdir (upper_index_of va) = some table1 ∧
        table1 (lower_index_of va) = table (lower_index_of va)

/-- A fresh manager whose host returns `NULL` for every page table. -/
def refusing : State := { fresh with host_grants := fun _ => false }

/-- The state after `myalloc(1)` on the manager `refusing`. -/
def state_refused_table : State :=
  match myalloc 1 refusing with
  | .ret _ s => s
  | .blocked => refusing
  | .fault => refusing
/-! ## Arithmetic of the address decomposition -/

theorem and_mask_shift (x k a : Nat) :
    (x &&& ((2 ^ k - 1) <<< a)) >>> a = (x / 2 ^ a) % 2 ^ k := by
  apply Nat.eq_of_testBit_eq
  intro i
  rw [← Nat.shiftRight_eq_div_pow]
  simp only [Nat.testBit_shiftRight, Nat.testBit_and, Nat.testBit_shiftLeft,
    Nat.testBit_two_pow_sub_one, Nat.testBit_mod_two_pow]
  have h1 : a + i ≥ a := Nat.le_add_right a i
  have h2 : a + i - a = i := by omega
  simp [h1, h2, Bool.and_comm]

theorem upper_mask_eq : upper_mask = (2 ^ 10 - 1) <<< 22 := by decide
theorem lower_mask_eq : lower_mask = (2 ^ 10 - 1) <<< 12 := by decide
theorem offset_mask_eq : offset_mask = 2 ^ 12 - 1 := by decide
theorem table_size_eq : table_size = 1024 := by decide
theorem virtual_pages_eq : virtual_pages = 2 ^ 20 := by decide
theorem physical_pages_eq : physical_pages = 2 ^ 18 := by decide
theorem PGSIZE_eq : PGSIZE = 4096 := rfl
theorem WORD_eq : WORD = 2 ^ 64 := rfl
theorem MEMSIZE_eq : MEMSIZE = 2 ^ 30 := by decide

theorem upper_index_of_eq (va : Nat) : upper_index_of va = va / 2 ^ 22 % 2 ^ 10 := by
  unfold upper_index_of
  rw [upper_mask_eq]
  exact and_mask_shift va 10 22

theorem lower_index_of_eq (va : Nat) : lower_index_of va = va / 2 ^ 12 % 2 ^ 10 := by
  unfold lower_index_of
  rw [lower_mask_eq]
  exact and_mask_shift va 10 12

theorem offset_of_eq (va : Nat) : offset_of va = va % 4096 := by
  unfold offset_of
  rw [offset_mask_eq]
  exact Nat.and_pow_two_sub_one_eq_mod va 12

theorem page_num_of_eq (va : Nat) : page_num_of va = va / 4096 % 2 ^ 20 := by
  unfold page_num_of
  rw [upper_index_of_eq, lower_index_of_eq, table_size_eq]
  omega

theorem page_num_of_div (va : Nat) : page_num_of va / table_size = upper_index_of va := by
  rw [page_num_of_eq, upper_index_of_eq, table_size_eq]
  omega

theorem page_num_of_mod (va : Nat) : page_num_of va % table_size = lower_index_of va := by
  rw [page_num_of_eq, lower_index_of_eq, table_size_eq]
  omega

theorem first_page_address_eq (i : Nat) (hi : i < 2 ^ 20) :
    first_page_address i = i * 4096 + (if i < 2 ^ 19 then 0 else WORD - 2 ^ 32) := by
  unfold first_page_address int_to_size_t
  have e1 : (i / table_size) <<< (offset_size + lower_size) ||| (i % table_size) <<< offset_size
      = i * 4096 := by
    rw [table_size_eq]
    have : offset_size + lower_size = 22 := by decide
    rw [this]
    have : offset_size = 12 := rfl
    rw [this, Nat.shiftLeft_eq, Nat.shiftLeft_eq]
    have h := Nat.mul_add_lt_is_or (i := 22) (b := i % 1024 * 2 ^ 12) (by omega) (i / 1024)
    rw [Nat.mul_comm (i / 1024) (2 ^ 22), ← h]
    omega
  rw [e1]
  have h2 : i * 4096 % 2 ^ 32 = i * 4096 := Nat.mod_eq_of_lt (by omega)
  rw [h2]
  by_cases h : i < 2 ^ 19
  · have h3 : i * 4096 < 2 ^ 31 := by omega
    rw [if_pos h3, if_pos h, Nat.add_zero]
  · have h3 : ¬ i * 4096 < 2 ^ 31 := by omega
    rw [if_neg h3, if_neg h]

/-- The page number of the `k`-th page after the address built for page `i`. -/
theorem page_num_of_first_page_address (i k : Nat) (h : i + k < 2 ^ 20) :
    page_num_of ((first_page_address i + PGSIZE * k) % WORD) = i + k := by
  rw [page_num_of_eq, first_page_address_eq i (by omega), PGSIZE_eq, WORD_eq]
  split <;> omega

theorem first_page_address_ne_zero (i : Nat) (h1 : 1 ≤ i) (h : i < 2 ^ 20) :
    first_page_address i ≠ 0 := by
  rw [first_page_address_eq i h]
  omega

theorem first_page_address_lt (i : Nat) (h : i < 2 ^ 20) : first_page_address i < WORD := by
  rw [first_page_address_eq i h, WORD_eq]
  split <;> omega

theorem address_to_page_num_first (i : Nat) (h : i < 2 ^ 20) :
    address_to_page_num (first_page_address i) 0 = i := by
  unfold address_to_page_num
  have h1 := page_num_of_first_page_address i 0 (by omega)
  have h2 := first_page_address_lt i h
  rw [WORD_eq] at h2
  simp only [Nat.mul_zero, Nat.add_zero, WORD_eq] at h1
  simp only [WORD_eq, Nat.zero_mod, Nat.sub_zero, Nat.add_mod_right]
  exact h1

/-! ## What the operations leave alone -/

theorem SameTables_refl (s : State) : SameTables s s := ⟨rfl, rfl, rfl, rfl, rfl, rfl⟩

theorem SameTables_trans {s s1 s2 : State} (h1 : SameTables s s1) (h2 : SameTables s1 s2) :
    SameTables s s2 :=
  ⟨h2.1.trans h1.1, h2.2.1.trans h1.2.1, h2.2.2.1.trans h1.2.2.1,
   h2.2.2.2.1.trans h1.2.2.2.1, h2.2.2.2.2.1.trans h1.2.2.2.2.1,
   h2.2.2.2.2.2.trans h1.2.2.2.2.2⟩

theorem check_TLB_same (va : Nat) (s : State) : SameTables s (check_TLB va s).2 := by
  unfold check_TLB
  split
  · exact SameTables_refl s
  · split <;> exact ⟨rfl, rfl, rfl, rfl, rfl, rfl⟩

theorem add_TLB_same (va pa : Nat) (s s1 : State) (u : Unit)
    (h : add_TLB va pa s = .ret u s1) : SameTables s s1 := by
  unfold add_TLB at h
  split at h
  · cases h
  · split at h
    · split at h
      · cases h
      · cases h
        exact ⟨rfl, rfl, rfl, rfl, rfl, rfl⟩
    · cases h
      exact ⟨rfl, rfl, rfl, rfl, rfl, rfl⟩

theorem Translate_same (va : Nat) (s s1 : State) (p : Nat)
    (h : Translate va s = .ret p s1) : SameTables s s1 := by
  unfold Translate at h
  have hc := check_TLB_same va { s with tlb_lock := true }
  split at h
  · cases h
  · simp only at h
    split at h
    · cases h
      exact hc
    · split at h
      · cases h
      · split at h
        · cases h
          exact hc
        · split at h
          · cases h
          · split at h
            · rename_i u s3 hadd
              cases h
              have ha := add_TLB_same _ _ _ _ _ hadd
              exact SameTables_trans hc ha
            · cases h
            · cases h

theorem SameTables_inv {s s1 : State} (h : SameTables s s1) (hi : Inv s) : Inv s1 := by
  obtain ⟨a1, a2, a3, a4, a5, a6⟩ := h
  obtain ⟨c, z, ho, hm⟩ := hi
  refine ⟨?_, ?_, ?_, ?_⟩
  · intro v
    rw [a4, a6]
    exact c v
  · rw [a4]; exact z
  · rw [a1]; exact ho
  · intro hinit
    rw [a3] at hinit
    rw [a2, a1]
    exact hm hinit

theorem PutVal_loop_same (va : Nat) (val : Nat → Nat) (size : Nat) :
    ∀ (k i b : Nat) (s s1 : State) (r : Int),
      PutVal_loop va val size k i b s = .ret r s1 → SameTables s s1 := by
  intro k
  induction k with
  | zero =>
    intro i b s s1 r h
    unfold PutVal_loop at h
    cases h
    exact SameTables_refl s
  | succ k ih =>
    intro i b s s1 r h
    unfold PutVal_loop at h
    split at h
    · cases h
    · split at h
      · rename_i entry s2 ht
        have h1 := Translate_same _ _ _ _ ht
        split at h
        · cases h
          exact h1
        · have h2 := ih _ _ _ _ _ h
          exact SameTables_trans h1 h2
      · cases h
      · cases h

theorem GetVal_loop_same (va : Nat) (size : Nat) :
    ∀ (k i b : Nat) (val : Nat → Nat) (s s1 : State) (r : Int × (Nat → Nat)),
      GetVal_loop va size k i b val s = .ret r s1 → SameTables s s1 := by
  intro k
  induction k with
  | zero =>
    intro i b val s s1 r h
    unfold GetVal_loop at h
    cases h
    exact SameTables_refl s
  | succ k ih =>
    intro i b val s s1 r h
    unfold GetVal_loop at h
    split at h
    · cases h
    · split at h
      · rename_i entry s2 ht
        have h1 := Translate_same _ _ _ _ ht
        split at h
        · cases h
          exact h1
        · have h2 := ih _ _ _ _ _ _ h
          exact SameTables_trans h1 h2
      · cases h
      · cases h

theorem myfree_translate_same (va : Nat) :
    ∀ (k i : Nat) (s s1 : State) (r : Option (List Nat)),
      myfree_translate va k i s = .ret r s1 → SameTables s s1 := by
  intro k
  induction k with
  | zero =>
    intro i s s1 r h
    unfold myfree_translate at h
    cases h
    exact SameTables_refl s
  | succ k ih =>
    intro i s s1 r h
    unfold myfree_translate at h
    split at h
    · rename_i pa s2 ht
      have h1 := Translate_same _ _ _ _ ht
      split at h
      · cases h
        exact h1
      · split at h
        · rename_i l s3 hr
          cases h
          exact SameTables_trans h1 (ih _ _ _ _ hr)
        · rename_i s3 hr
          cases h
          exact SameTables_trans h1 (ih _ _ _ _ hr)
        · cases h
        · cases h
    · cases h
    · cases h

/-! ## The invariant is kept by mapping and unmapping a page -/

theorem setAt_same {β : Type} (f : Nat → β) (k : Nat) (v : β) : setAt f k v k = v := by
  simp [setAt]

theorem setAt_other {β : Type} (f : Nat → β) (k : Nat) (v : β) (i : Nat) (h : i ≠ k) :
    setAt f k v i = f i := by
  simp [setAt, h]

theorem page_eq_of_indices (va v : Nat) (h1 : v / table_size = upper_index_of va)
    (h2 : v % table_size = lower_index_of va) : v = page_num_of va := by
  have h := Nat.div_add_mod v table_size
  rw [h1, h2] at h
  unfold page_num_of
  rw [← h, Nat.mul_comm]

theorem table_release_scan_eq (pgdir : Nat → Option (Nat → Nat)) (u : Nat) :
    ∀ fuel j, table_release_scan pgdir u fuel j = pgdir := by
  intro fuel
  induction fuel with
  | zero => intro j; rfl
  | succ fuel ih =>
    intro j
    unfold table_release_scan
    split
    · rfl
    · split
      · rfl
      · exact ih (j + 1)

theorem Inv_unmap (s : State) (va : Nat) (table : Nat → Nat) (pb : Nat → Nat)
    (hi : Inv s) (ht : s.pgdir (upper_index_of va) = some table) :
    Inv { s with
      pgdir := setAt s.pgdir (upper_index_of va) (some (setAt table (lower_index_of va) 0))
      physical_bitmap := pb
      virtual_bitmap := setAt s.virtual_bitmap (page_num_of va) 0 } := by
  obtain ⟨c, z, ho, hm⟩ := hi
  refine ⟨?_, ?_, ho, hm⟩
  · intro v
    show setAt s.virtual_bitmap (page_num_of va) 0 v = 1 ↔
      ∃ t, setAt s.pgdir (upper_index_of va) (some (setAt table (lower_index_of va) 0))
        (v / table_size) = some t ∧ t (v % table_size) ≠ 0
    by_cases hv : v = page_num_of va
    · subst hv
      rw [setAt_same, page_num_of_div, page_num_of_mod, setAt_same]
      constructor
      · intro h; cases h
      · rintro ⟨t, h1, h2⟩
        cases h1
        rw [setAt_same] at h2
        exact absurd rfl h2
    · rw [setAt_other _ _ _ _ hv, c v]
      by_cases hu : v / table_size = upper_index_of va
      · rw [hu, setAt_same, ht]
        have hl : v % table_size ≠ lower_index_of va :=
          fun hl => hv (page_eq_of_indices va v hu hl)
        constructor
        · rintro ⟨t, h1, h2⟩
          cases h1
          exact ⟨_, rfl, by rw [setAt_other _ _ _ _ hl]; exact h2⟩
        · rintro ⟨t, h1, h2⟩
          cases h1
          rw [setAt_other _ _ _ _ hl] at h2
          exact ⟨_, rfl, h2⟩
      · rw [setAt_other _ _ _ _ hu]
  · show setAt s.virtual_bitmap (page_num_of va) 0 0 = 0
    unfold setAt
    split
    · rfl
    · exact z

theorem Inv_map (s : State) (va pa : Nat) (pb : Nat → Nat) (lk : Bool)
    (hi : Inv s) (hpa : pa ≠ 0) (hp : page_num_of va ≠ 0) :
    Inv { s with
      virtual_bitmap := setAt s.virtual_bitmap (page_num_of va) 1
      physical_bitmap := pb
      pgdir := setAt s.pgdir (upper_index_of va)
        (some (setAt (match s.pgdir (upper_index_of va) with
                      | none => fun _ => 0
                      | some t => t) (lower_index_of va) pa))
      pagedir_lock := lk } := by
  obtain ⟨c, z, ho, hm⟩ := hi
  refine ⟨?_, ?_, ho, hm⟩
  · intro v
    show setAt s.virtual_bitmap (page_num_of va) 1 v = 1 ↔
      ∃ t, setAt s.pgdir (upper_index_of va)
        (some (setAt (match s.pgdir (upper_index_of va) with
                      | none => fun _ => 0
                      | some t => t) (lower_index_of va) pa))
        (v / table_size) = some t ∧ t (v % table_size) ≠ 0
    by_cases hv : v = page_num_of va
    · subst hv
      rw [setAt_same, page_num_of_div, page_num_of_mod, setAt_same]
      constructor
      · intro _
        exact ⟨_, rfl, by rw [setAt_same]; exact hpa⟩
      · intro _; rfl
    · rw [setAt_other _ _ _ _ hv, c v]
      by_cases hu : v / table_size = upper_index_of va
      · rw [hu, setAt_same]
        have hl : v % table_size ≠ lower_index_of va :=
          fun hl => hv (page_eq_of_indices va v hu hl)
        constructor
        · rintro ⟨t, h1, h2⟩
          refine ⟨_, rfl, ?_⟩
          rw [setAt_other _ _ _ _ hl, h1]
          exact h2
        · rintro ⟨t, h1, h2⟩
          cases h1
          rw [setAt_other _ _ _ _ hl] at h2
          cases hq : s.pgdir (upper_index_of va) with
          | none =>
            rw [hq] at h2
            exact absurd rfl h2
          | some t0 =>
            rw [hq] at h2
            exact ⟨t0, rfl, h2⟩
      · rw [setAt_other _ _ _ _ hu]
  · show setAt s.virtual_bitmap (page_num_of va) 1 0 = 0
    rw [setAt_other _ _ _ _ (Ne.symm hp)]
    exact z

theorem myfree_release_inv (va : Nat) :
    ∀ (pas : List Nat) (i : Nat) (s s1 : State) (u : Unit),
      Inv s → myfree_release va pas i s = .ret u s1 → Inv s1 := by
  intro pas
  induction pas with
  | nil =>
    intro i s s1 u hi h
    unfold myfree_release at h
    cases h
    exact hi
  | cons pa rest ih =>
    intro i s s1 u hi h
    unfold myfree_release at h
    simp only at h
    split at h
    · cases h
    · rename_i table ht
      split at h
      · cases h
      · rw [table_release_scan_eq] at h
        exact ih _ _ _ _ (Inv_unmap s _ table _ hi ht) h


/-! ## The two ways of `PageMap` on a marked page -/

/-- On a marked page with `pagedir_lock` free, `PageMap` returns `0` in the
state `PageMap_done` when the directory slot holds a table or the host grants
one. -/
theorem PageMap_granted (va pa : Nat) (s : State)
    (hv : s.virtual_bitmap (page_num_of va) ≠ 0) (hl : s.pagedir_lock = false)
    (hg : s.pgdir (upper_index_of va) = none → s.host_grants s.table_requests = true) :
    PageMap va pa s = .ret 0 (PageMap_done va pa s) := by
  unfold PageMap PageMap_done
  rw [if_neg hv, if_neg (by rw [hl]; decide)]
  cases hq : s.pgdir (upper_index_of va) with
  | none =>
    simp only
    rw [if_pos (hg hq)]
  | some table => rfl

/-- On a marked page with `pagedir_lock` free, `PageMap` returns `-1`, with
`pagedir_lock` held and nothing else changed, when the directory slot is empty
and the host refuses the table. -/
theorem PageMap_refused (va pa : Nat) (s : State)
    (hv : s.virtual_bitmap (page_num_of va) ≠ 0) (hl : s.pagedir_lock = false)
    (hd : s.pgdir (upper_index_of va) = none)
    (hr : s.host_grants s.table_requests = false) :
    PageMap va pa s =
      .ret (-1) { s with table_requests := s.table_requests + 1, pagedir_lock := true } := by
  unfold PageMap
  rw [if_neg hv, if_neg (by rw [hl]; decide)]
  simp only [hd]
  rw [if_neg (by rw [hr]; decide)]

theorem PageMap_blocked (va pa : Nat) (s : State)
    (hv : s.virtual_bitmap (page_num_of va) ≠ 0) (hl : s.pagedir_lock = true) :
    PageMap va pa s = .blocked := by
  unfold PageMap
  rw [if_neg hv, if_pos hl]

/-- What `PageMap` leaves as it is, however it returns. -/
theorem PageMap_frame (va pa : Nat) (s s2 : State) (r : Int)
    (h : PageMap va pa s = .ret r s2) :
    s2.heap = s.heap ∧ s2.memory = s.memory ∧ s2.is_initilized = s.is_initilized ∧
    s2.virtual_bitmap = s.virtual_bitmap ∧ s2.physical_bitmap = s.physical_bitmap ∧
    s2.tlb_store = s.tlb_store ∧ s2.host_grants = s.host_grants := by
  unfold PageMap at h
  split at h
  · cases h
    exact ⟨rfl, rfl, rfl, rfl, rfl, rfl, rfl⟩
  · split at h
    · cases h
    · split at h
      · split at h
        · cases h
          exact ⟨rfl, rfl, rfl, rfl, rfl, rfl, rfl⟩
        · cases h
          exact ⟨rfl, rfl, rfl, rfl, rfl, rfl, rfl⟩
      · cases h
        exact ⟨rfl, rfl, rfl, rfl, rfl, rfl, rfl⟩

/-- One round of the mapping loop of `myalloc` in which the page index is
inside the bitmap, `pagedir_lock` is free and the directory slot holds a table
or the host grants one. -/
theorem myalloc_loop_step (va_first i0 f : Nat) (rest : List Nat) (i : Nat) (s : State)
    (hb : ¬ virtual_pages ≤ i0 + i) (hl : s.pagedir_lock = false)
    (hpn : page_num_of ((va_first + PGSIZE * i) % WORD) = i0 + i)
    (hg : s.pgdir (upper_index_of ((va_first + PGSIZE * i) % WORD)) = none →
      s.host_grants s.table_requests = true) :
    myalloc_loop va_first i0 (f :: rest) i s =
      myalloc_loop va_first i0 rest (i + 1) (map_step va_first i0 f i s) := by
  have e := PageMap_granted ((va_first + PGSIZE * i) % WORD)
    ((page_num_to_address f + s.memory) % WORD)
    { s with
      virtual_bitmap := setAt s.virtual_bitmap (i0 + i) 1
      physical_bitmap := setAt s.physical_bitmap f 1 }
    (by
      show setAt s.virtual_bitmap (i0 + i) 1 (page_num_of _) ≠ 0
      rw [hpn, setAt_same]
      decide) hl hg
  conv => lhs; unfold myalloc_loop
  rw [if_neg hb]
  simp only [e]
  rw [if_neg (by decide)]
  rfl

theorem myalloc_loop_locked (va_first i0 f : Nat) (rest : List Nat) (i : Nat) (s : State)
    (hb : ¬ virtual_pages ≤ i0 + i) (hl : s.pagedir_lock = true)
    (hpn : page_num_of ((va_first + PGSIZE * i) % WORD) = i0 + i) :
    myalloc_loop va_first i0 (f :: rest) i s = .blocked := by
  have e := PageMap_blocked ((va_first + PGSIZE * i) % WORD)
    ((page_num_to_address f + s.memory) % WORD)
    { s with
      virtual_bitmap := setAt s.virtual_bitmap (i0 + i) 1
      physical_bitmap := setAt s.physical_bitmap f 1 }
    (by
      show setAt s.virtual_bitmap (i0 + i) 1 (page_num_of _) ≠ 0
      rw [hpn, setAt_same]
      decide) hl
  conv => lhs; unfold myalloc_loop
  rw [if_neg hb]
  simp only [e]

/-! ## What the loops over `Translate` keep -/

/-- A property of states that `Translate` keeps, and that does not depend on
the host memory and the locks, is kept by the loop of `PutVal`. -/
theorem PutVal_loop_keeps (P : State → Prop)
    (hT : ∀ va s s1 p, P s → Translate va s = .ret p s1 → P s1)
    (hF : ∀ s ram b, P s → P { s with ram := ram, bitmap_lock := b })
    (va : Nat) (val : Nat → Nat) (size : Nat) :
    ∀ (k i b : Nat) (s s1 : State) (r : Int),
      P s → PutVal_loop va val size k i b s = .ret r s1 → P s1 := by
  intro k
  induction k with
  | zero =>
    intro i b s s1 r hp h
    unfold PutVal_loop at h
    cases h
    exact hp
  | succ k ih =>
    intro i b s s1 r hp h
    unfold PutVal_loop at h
    split at h
    · cases h
    · split at h
      · rename_i entry s2 ht
        have h1 := hT _ _ _ _ (hF s s.ram true hp) ht
        split at h
        · cases h
          exact h1
        · simp only at h
          refine ih _ _ _ _ _ ?_ h
          exact hF s2 _ false h1
      · cases h
      · cases h

/-- The same for the loop of `GetVal`. -/
theorem GetVal_loop_keeps (P : State → Prop)
    (hT : ∀ va s s1 p, P s → Translate va s = .ret p s1 → P s1)
    (hF : ∀ s ram b, P s → P { s with ram := ram, bitmap_lock := b })
    (va : Nat) (size : Nat) :
    ∀ (k i b : Nat) (val : Nat → Nat) (s s1 : State) (r : Int × (Nat → Nat)),
      P s → GetVal_loop va size k i b val s = .ret r s1 → P s1 := by
  intro k
  induction k with
  | zero =>
    intro i b val s s1 r hp h
    unfold GetVal_loop at h
    cases h
    exact hp
  | succ k ih =>
    intro i b val s s1 r hp h
    unfold GetVal_loop at h
    split at h
    · cases h
    · split at h
      · rename_i entry s2 ht
        have h1 := hT _ _ _ _ (hF s s.ram true hp) ht
        split at h
        · cases h
          exact h1
        · simp only at h
          refine ih _ _ _ _ _ _ ?_ h
          exact hF s2 _ false h1
      · cases h
      · cases h

/-- The same for the first loop of `myfree`. -/
theorem myfree_translate_keeps (P : State → Prop)
    (hT : ∀ va s s1 p, P s → Translate va s = .ret p s1 → P s1) (va : Nat) :
    ∀ (k i : Nat) (s s1 : State) (r : Option (List Nat)),
      P s → myfree_translate va k i s = .ret r s1 → P s1 := by
  intro k
  induction k with
  | zero =>
    intro i s s1 r hp h
    unfold myfree_translate at h
    cases h
    exact hp
  | succ k ih =>
    intro i s s1 r hp h
    unfold myfree_translate at h
    split at h
    · rename_i pa s2 ht
      have h1 := hT _ _ _ _ hp ht
      split at h
      · cases h
        exact h1
      · split at h
        · rename_i l s3 hr
          cases h
          exact ih _ _ _ _ h1 hr
        · rename_i s3 hr
          cases h
          exact ih _ _ _ _ h1 hr
        · cases h
        · cases h
    · cases h
    · cases h


/-! ## The answers of the host stay the same -/

theorem check_TLB_host (va : Nat) (s : State) :
    (check_TLB va s).2.host_grants = s.host_grants := by
  unfold check_TLB
  split
  · rfl
  · split <;> rfl

theorem add_TLB_host (va pa : Nat) (s s1 : State) (u : Unit)
    (h : add_TLB va pa s = .ret u s1) : s1.host_grants = s.host_grants := by
  unfold add_TLB at h
  split at h
  · cases h
  · split at h
    · split at h
      · cases h
      · cases h
        rfl
    · cases h
      rfl

theorem Translate_host (va : Nat) (s s1 : State) (p : Nat)
    (h : Translate va s = .ret p s1) : s1.host_grants = s.host_grants := by
  unfold Translate at h
  have hc := check_TLB_host va { s with tlb_lock := true }
  split at h
  · cases h
  · simp only at h
    split at h
    · cases h
      exact hc
    · split at h
      · cases h
      · split at h
        · cases h
          exact hc
        · split at h
          · cases h
          · split at h
            · rename_i u s3 hadd
              cases h
              exact (add_TLB_host _ _ _ _ _ hadd).trans hc
            · cases h
            · cases h

/-- What the mapping loop of `myalloc` leaves as it is, however it returns;
it returns `NULL` or the address of the first page. -/
theorem myalloc_loop_frame (va_first i0 : Nat) :
    ∀ (frames : List Nat) (i : Nat) (s s1 : State) (r : Nat),
      myalloc_loop va_first i0 frames i s = .ret r s1 →
      s1.heap = s.heap ∧ s1.is_initilized = s.is_initilized ∧
      s1.tlb_store = s.tlb_store ∧ s1.host_grants = s.host_grants ∧
      (1 ≤ i0 → s.virtual_bitmap 0 = 0 → s1.virtual_bitmap 0 = 0) ∧
      (r = 0 ∨ r = va_first) := by
  intro frames
  induction frames with
  | nil =>
    intro i s s1 r h
    unfold myalloc_loop at h
    cases h
    exact ⟨rfl, rfl, rfl, rfl, fun _ hz => hz, Or.inr rfl⟩
  | cons f rest ih =>
    intro i s s1 r h
    unfold myalloc_loop at h
    split at h
    · cases h
    · simp only at h
      split at h
      · rename_i r2 s2 hpm
        obtain ⟨a1, _, a3, a4, _, a6, a7⟩ := PageMap_frame _ _ _ _ _ hpm
        have hz : 1 ≤ i0 → s.virtual_bitmap 0 = 0 → s2.virtual_bitmap 0 = 0 := by
          intro h1 hz
          rw [a4]
          show setAt s.virtual_bitmap (i0 + i) 1 0 = 0
          rw [setAt_other _ _ _ _ (by omega)]
          exact hz
        split at h
        · cases h
          exact ⟨a1, a3, a6, a7, hz, Or.inl rfl⟩
        · obtain ⟨b1, b3, b6, b7, bz, br⟩ := ih _ _ _ _ h
          exact ⟨b1.trans a1, b3.trans a3, b6.trans a6, b7.trans a7,
            fun h1 h0 => bz h1 (hz h1 h0), br⟩
      · cases h
      · cases h

theorem myfree_release_frame (va : Nat) :
    ∀ (pas : List Nat) (i : Nat) (s s1 : State) (u : Unit),
      myfree_release va pas i s = .ret u s1 →
      s1.is_initilized = s.is_initilized ∧ s1.tlb_store = s.tlb_store ∧
      s1.host_grants = s.host_grants ∧ (s.virtual_bitmap 0 = 0 → s1.virtual_bitmap 0 = 0) := by
  intro pas
  induction pas with
  | nil =>
    intro i s s1 u h
    unfold myfree_release at h
    cases h
    exact ⟨rfl, rfl, rfl, fun hz => hz⟩
  | cons pa rest ih =>
    intro i s s1 u h
    unfold myfree_release at h
    simp only at h
    split at h
    · cases h
    · split at h
      · cases h
      · obtain ⟨b1, b2, b3, bz⟩ := ih _ _ _ _ h
        refine ⟨b1, b2, b3, ?_⟩
        intro hz
        apply bz
        show setAt s.virtual_bitmap _ 0 0 = 0
        unfold setAt
        split
        · rfl
        · exact hz
/-! ## The searches -/

theorem get_next_avail_loop_found (vb : Nat → Nat) (n : Nat) :
    ∀ (fuel i va : Nat), get_next_avail_loop vb n fuel i = .found va →
      ∃ i0, i ≤ i0 ∧ i0 < i + fuel ∧ va = first_page_address i0 ∧ vb i0 = 0 := by
  intro fuel
  induction fuel with
  | zero =>
    intro i va h
    unfold get_next_avail_loop at h
    cases h
  | succ fuel ih =>
    intro i va h
    unfold get_next_avail_loop at h
    split at h
    · rename_i hz
      split at h
      · cases h
      · split at h
        · cases h
          exact ⟨i, Nat.le_refl i, by omega, rfl, hz⟩
        · obtain ⟨i0, h1, h2, h3, h4⟩ := ih _ _ h
          exact ⟨i0, by omega, by omega, h3, h4⟩
    · obtain ⟨i0, h1, h2, h3, h4⟩ := ih _ _ h
      exact ⟨i0, by omega, by omega, h3, h4⟩

theorem get_next_avail_found (n : Nat) (s : State) (va : Nat)
    (h : get_next_avail n s = .found va) :
    ∃ i0, 1 ≤ i0 ∧ i0 < virtual_pages ∧ va = first_page_address i0 ∧
      s.virtual_bitmap i0 = 0 := by
  unfold get_next_avail at h
  obtain ⟨i0, h1, h2, h3, h4⟩ := get_next_avail_loop_found _ _ _ _ _ h
  refine ⟨i0, h1, ?_, h3, h4⟩
  rw [virtual_pages_eq] at h2 ⊢
  omega

theorem collect_frames_bound (pb : Nat → Nat) :
    ∀ (fuel i need f : Nat), f ∈ collect_frames pb fuel i need → i ≤ f ∧ f < i + fuel := by
  intro fuel
  induction fuel with
  | zero =>
    intro i need f h
    unfold collect_frames at h
    cases h
  | succ fuel ih =>
    intro i need f h
    cases need with
    | zero =>
      unfold collect_frames at h
      cases h
    | succ need =>
      unfold collect_frames at h
      split at h
      · rcases List.mem_cons.mp h with h | h
        · subst h; omega
        · have := ih _ _ _ h
          omega
      · have := ih _ _ _ h
        omega

theorem get_avail_physical_bound (n : Nat) (s : State) (pages : List Nat)
    (h : get_avail_physical n s = some pages) :
    ∀ f ∈ pages, 1 ≤ f ∧ f < physical_pages := by
  unfold get_avail_physical at h
  simp only at h
  split at h
  · cases h
  · cases h
    intro f hf
    have := collect_frames_bound _ _ _ _ _ hf
    rw [physical_pages_eq] at this ⊢
    omega

/-! ## The invariant is kept by `myalloc` -/

theorem page_num_to_address_lt (f : Nat) (h : f < physical_pages) :
    page_num_to_address f < MEMSIZE := by
  unfold page_num_to_address
  rw [table_size_eq, PGSIZE_eq, WORD_eq, MEMSIZE_eq]
  rw [physical_pages_eq] at h
  have hlt : f / 1024 * 1024 + f % 1024 * 4096 < 2 ^ 30 := by omega
  rw [Nat.mod_eq_of_lt (by omega)]
  exact hlt

theorem frame_address_ne_zero (f heap : Nat) (h : f < physical_pages) (ho : heap_ok heap) :
    (page_num_to_address f + heap) % WORD ≠ 0 := by
  have h1 := page_num_to_address_lt f h
  obtain ⟨h2, h3⟩ := ho
  rw [Nat.mod_eq_of_lt (by omega)]
  omega

theorem map_step_inv (i0 f i : Nat) (s : State) (hi : Inv s) (hinit : s.is_initilized = true)
    (hf : f < physical_pages) (hp : i0 + i ≠ 0)
    (hpn : page_num_of ((first_page_address i0 + PGSIZE * i) % WORD) = i0 + i) :
    Inv (map_step (first_page_address i0) i0 f i s) := by
  have hmem : s.memory = s.heap := hi.2.2.2 hinit
  have hpa : (page_num_to_address f + s.memory) % WORD ≠ 0 := by
    rw [hmem]
    exact frame_address_ne_zero f s.heap hf hi.2.2.1
  have hinv := Inv_map s ((first_page_address i0 + PGSIZE * i) % WORD)
    ((page_num_to_address f + s.memory) % WORD) (setAt s.physical_bitmap f 1) false
    hi hpa (by rw [hpn]; exact hp)
  rw [hpn] at hinv
  exact hinv

theorem myalloc_loop_inv (i0 : Nat) (h1 : 1 ≤ i0) :
    ∀ (frames : List Nat) (i : Nat) (s s1 : State) (r : Nat),
      (∀ f ∈ frames, f < physical_pages) → Inv s → Granting s → s.is_initilized = true →
      myalloc_loop (first_page_address i0) i0 frames i s = .ret r s1 →
      Inv s1 ∧ r = first_page_address i0 := by
  intro frames
  induction frames with
  | nil =>
    intro i s s1 r _ hi _ _ h
    unfold myalloc_loop at h
    cases h
    exact ⟨SameTables_inv ⟨rfl, rfl, rfl, rfl, rfl, rfl⟩ hi, rfl⟩
  | cons f rest ih =>
    intro i s s1 r hf hi hg hinit h
    by_cases hb : virtual_pages ≤ i0 + i
    · unfold myalloc_loop at h
      rw [if_pos hb] at h
      cases h
    · have hb2 := hb
      rw [virtual_pages_eq] at hb2
      have hpn := page_num_of_first_page_address i0 i (by omega)
      by_cases hl : s.pagedir_lock = true
      · rw [myalloc_loop_locked _ i0 f rest i s hb hl hpn] at h
        cases h
      · have hl0 : s.pagedir_lock = false := by
          cases hq : s.pagedir_lock
          · rfl
          · exact absurd hq hl
        rw [myalloc_loop_step _ i0 f rest i s hb hl0 hpn (fun _ => hg _)] at h
        exact ih (i + 1) _ s1 r (fun g hg2 => hf g (List.mem_cons_of_mem f hg2))
          (map_step_inv i0 f i s hi hinit (hf f (List.mem_cons_self f rest)) (by omega) hpn)
          hg hinit h

theorem SetPhysicalMem_inv (s : State) (hi : Inv s) : Inv (SetPhysicalMem s) := by
  unfold SetPhysicalMem
  split
  · exact hi
  · refine ⟨?_, rfl, hi.2.2.1, fun _ => rfl⟩
    intro v
    constructor
    · intro h; cases h
    · rintro ⟨t, h1, _⟩
      cases h1

theorem SetPhysicalMem_init (s : State) : (SetPhysicalMem s).is_initilized = true := by
  unfold SetPhysicalMem
  split
  · assumption
  · rfl

theorem myalloc_entry_inv (s : State) (hi : Inv s) : Inv (myalloc_entry s) :=
  SameTables_inv ⟨rfl, rfl, rfl, rfl, rfl, rfl⟩
    (SetPhysicalMem_inv _ (SameTables_inv (s := s) ⟨rfl, rfl, rfl, rfl, rfl, rfl⟩ hi))

theorem myalloc_entry_init (s : State) : (myalloc_entry s).is_initilized = true :=
  SetPhysicalMem_init _

theorem myalloc_entry_virtual_bitmap (s : State) :
    (myalloc_entry s).virtual_bitmap = (SetPhysicalMem s).virtual_bitmap := by
  unfold myalloc_entry SetPhysicalMem
  show (if s.is_initilized = true then _ else _ : State).virtual_bitmap = _
  split <;> rfl

theorem myalloc_entry_physical_bitmap (s : State) :
    (myalloc_entry s).physical_bitmap = (SetPhysicalMem s).physical_bitmap := by
  unfold myalloc_entry SetPhysicalMem
  show (if s.is_initilized = true then _ else _ : State).physical_bitmap = _
  split <;> rfl

theorem myalloc_entry_bitmap_lock (s : State) : (myalloc_entry s).bitmap_lock = true := by
  unfold myalloc_entry SetPhysicalMem
  show (if s.is_initilized = true then _ else _ : State).bitmap_lock = _
  split <;> rfl

theorem myalloc_entry_pagedir_lock (s : State) : (myalloc_entry s).pagedir_lock = false := rfl

theorem myalloc_entry_pgdir (s : State) :
    (myalloc_entry s).pgdir = (SetPhysicalMem s).pgdir := by
  unfold myalloc_entry SetPhysicalMem
  show (if s.is_initilized = true then _ else _ : State).pgdir = _
  split <;> rfl

theorem myalloc_entry_tlb_store (s : State) :
    (myalloc_entry s).tlb_store = (SetPhysicalMem s).tlb_store := by
  unfold myalloc_entry SetPhysicalMem
  show (if s.is_initilized = true then _ else _ : State).tlb_store = _
  split <;> rfl

/-- A call of `myalloc_pages` in an initialised state with the invariant keeps
the invariant, and returns `NULL` in the state it started in or the address
built for a page `i` with `1 ≤ i < virtual_pages`. -/
theorem myalloc_pages_spec (n : Nat) (s0 s1 : State) (r : Nat) (hi0 : Inv s0)
    (hg : Granting s0) (hinit : s0.is_initilized = true)
    (h : myalloc_pages n s0 = .ret r s1) :
    Inv s1 ∧ ((r = 0 ∧ s1 = s0) ∨ ∃ i, 1 ≤ i ∧ i < virtual_pages ∧ r = first_page_address i) := by
  unfold myalloc_pages at h
  split at h
  · cases h
  · cases h
    exact ⟨hi0, Or.inl ⟨rfl, rfl⟩⟩
  · rename_i va_first hfound
    obtain ⟨i0, h1, h2, h3, _⟩ := get_next_avail_found _ _ _ hfound
    split at h
    · cases h
      exact ⟨hi0, Or.inl ⟨rfl, rfl⟩⟩
    · rename_i pa_nums hphys
      have hb := get_avail_physical_bound _ _ _ hphys
      have h2' := h2
      rw [virtual_pages_eq] at h2'
      rw [h3, address_to_page_num_first i0 h2'] at h
      have := myalloc_loop_inv i0 h1 pa_nums 0 _ s1 r (fun f hf => (hb f hf).2) hi0 hg hinit h
      exact ⟨this.1, Or.inr ⟨i0, h1, h2, this.2⟩⟩

theorem myalloc_ret (n : Nat) (s s1 : State) (r : Nat) (h : myalloc n s = .ret r s1) :
    myalloc_pages (pages_for n) (myalloc_entry s) = .ret r s1 := by
  unfold myalloc at h
  split at h
  · cases h
  · split at h
    · cases h
    · exact h

theorem myalloc_entry_host (s : State) :
    (myalloc_entry s).host_grants = s.host_grants := by
  unfold myalloc_entry SetPhysicalMem
  show (if s.is_initilized = true then _ else _ : State).host_grants = _
  split <;> rfl

theorem myalloc_entry_granting (s : State) (hg : Granting s) : Granting (myalloc_entry s) := by
  intro k
  rw [myalloc_entry_host]
  exact hg k

theorem myalloc_inv (n : Nat) (s s1 : State) (r : Nat) (hi : Inv s) (hg : Granting s)
    (h : myalloc n s = .ret r s1) : Inv s1 :=
  (myalloc_pages_spec _ _ _ _ (myalloc_entry_inv s hi) (myalloc_entry_granting s hg)
    (myalloc_entry_init s) (myalloc_ret n s s1 r h)).1

theorem myfree_inv (va size : Nat) (s s1 : State) (r : Option Int) (hi : Inv s)
    (h : myfree va size s = .ret r s1) : Inv s1 := by
  unfold myfree at h
  split at h
  · cases h
    exact hi
  · split at h
    · cases h
    · split at h
      · cases h
      · have hi0 : Inv { s with bitmap_lock := true, pagedir_lock := true } :=
          SameTables_inv (s := s) ⟨rfl, rfl, rfl, rfl, rfl, rfl⟩ hi
        split at h
        · rename_i s2 ht
          cases h
          exact SameTables_inv (myfree_translate_same _ _ _ _ _ _ ht) hi0
        · rename_i pas s2 ht
          have hi2 := SameTables_inv (myfree_translate_same _ _ _ _ _ _ ht) hi0
          split at h
          · rename_i u s3 hr
            cases h
            exact SameTables_inv ⟨rfl, rfl, rfl, rfl, rfl, rfl⟩
              (myfree_release_inv va pas 0 s2 s3 u hi2 hr)
          · cases h
          · cases h
        · cases h
        · cases h

theorem boot_state_inv (heap : Nat) (ram : Nat → Nat) (h : heap_ok heap) :
    Inv (boot_state heap ram) := by
  refine ⟨?_, rfl, h, ?_⟩
  · intro v
    constructor
    · intro h; cases h
    · rintro ⟨t, h1, _⟩
      cases h1
  · intro h
    cases h

theorem myalloc_host (n : Nat) (s s1 : State) (r : Nat) (h : myalloc n s = .ret r s1) :
    s1.host_grants = s.host_grants := by
  have h2 := myalloc_ret n s s1 r h
  unfold myalloc_pages at h2
  split at h2
  · cases h2
  · cases h2
    exact myalloc_entry_host s
  · rename_i va_first hfound
    obtain ⟨i0, h1, _, _, _⟩ := get_next_avail_found _ _ _ hfound
    split at h2
    · cases h2
      exact myalloc_entry_host s
    · exact ((myalloc_loop_frame _ _ _ _ _ _ _ h2).2.2.2.1).trans (myalloc_entry_host s)

theorem myfree_host (va size : Nat) (s s1 : State) (r : Option Int)
    (h : myfree va size s = .ret r s1) : s1.host_grants = s.host_grants := by
  unfold myfree at h
  split at h
  · cases h
    rfl
  · split at h
    · cases h
    · split at h
      · cases h
      · split at h
        · rename_i s2 ht
          cases h
          exact myfree_translate_keeps (fun x => x.host_grants = s.host_grants)
            (fun va a b p ha hr => (Translate_host va a b p hr).trans ha) va _ _ _ _ _ (by rfl) ht
        · rename_i pas s2 ht
          have h2 : s2.host_grants = s.host_grants :=
            myfree_translate_keeps (fun x => x.host_grants = s.host_grants)
              (fun va a b p ha hr => (Translate_host va a b p hr).trans ha) va _ _ _ _ _ (by rfl) ht
          split at h
          · rename_i u s3 hr
            cases h
            exact ((myfree_release_frame va pas 0 s2 s3 u hr).2.2.1).trans h2
          · cases h
          · cases h
        · cases h
        · cases h

/-- No call changes what the host answers. -/
theorem Call_run_host (c : Call) (s s1 : State) (h : c.run s = some s1) :
    s1.host_grants = s.host_grants := by
  cases c with
  | myalloc n =>
    simp only [Call.run] at h
    cases ho : MyVM.myalloc n s with
    | ret v s2 =>
      rw [ho] at h
      cases h
      exact myalloc_host _ _ _ _ ho
    | blocked => rw [ho] at h; cases h
    | fault => rw [ho] at h; cases h
  | myfree va size =>
    simp only [Call.run] at h
    cases ho : MyVM.myfree va size s with
    | ret v s2 =>
      rw [ho] at h
      cases h
      exact myfree_host _ _ _ _ _ ho
    | blocked => rw [ho] at h; cases h
    | fault => rw [ho] at h; cases h
  | PutVal va val size =>
    simp only [Call.run] at h
    cases ho : MyVM.PutVal va val size s with
    | ret v s2 =>
      rw [ho] at h
      cases h
      unfold MyVM.PutVal at ho
      split at ho
      · cases ho
        rfl
      · exact PutVal_loop_keeps (fun x => x.host_grants = s.host_grants)
          (fun va a b p ha hr => (Translate_host va a b p hr).trans ha)
          (fun a ram b ha => ha) _ _ _ _ _ _ _ _ _ (by rfl) ho
    | blocked => rw [ho] at h; cases h
    | fault => rw [ho] at h; cases h
  | GetVal va val size =>
    simp only [Call.run] at h
    cases ho : MyVM.GetVal va val size s with
    | ret v s2 =>
      rw [ho] at h
      cases h
      unfold MyVM.GetVal at ho
      split at ho
      · cases ho
        rfl
      · exact GetVal_loop_keeps (fun x => x.host_grants = s.host_grants)
          (fun va a b p ha hr => (Translate_host va a b p hr).trans ha)
          (fun a ram b ha => ha) _ _ _ _ _ _ _ _ _ (by rfl) ho
    | blocked => rw [ho] at h; cases h
    | fault => rw [ho] at h; cases h
  | Translate va =>
    simp only [Call.run] at h
    cases ho : MyVM.Translate va s with
    | ret v s2 =>
      rw [ho] at h
      cases h
      exact Translate_host _ _ _ _ ho
    | blocked => rw [ho] at h; cases h
    | fault => rw [ho] at h; cases h

theorem granting_before (c : Call) (s s1 : State) (h : c.run s = some s1)
    (hg : Granting s1) : Granting s := by
  intro k
  rw [← Call_run_host c s s1 h]
  exact hg k

theorem Call_run_inv (c : Call) (s s1 : State) (hi : Inv s) (hg : Granting s)
    (h : c.run s = some s1) : Inv s1 := by
  cases c with
  | myalloc n =>
    simp only [Call.run] at h
    cases ho : MyVM.myalloc n s with
    | ret v s2 =>
      rw [ho] at h
      cases h
      exact myalloc_inv _ _ _ _ hi hg ho
    | blocked => rw [ho] at h; cases h
    | fault => rw [ho] at h; cases h
  | myfree va size =>
    simp only [Call.run] at h
    cases ho : MyVM.myfree va size s with
    | ret v s2 =>
      rw [ho] at h
      cases h
      exact myfree_inv _ _ _ _ _ hi ho
    | blocked => rw [ho] at h; cases h
    | fault => rw [ho] at h; cases h
  | PutVal va val size =>
    simp only [Call.run] at h
    cases ho : MyVM.PutVal va val size s with
    | ret v s2 =>
      rw [ho] at h
      cases h
      unfold MyVM.PutVal at ho
      split at ho
      · cases ho
        exact hi
      · exact SameTables_inv (PutVal_loop_same _ _ _ _ _ _ _ _ _ ho) hi
    | blocked => rw [ho] at h; cases h
    | fault => rw [ho] at h; cases h
  | GetVal va val size =>
    simp only [Call.run] at h
    cases ho : MyVM.GetVal va val size s with
    | ret v s2 =>
      rw [ho] at h
      cases h
      unfold MyVM.GetVal at ho
      split at ho
      · cases ho
        exact hi
      · exact SameTables_inv (GetVal_loop_same _ _ _ _ _ _ _ _ _ ho) hi
    | blocked => rw [ho] at h; cases h
    | fault => rw [ho] at h; cases h
  | Translate va =>
    simp only [Call.run] at h
    cases ho : MyVM.Translate va s with
    | ret v s2 =>
      rw [ho] at h
      cases h
      exact SameTables_inv (Translate_same _ _ _ _ ho) hi
    | blocked => rw [ho] at h; cases h
    | fault => rw [ho] at h; cases h

/-- Every reachable state whose host grants every table has the invariant. -/
theorem Reachable_inv {s : State} (h : Reachable s) (hg : Granting s) : Inv s := by
  induction h with
  | boot heap ram host ho =>
    exact SameTables_inv (s := boot_state heap ram) ⟨rfl, rfl, rfl, rfl, rfl, rfl⟩
      (boot_state_inv heap ram ho)
  | call c s s1 _ hs ih =>
    have hg0 := granting_before c s s1 hs hg
    exact Call_run_inv c s s1 (ih hg0) hg0 hs


/-- A call of `myalloc` in a state with the invariant returns `NULL` in the
state reached after its first four lines, or the address built for a page `i`
with `1 ≤ i < virtual_pages`. -/
theorem myalloc_value (n : Nat) (s s1 : State) (r : Nat) (hi : Inv s) (hg : Granting s)
    (h : myalloc n s = .ret r s1) :
    (r = 0 ∧ s1 = myalloc_entry s) ∨
    ∃ i, 1 ≤ i ∧ i < virtual_pages ∧ r = first_page_address i :=
  (myalloc_pages_spec _ _ _ _ (myalloc_entry_inv s hi) (myalloc_entry_granting s hg)
    (myalloc_entry_init s) (myalloc_ret n s s1 r h)).2

theorem reachable_of_run_calls :
    ∀ (cs : List Call) (s s1 : State), Reachable s → run_calls cs s = some s1 → Reachable s1 := by
  intro cs
  induction cs with
  | nil =>
    intro s s1 hr h
    unfold run_calls at h
    cases h
    exact hr
  | cons c rest ih =>
    intro s s1 hr h
    unfold run_calls at h
    split at h
    · cases h
    · rename_i s2 hc
      exact ih s2 s1 (Reachable.call c s s2 hr hc) h

/-! ## Page 0 is never marked, whatever the host answers -/

theorem pages_for_one : pages_for 1 = 1 := by decide

theorem get_next_avail_loop_first (vb : Nat → Nat) :
    ∀ (fuel i m : Nat), (∀ j, i ≤ j → j < m → vb j ≠ 0) → vb m = 0 → i ≤ m → m < i + fuel →
      get_next_avail_loop vb 1 fuel i = .found (first_page_address m) := by
  intro fuel
  induction fuel with
  | zero =>
    intro i m _ _ h1 h2
    omega
  | succ fuel ih =>
    intro i m hfull hfree h1 h2
    unfold get_next_avail_loop
    by_cases him : i = m
    · subst him
      rw [if_pos hfree]
      simp [run_scan]
    · have hne : vb i ≠ 0 := hfull i (Nat.le_refl i) (by omega)
      rw [if_neg hne]
      exact ih (i + 1) m (fun j hj1 hj2 => hfull j (by omega) hj2) hfree (by omega) (by omega)

theorem collect_frames_zero (pb : Nat → Nat) (fuel i : Nat) :
    collect_frames pb fuel i 0 = [] := by
  cases fuel <;> rfl

theorem collect_frames_first (pb : Nat → Nat) :
    ∀ (fuel i m : Nat), (∀ j, i ≤ j → j < m → pb j ≠ 0) → pb m = 0 → i ≤ m → m < i + fuel →
      collect_frames pb fuel i 1 = [m] := by
  intro fuel
  induction fuel with
  | zero =>
    intro i m _ _ h1 h2
    omega
  | succ fuel ih =>
    intro i m hfull hfree h1 h2
    unfold collect_frames
    by_cases him : i = m
    · subst him
      rw [if_pos hfree, collect_frames_zero]
    · have hne : pb i ≠ 0 := hfull i (Nat.le_refl i) (by omega)
      rw [if_neg hne]
      exact ih (i + 1) m (fun j hj1 hj2 => hfull j (by omega) hj2) hfree (by omega) (by omega)

theorem collect_frames_none (pb : Nat → Nat) :
    ∀ (fuel i need : Nat), (∀ j, i ≤ j → j < i + fuel → pb j ≠ 0) →
      collect_frames pb fuel i need = [] := by
  intro fuel
  induction fuel with
  | zero =>
    intro i need _
    rfl
  | succ fuel ih =>
    intro i need hfull
    cases need with
    | zero => rfl
    | succ need =>
      unfold collect_frames
      rw [if_neg (hfull i (Nat.le_refl i) (by omega))]
      exact ih (i + 1) (need + 1) (fun j hj1 hj2 => hfull j (by omega) (by omega))

theorem collect_frames_length (pb : Nat → Nat) :
    ∀ (fuel i need : Nat), (collect_frames pb fuel i need).length ≤ fuel := by
  intro fuel
  induction fuel with
  | zero =>
    intro i need
    simp [collect_frames]
  | succ fuel ih =>
    intro i need
    cases need with
    | zero => simp [collect_frames]
    | succ need =>
      unfold collect_frames
      split
      · have := ih (i + 1) need
        simp only [List.length_cons]
        omega
      · have := ih (i + 1) (need + 1)
        omega

theorem myalloc_unfold (n : Nat) (s : State) (hb : s.bitmap_lock = false)
    (hp : s.pagedir_lock = false) :
    myalloc n s = myalloc_pages (pages_for n) (myalloc_entry s) := by
  unfold myalloc
  rw [hb, hp]
  rfl

theorem SetPhysicalMem_of_init (s : State) (h : s.is_initilized = true) :
    SetPhysicalMem s = s := by
  unfold SetPhysicalMem
  rw [if_pos h]

theorem myalloc_blocked (n : Nat) (s : State) (h : s.bitmap_lock = true) :
    myalloc n s = .blocked := by
  unfold myalloc
  rw [if_pos h]

theorem first_page_address_small (i : Nat) (h : i < 2 ^ 19) :
    first_page_address i = PGSIZE * i := by
  rw [first_page_address_eq i (by omega), if_pos h, PGSIZE_eq]
  omega

theorem Filled_of_init (k : Nat) (s : State) (hinit : s.is_initilized = true)
    (hb : s.bitmap_lock = false) (hp : s.pagedir_lock = false)
    (hv : ∀ i, s.virtual_bitmap i = if 1 ≤ i ∧ i ≤ k then 1 else 0)
    (hq : ∀ i, s.physical_bitmap i = if 1 ≤ i ∧ i ≤ k then 1 else 0)
    (hg : Granting s) : Filled k s := by
  refine ⟨hb, hp, ?_, ?_, hg⟩
  · rw [SetPhysicalMem_of_init s hinit]; exact hv
  · rw [SetPhysicalMem_of_init s hinit]; exact hq

theorem Filled_step (k : Nat) (s : State) (hf : Filled k s) (hk : k + 1 < physical_pages) :
    ∃ s1, myalloc 1 s = .ret (PGSIZE * (k + 1)) s1 ∧ Filled (k + 1) s1 := by
  obtain ⟨hb, hp, hv, hq, hg⟩ := hf
  rw [physical_pages_eq] at hk
  rw [myalloc_unfold 1 s hb hp, pages_for_one]
  have hnext : get_next_avail 1 (myalloc_entry s) = .found (first_page_address (k + 1)) := by
    unfold get_next_avail
    rw [myalloc_entry_virtual_bitmap]
    apply get_next_avail_loop_first
    · intro j h1 h2
      rw [hv j, if_pos ⟨h1, by omega⟩]
      decide
    · rw [hv (k + 1), if_neg (by omega)]
    · omega
    · rw [virtual_pages_eq]; omega
  have hphys : get_avail_physical 1 (myalloc_entry s) = some [k + 1] := by
    unfold get_avail_physical
    rw [myalloc_entry_physical_bitmap]
    have : collect_frames (SetPhysicalMem s).physical_bitmap (physical_pages - 1) 1 1
        = [k + 1] := by
      apply collect_frames_first
      · intro j h1 h2
        rw [hq j, if_pos ⟨h1, by omega⟩]
        decide
      · rw [hq (k + 1), if_neg (by omega)]
      · omega
      · rw [physical_pages_eq]; omega
    rw [this]
    rfl
  have hpn := page_num_of_first_page_address (k + 1) 0 (by omega)
  have hvp : ¬ virtual_pages ≤ k + 1 + 0 := by rw [virtual_pages_eq]; omega
  have hge := myalloc_entry_granting s hg
  unfold myalloc_pages
  simp only [hnext, hphys]
  rw [address_to_page_num_first (k + 1) (by omega)]
  rw [myalloc_loop_step _ (k + 1) (k + 1) [] 0 _ hvp (myalloc_entry_pagedir_lock s) hpn
    (fun _ => hge _)]
  unfold myalloc_loop
  rw [first_page_address_small (k + 1) (by omega)]
  refine ⟨_, rfl, Filled_of_init _ _ (myalloc_entry_init s) rfl rfl ?_ ?_ ?_⟩
  · intro i
    show setAt _ (k + 1 + 0) 1 i = _
    rw [myalloc_entry_virtual_bitmap]
    by_cases hi : i = k + 1
    · subst hi
      rw [setAt_same, if_pos ⟨by omega, by omega⟩]
    · rw [setAt_other _ _ _ _ (by omega), hv i]
      by_cases h1 : 1 ≤ i ∧ i ≤ k
      · rw [if_pos h1, if_pos ⟨h1.1, by omega⟩]
      · rw [if_neg h1, if_neg (by omega)]
  · intro i
    show setAt _ (k + 1) 1 i = _
    rw [myalloc_entry_physical_bitmap]
    by_cases hi : i = k + 1
    · subst hi
      rw [setAt_same, if_pos ⟨by omega, by omega⟩]
    · rw [setAt_other _ _ _ _ (by omega), hq i]
      by_cases h1 : 1 ≤ i ∧ i ≤ k
      · rw [if_pos h1, if_pos ⟨h1.1, by omega⟩]
      · rw [if_neg h1, if_neg (by omega)]
  · exact hge


theorem Filled_alloc_ones :
    ∀ (m k : Nat) (s : State), Filled k s → k + m < physical_pages →
      ∃ s1, alloc_ones m s =
          .ret ((List.range m).map fun i => PGSIZE * (k + 1 + i)) s1 ∧ Filled (k + m) s1 := by
  intro m
  induction m with
  | zero =>
    intro k s hf _
    exact ⟨s, rfl, hf⟩
  | succ m ih =>
    intro k s hf hk
    obtain ⟨s1, h1, hf1⟩ := Filled_step k s hf (by omega)
    obtain ⟨s2, h2, hf2⟩ := ih (k + 1) s1 hf1 (by omega)
    refine ⟨s2, ?_, ?_⟩
    · unfold alloc_ones
      rw [h1]
      simp only [Outcome.andThen]
      rw [h2]
      simp only [List.range_succ_eq_map, List.map_cons, List.map_map, Nat.add_zero]
      congr 2
      apply List.map_congr_left
      intro i _
      simp only [Function.comp, Nat.succ_eq_add_one]
      congr 1
      omega
    · have : k + (m + 1) = k + 1 + m := by omega
      rw [this]
      exact hf2

theorem Filled_full (s : State) (hf : Filled (physical_pages - 1) s) :
    myalloc 1 s = .ret 0 (myalloc_entry s) := by
  obtain ⟨hb, hp, hv, hq, _⟩ := hf
  rw [myalloc_unfold 1 s hb hp, pages_for_one]
  have hnext : get_next_avail 1 (myalloc_entry s) = .found (first_page_address physical_pages) := by
    unfold get_next_avail
    rw [myalloc_entry_virtual_bitmap]
    apply get_next_avail_loop_first
    · intro j h1 h2
      rw [hv j, if_pos ⟨h1, by omega⟩]
      decide
    · rw [hv physical_pages, if_neg (by rw [physical_pages_eq]; omega)]
    · rw [physical_pages_eq]; omega
    · rw [virtual_pages_eq, physical_pages_eq]; omega
  have hphys : get_avail_physical 1 (myalloc_entry s) = none := by
    unfold get_avail_physical
    rw [myalloc_entry_physical_bitmap]
    have : collect_frames (SetPhysicalMem s).physical_bitmap (physical_pages - 1) 1 1 = [] := by
      apply collect_frames_none
      intro j h1 h2
      rw [hq j, if_pos ⟨h1, by omega⟩]
      decide
    rw [this]
    rfl
  unfold myalloc_pages
  simp only [hnext, hphys]

theorem boot_state_filled (heap : Nat) (ram : Nat → Nat) : Filled 0 (boot_state heap ram) := by
  refine ⟨rfl, rfl, ?_, ?_, fun _ => rfl⟩
  · intro i
    rw [if_neg (by omega)]
    rfl
  · intro i
    rw [if_neg (by omega)]
    rfl
/-! ## A request larger than the physical buffer -/

theorem run_scan_free (vb : Nat → Nat) (i n : Nat) (hfree : ∀ x, vb x ≠ 1)
    (hin : i + n ≤ virtual_pages) :
    ∀ (fuel j : Nat), j ≤ n → n - j ≤ fuel → run_scan vb i n fuel j = some n := by
  intro fuel
  induction fuel with
  | zero =>
    intro j h1 h2
    unfold run_scan
    have : j = n := by omega
    rw [this]
  | succ fuel ih =>
    intro j h1 h2
    unfold run_scan
    by_cases hj : j < n
    · rw [if_pos hj, if_pos (by omega), if_neg (hfree _)]
      exact ih (j + 1) (by omega) (by omega)
    · rw [if_neg hj]
      have : j = n := by omega
      rw [this]

theorem get_next_avail_loop_here (vb : Nat → Nat) (n fuel i : Nat) (h0 : vb i = 0)
    (hscan : run_scan vb i n n 1 = some n) :
    get_next_avail_loop vb n (fuel + 1) i = .found (first_page_address i) := by
  unfold get_next_avail_loop
  rw [if_pos h0, hscan]
  simp only [if_true]

theorem get_avail_physical_large (n : Nat) (s : State) (h : physical_pages ≤ n) :
    get_avail_physical n s = none := by
  unfold get_avail_physical
  have hl := collect_frames_length s.physical_bitmap (physical_pages - 1) 1 n
  have hlt : physical_pages - 1 < n := by
    rw [physical_pages_eq] at h ⊢
    omega
  have hne : (collect_frames s.physical_bitmap (physical_pages - 1) 1 n).length ≠ n :=
    Nat.ne_of_lt (Nat.lt_of_le_of_lt hl hlt)
  simp only [hne, ne_eq, not_false_eq_true, if_true]

/-- A `NULL` return of `myalloc` leaves `bitmap_lock` held: every later call of
`myalloc` waits for ever (stated for a host that grants every table). -/
theorem myalloc_null_then_blocked (n m : Nat) (s s1 : State) (hi : Inv s) (hg : Granting s)
    (h : myalloc n s = .ret 0 s1) : myalloc m s1 = .blocked := by
  rcases myalloc_value n s s1 0 hi hg h with ⟨_, hs⟩ | ⟨i, h1, h2, h3⟩
  · rw [hs]
    exact myalloc_blocked m _ (myalloc_entry_bitmap_lock s)
  · rw [virtual_pages_eq] at h2
    exact absurd h3.symm (first_page_address_ne_zero i h1 h2)

/-- When the host grants every table, a `NULL` return of `myalloc` leaves both
bitmaps, the directory and the translation buffer as initialisation left or
found them. -/
theorem myalloc_null_untouched (n : Nat) (s s1 : State) (hi : Inv s) (hg : Granting s)
    (h : myalloc n s = .ret 0 s1) :
    s1.virtual_bitmap = (SetPhysicalMem s).virtual_bitmap ∧
    s1.physical_bitmap = (SetPhysicalMem s).physical_bitmap ∧
    s1.pgdir = (SetPhysicalMem s).pgdir ∧
    s1.tlb_store = (SetPhysicalMem s).tlb_store := by
  rcases myalloc_value n s s1 0 hi hg h with ⟨_, hs⟩ | ⟨i, h1, h2, h3⟩
  · rw [hs]
    exact ⟨myalloc_entry_virtual_bitmap s, myalloc_entry_physical_bitmap s,
      myalloc_entry_pgdir s, myalloc_entry_tlb_store s⟩
  · rw [virtual_pages_eq] at h2
    exact absurd h3.symm (first_page_address_ne_zero i h1 h2)

theorem pages_for_large : pages_for (2 ^ 30) = physical_pages := by decide


theorem virtual_pages_pred : virtual_pages - 1 = 1048574 + 1 := by decide

theorem fresh_entry_virtual_bitmap (x : Nat) : (myalloc_entry fresh).virtual_bitmap x = 0 := rfl

theorem fresh_next_avail :
    get_next_avail physical_pages (myalloc_entry fresh) = .found (first_page_address 1) := by
  unfold get_next_avail
  rw [virtual_pages_pred]
  apply get_next_avail_loop_here
  · exact fresh_entry_virtual_bitmap 1
  · apply run_scan_free
    · intro x
      rw [fresh_entry_virtual_bitmap x]
      decide
    · decide
    · decide
    · omega

theorem myalloc_pages_no_frames (n : Nat) (s0 : State) (va : Nat)
    (h1 : get_next_avail n s0 = .found va) (h2 : get_avail_physical n s0 = none) :
    myalloc_pages n s0 = .ret 0 s0 := by
  unfold myalloc_pages
  simp only [h1, h2]

theorem fresh_large_request :
    myalloc (2 ^ 30) fresh = .ret 0 (myalloc_entry fresh) := by
  rw [myalloc_unfold _ fresh rfl rfl, pages_for_large]
  exact myalloc_pages_no_frames _ _ _ fresh_next_avail
    (get_avail_physical_large physical_pages _ (Nat.le_refl _))
/-! ## Geometry -/

theorem page_address_eq (n : Nat) : page_address n = n * 4096 := by
  unfold page_address
  rw [table_size_eq]
  have h1 : offset_size + lower_size = 22 := by decide
  have h2 : offset_size = 12 := rfl
  rw [h1, h2, Nat.shiftLeft_eq, Nat.shiftLeft_eq]
  have h := Nat.mul_add_lt_is_or (i := 22) (b := n % 1024 * 2 ^ 12) (by omega) (n / 1024)
  rw [Nat.mul_comm (n / 1024) (2 ^ 22), ← h]
  omega

theorem directory_table_size : directory_size * table_size = 2 ^ 20 := by decide

/-! ## Reads past the end of the virtual bitmap -/

theorem run_scan_outside (vb : Nat → Nat) (i n : Nat) (hfree : ∀ x, vb x ≠ 1)
    (hn : virtual_pages < i + n) :
    ∀ (fuel j : Nat), i + j ≤ virtual_pages → virtual_pages - (i + j) < fuel →
      run_scan vb i n fuel j = none := by
  intro fuel
  induction fuel with
  | zero =>
    intro j _ h2
    omega
  | succ fuel ih =>
    intro j h1 h2
    unfold run_scan
    rw [if_pos (by omega)]
    by_cases hj : i + j < virtual_pages
    · rw [if_pos hj, if_neg (hfree _)]
      exact ih (j + 1) (by omega) (by omega)
    · rw [if_neg hj]

theorem get_next_avail_loop_outside (vb : Nat → Nat) (n : Nat) :
    ∀ (fuel i m : Nat), (∀ j, i ≤ j → j < m → vb j ≠ 0) → vb m = 0 →
      run_scan vb m n n 1 = none → i ≤ m → m < i + fuel →
      get_next_avail_loop vb n fuel i = .outside := by
  intro fuel
  induction fuel with
  | zero =>
    intro i m _ _ _ h1 h2
    omega
  | succ fuel ih =>
    intro i m hfull hfree hscan h1 h2
    unfold get_next_avail_loop
    by_cases him : i = m
    · subst him
      rw [if_pos hfree, hscan]
    · have hne : vb i ≠ 0 := hfull i (Nat.le_refl i) (by omega)
      rw [if_neg hne]
      exact ih (i + 1) m (fun j hj1 hj2 => hfull j (by omega) hj2) hfree hscan
        (by omega) (by omega)

theorem pages_for_whole_space : pages_for (2 ^ 32 - 1) = virtual_pages := by decide

theorem fresh_whole_space_search :
    get_next_avail virtual_pages (myalloc_entry fresh) = .outside := by
  unfold get_next_avail
  apply get_next_avail_loop_outside _ _ _ 1 1
  · intro j h1 h2
    omega
  · exact fresh_entry_virtual_bitmap 1
  · apply run_scan_outside
    · intro x
      rw [fresh_entry_virtual_bitmap x]
      decide
    · omega
    · decide
    · rw [virtual_pages_eq]
      omega
  · omega
  · rw [virtual_pages_eq]
    omega

theorem myalloc_pages_outside (n : Nat) (s0 : State)
    (h : get_next_avail n s0 = .outside) : myalloc_pages n s0 = .fault := by
  unfold myalloc_pages
  simp only [h]

theorem fresh_whole_space_request : myalloc (2 ^ 32 - 1) fresh = .fault := by
  rw [myalloc_unfold _ fresh rfl rfl, pages_for_whole_space]
  exact myalloc_pages_outside _ _ fresh_whole_space_search

theorem last_page_free_bitmap (i : Nat) :
    last_page_free.virtual_bitmap i = if i = virtual_pages - 1 then 0 else 1 := rfl

theorem last_page_free_search : get_next_avail 2 last_page_free = .outside := by
  unfold get_next_avail
  apply get_next_avail_loop_outside _ _ _ 1 (virtual_pages - 1)
  · intro j h1 h2
    rw [last_page_free_bitmap, if_neg (by omega)]
    decide
  · rw [last_page_free_bitmap, if_pos rfl]
  · rw [virtual_pages_eq]
    decide
  · rw [virtual_pages_eq]
    omega
  · rw [virtual_pages_eq]
    omega

/-! ## The translation buffer as a queue -/

theorem TLB_SIZE_eq : TLB_SIZE = 120 := rfl

theorem add_TLB_nodes (va pa : Nat) (s : State) (t : TLB) (hs : s.tlb_store = some t)
    (hc : t.count = t.nodes.length) (hb : t.count ≤ TLB_SIZE) :
    ∃ t1, add_TLB va pa s = .ret () { s with tlb_store := some t1 } ∧
      t1.nodes = (t.nodes ++ [TLB_node.mk va pa]).drop (t.nodes.length + 1 - TLB_SIZE) ∧
      t1.count = t1.nodes.length ∧ t1.count ≤ TLB_SIZE ∧
      t1.miss_count = t.miss_count ∧ t1.hit_count = t.hit_count := by
  unfold add_TLB
  rw [hs]
  simp only
  by_cases hfull : t.count = TLB_SIZE
  · rw [if_pos hfull]
    cases hn : t.nodes with
    | nil =>
      rw [hn] at hc
      rw [hc] at hfull
      cases hfull
    | cons x rest =>
      rw [hn] at hc
      simp only [List.length_cons] at hc
      refine ⟨_, rfl, ?_, ?_, ?_, rfl, rfl⟩
      · have : (x :: rest).length + 1 - TLB_SIZE = 1 := by
          simp only [List.length_cons]
          omega
        rw [this]
        rfl
      · simp only [List.length_append, List.length_cons, List.length_nil]
        omega
      · simp only
        omega
  · rw [if_neg hfull]
    refine ⟨_, rfl, ?_, ?_, ?_, rfl, rfl⟩
    · have : t.nodes.length + 1 - TLB_SIZE = 0 := by omega
      rw [this]
      rfl
    · simp only [List.length_append, List.length_cons, List.length_nil]
      omega
    · simp only
      omega

theorem add_TLB_all_nodes :
    ∀ (ins : List TLB_node) (s : State) (t : TLB), s.tlb_store = some t →
      t.count = t.nodes.length → t.count ≤ TLB_SIZE →
      ∃ t1, add_TLB_all ins s = .ret () { s with tlb_store := some t1 } ∧
        t1.nodes = (t.nodes ++ ins).drop (t.nodes.length + ins.length - TLB_SIZE) ∧
        t1.count = t1.nodes.length ∧ t1.count ≤ TLB_SIZE ∧
        t1.miss_count = t.miss_count ∧ t1.hit_count = t.hit_count := by
  intro ins
  induction ins with
  | nil =>
    intro s t hs hc hb
    refine ⟨t, ?_, ?_, hc, hb, rfl, rfl⟩
    · unfold add_TLB_all
      rw [← hs]
    · have : t.nodes.length + ([] : List TLB_node).length - TLB_SIZE = 0 := by
        simp only [List.length_nil]
        omega
      rw [this, List.append_nil]
      rfl
  | cons n rest ih =>
    intro s t hs hc hb
    obtain ⟨t1, h1, hn1, hc1, hb1, hm1, hh1⟩ := add_TLB_nodes n.va n.pa s t hs hc hb
    have he : TLB_node.mk n.va n.pa = n := rfl
    rw [he] at hn1
    obtain ⟨t2, h2, hn2, hc2, hb2, hm2, hh2⟩ :=
      ih { s with tlb_store := some t1 } t1 rfl hc1 hb1
    refine ⟨t2, ?_, ?_, hc2, hb2, hm2.trans hm1, hh2.trans hh1⟩
    · unfold add_TLB_all
      rw [h1]
      simp only [Outcome.andThen]
      rw [h2]
    · rw [hn2, hn1]
      have hlen : ((t.nodes ++ [n]).drop (t.nodes.length + 1 - TLB_SIZE)).length
          = t.nodes.length + 1 - (t.nodes.length + 1 - TLB_SIZE) := by
        rw [List.length_drop]
        simp only [List.length_append, List.length_cons, List.length_nil]
      have hle : t.nodes.length + 1 - TLB_SIZE ≤ (t.nodes ++ [n]).length := by
        simp only [List.length_append, List.length_cons, List.length_nil]
        omega
      rw [hlen, ← List.drop_append_of_le_length hle, List.drop_drop, List.append_assoc]
      simp only [List.singleton_append, List.length_cons]
      congr 1
      rw [← hc]
      omega

theorem check_TLB_walk_none (va : Nat) :
    ∀ (nodes : List TLB_node), (∀ n ∈ nodes, n.va ≠ va) → check_TLB_walk va nodes = none := by
  intro nodes
  induction nodes with
  | nil => intro _; rfl
  | cons x rest ih =>
    intro h
    unfold check_TLB_walk
    rw [if_neg (fun e => h x (List.mem_cons_self x rest) e.symm)]
    exact ih (fun n hn => h n (List.mem_cons_of_mem x hn))

theorem check_TLB_walk_some :
    ∀ (nodes : List TLB_node) (n : TLB_node), (nodes.map TLB_node.va).Nodup → n ∈ nodes →
      check_TLB_walk n.va nodes = some n.pa := by
  intro nodes
  induction nodes with
  | nil =>
    intro n _ h
    cases h
  | cons x rest ih =>
    intro n hd hn
    unfold check_TLB_walk
    rw [List.map_cons, List.nodup_cons] at hd
    rcases List.mem_cons.mp hn with h | h
    · subst h
      rw [if_pos rfl]
    · have hne : n.va ≠ x.va := by
        intro e
        exact hd.1 (e ▸ List.mem_map_of_mem TLB_node.va h)
      rw [if_neg hne]
      exact ih n hd.2 h

theorem check_TLB_miss (va : Nat) (s : State) (t : TLB) (hs : s.tlb_store = some t)
    (h : check_TLB_walk va t.nodes = none) :
    check_TLB va s =
      (0, { s with tlb_store := some { t with miss_count := t.miss_count + 1 } }) := by
  unfold check_TLB
  rw [hs]
  simp only [h]

theorem check_TLB_hit (va pa : Nat) (s : State) (t : TLB) (hs : s.tlb_store = some t)
    (h : check_TLB_walk va t.nodes = some pa) :
    check_TLB va s =
      (pa, { s with tlb_store := some { t with hit_count := t.hit_count + 1 } }) := by
  unfold check_TLB
  rw [hs]
  simp only [h]

/-! ## The linked nodes -/

theorem Chain_ne_zero (cell : Nat → TLB_cell) :
    ∀ (l : List Nat) (a : Nat), Chain cell a l → ∀ b ∈ l, b ≠ 0 := by
  intro l
  induction l with
  | nil =>
    intro a _ b hb
    cases hb
  | cons x rest ih =>
    intro a h b hb
    obtain ⟨_, hx, hrest⟩ := h
    rcases List.mem_cons.mp hb with e | e
    · rw [e]; exact hx
    · exact ih _ hrest b e

/-- The nodes reached from an address are determined by the links. -/
theorem Chain_unique (cell : Nat → TLB_cell) :
    ∀ (l1 l2 : List Nat) (a : Nat), Chain cell a l1 → Chain cell a l2 → l1 = l2 := by
  intro l1
  induction l1 with
  | nil =>
    intro l2 a h1 h2
    cases l2 with
    | nil => rfl
    | cons y r =>
      obtain ⟨e, hy, _⟩ := h2
      have h0 : a = 0 := h1
      exact absurd (e ▸ h0) hy
  | cons x rest ih =>
    intro l2 a h1 h2
    obtain ⟨e1, hx, hr1⟩ := h1
    cases l2 with
    | nil =>
      have h0 : a = 0 := h2
      exact absurd (e1 ▸ h0) hx
    | cons y r =>
      obtain ⟨e2, _, hr2⟩ := h2
      have hxy : x = y := e1.symm.trans e2
      subst hxy
      rw [ih r _ hr1 hr2]

theorem Chain_congr (cell cell1 : Nat → TLB_cell) :
    ∀ (l : List Nat) (a : Nat), Chain cell a l →
      (∀ b ∈ l, (cell1 b).next = (cell b).next) → Chain cell1 a l := by
  intro l
  induction l with
  | nil =>
    intro a h _
    exact h
  | cons x rest ih =>
    intro a h hsame
    obtain ⟨e, hx, hr⟩ := h
    refine ⟨e, hx, ?_⟩
    rw [hsame x (List.mem_cons_self x rest)]
    exact ih _ hr (fun b hb => hsame b (List.mem_cons_of_mem x hb))

theorem Chain_append (cell cell1 : Nat → TLB_cell) (node nw : Nat) (hnode : node ≠ 0)
    (hnw : (cell1 nw).next = node) (hend : (cell1 node).next = 0) :
    ∀ (l : List Nat) (a : Nat), Chain cell a l → l.Nodup → l.getLast? = some nw →
      (∀ b ∈ l, b ≠ nw → (cell1 b).next = (cell b).next) →
      Chain cell1 a (l ++ [node]) := by
  intro l
  induction l with
  | nil =>
    intro a _ _ hlast
    cases hlast
  | cons x rest ih =>
    intro a h hd hlast hsame
    obtain ⟨e, hx, hr⟩ := h
    cases rest with
    | nil =>
      have hxn : x = nw := by
        simpa using hlast
      subst hxn
      exact ⟨e, hx, by rw [hnw]; exact ⟨rfl, hnode, hend⟩⟩
    | cons y r =>
      have hlast1 : (y :: r).getLast? = some nw := by
        rw [List.getLast?_cons_cons] at hlast
        exact hlast
      have hmem : nw ∈ y :: r := List.mem_of_getLast?_eq_some hlast1
      rw [List.nodup_cons] at hd
      have hne : x ≠ nw := fun e1 => hd.1 (e1 ▸ hmem)
      refine ⟨e, hx, ?_⟩
      rw [hsame x (List.mem_cons_self x _) hne]
      exact ih _ hr hd.2 hlast1 (fun b hb hb1 => hsame b (List.mem_cons_of_mem x hb) hb1)

theorem link_cell_node (va pa node : Nat) (t : TLB_mem) (h : t.newest ≠ node) :
    (add_TLB_link va pa node t).cell node = ⟨va, pa, 0, t.newest⟩ := by
  simp only [add_TLB_link, init_TLB_Node]
  split
  · rw [setAt_other _ _ _ _ (Ne.symm h), setAt_same, setAt_same]
  · rw [setAt_same, setAt_same]

theorem link_cell_other (va pa node : Nat) (t : TLB_mem) (b : Nat) (h1 : b ≠ node)
    (h2 : b ≠ t.newest) : (add_TLB_link va pa node t).cell b = t.cell b := by
  simp only [add_TLB_link, init_TLB_Node]
  split
  · rw [setAt_other _ _ _ _ h2, setAt_other _ _ _ _ h1, setAt_other _ _ _ _ h1]
  · rw [setAt_other _ _ _ _ h1, setAt_other _ _ _ _ h1]

theorem link_cell_newest (va pa node : Nat) (t : TLB_mem) (h0 : t.newest ≠ 0)
    (h1 : t.newest ≠ node) :
    (add_TLB_link va pa node t).cell t.newest = { t.cell t.newest with next := node } := by
  simp only [add_TLB_link, init_TLB_Node]
  rw [if_pos h0, setAt_same, setAt_other _ _ _ _ h1, setAt_other _ _ _ _ h1]

/-- The content of a node of the chain is the same after a new node is linked. -/
theorem link_cell_content (va pa node : Nat) (t : TLB_mem) (b : Nat) (h1 : b ≠ node)
    (hb : b ≠ 0) :
    ((add_TLB_link va pa node t).cell b).va = (t.cell b).va ∧
    ((add_TLB_link va pa node t).cell b).pa = (t.cell b).pa := by
  by_cases h2 : b = t.newest
  · have h0 : t.newest ≠ 0 := h2 ▸ hb
    have h3 : t.newest ≠ node := h2 ▸ h1
    rw [h2, link_cell_newest va pa node t h0 h3]
    exact ⟨rfl, rfl⟩
  · rw [link_cell_other va pa node t b h1 h2]
    exact ⟨rfl, rfl⟩

theorem add_TLB_link_linked (va pa node : Nat) (t : TLB_mem) (l : List Nat)
    (hch : Chain t.cell t.oldest l) (hd : l.Nodup) (hc : t.count = l.length)
    (hb : t.count < TLB_SIZE)
    (hlast : (l = [] ∧ t.newest = 0) ∨ l.getLast? = some t.newest)
    (hn : node ≠ 0) (hf : node ∉ l) :
    Linked (add_TLB_link va pa node t) (l ++ [node]) := by
  have hnd : (l ++ [node]).Nodup := by
    rw [List.nodup_append]
    refine ⟨hd, List.nodup_singleton node, ?_⟩
    intro x hx hx1
    rw [List.mem_singleton] at hx1
    exact hf (hx1 ▸ hx)
  have hcount : (add_TLB_link va pa node t).count = (l ++ [node]).length := by
    simp only [add_TLB_link, List.length_append, List.length_cons, List.length_nil]
    omega
  have hbound : (add_TLB_link va pa node t).count ≤ TLB_SIZE := by
    simp only [add_TLB_link]
    omega
  have hnew : (l ++ [node]).getLast? = some (add_TLB_link va pa node t).newest := by
    rw [List.getLast?_concat]
    rfl
  refine ⟨?_, hnd, hcount, hbound, Or.inr hnew⟩
  cases l with
  | nil =>
    have ho : t.oldest = 0 := hch
    have hnw : t.newest = 0 := by
      rcases hlast with ⟨_, h⟩ | h
      · exact h
      · cases h
    have hold : (add_TLB_link va pa node t).oldest = node := by
      simp only [add_TLB_link]
      rw [if_pos ho]
    rw [hold]
    refine ⟨rfl, hn, ?_⟩
    rw [link_cell_node va pa node t (by rw [hnw]; exact Ne.symm hn)]
    rfl
  | cons x r =>
    have hlast1 : (x :: r).getLast? = some t.newest := by
      rcases hlast with ⟨h, _⟩ | h
      · cases h
      · exact h
    have hmem : t.newest ∈ x :: r := List.mem_of_getLast?_eq_some hlast1
    have h0 : t.newest ≠ 0 := Chain_ne_zero _ _ _ hch _ hmem
    have h1 : t.newest ≠ node := fun e => hf (e ▸ hmem)
    have hx : t.oldest = x := hch.1
    have hx0 : x ≠ 0 := hch.2.1
    have hold : (add_TLB_link va pa node t).oldest = t.oldest := by
      simp only [add_TLB_link]
      rw [if_neg (by rw [hx]; exact hx0)]
    rw [hold]
    apply Chain_append t.cell _ node t.newest hn
    · rw [link_cell_newest va pa node t h0 h1]
    · rw [link_cell_node va pa node t h1]
    · exact hch
    · exact hd
    · exact hlast1
    · intro b hb hb1
      rw [link_cell_other va pa node t b (fun e => hf (e ▸ hb)) hb1]

theorem add_TLB_link_view (va pa node : Nat) (t : TLB_mem) (l : List Nat)
    (hz : ∀ b ∈ l, b ≠ 0) (hn : node ≠ 0) (hf : node ∉ l)
    (hnw : t.newest = 0 ∨ t.newest ∈ l) :
    ((add_TLB_link va pa node t).view (l ++ [node])).nodes =
      (t.view l).nodes ++ [TLB_node.mk va pa] := by
  have h1 : t.newest ≠ node := by
    rcases hnw with h | h
    · rw [h]; exact Ne.symm hn
    · exact fun e => hf (e ▸ h)
  simp only [TLB_mem.view, List.map_append, List.map_cons, List.map_nil]
  rw [link_cell_node va pa node t h1]
  congr 1
  apply List.map_congr_left
  intro b hb
  have := link_cell_content va pa node t b (fun e => hf (e ▸ hb)) (hz b hb)
  rw [this.1, this.2]

/-- Insertion on the linked nodes keeps them a chain from `oldest` to `newest`
and does to their list what `add_TLB` of the list embedding does. -/
theorem add_TLB_mem_linked (va pa node : Nat) (t : TLB_mem) (l : List Nat)
    (h : Linked t l) (hn : node ≠ 0) (hf : node ∉ l) :
    ∃ t1, add_TLB_mem va pa node t = some t1 ∧
      Linked t1 ((l ++ [node]).drop (l.length + 1 - TLB_SIZE)) ∧
      (t1.view ((l ++ [node]).drop (l.length + 1 - TLB_SIZE))).nodes =
        ((t.view l).nodes ++ [TLB_node.mk va pa]).drop (l.length + 1 - TLB_SIZE) ∧
      t1.miss_count = t.miss_count ∧ t1.hit_count = t.hit_count := by
  obtain ⟨hch, hd, hc, hb, hlast⟩ := h
  have hz := Chain_ne_zero _ _ _ hch
  unfold add_TLB_mem
  by_cases hfull : t.count = TLB_SIZE
  · rw [if_pos hfull]
    cases l with
    | nil =>
      rw [hfull] at hc
      cases hc
    | cons x r =>
      have hx : t.oldest = x := hch.1
      have hx0 : x ≠ 0 := hch.2.1
      rw [if_neg (by rw [hx]; exact hx0)]
      have hlen : (x :: r).length + 1 - TLB_SIZE = 1 := by
        rw [← hc, hfull]
        omega
      rw [hlen]
      have hr : r ≠ [] := by
        intro e
        rw [e, hfull] at hc
        cases hc
      have hlast1 : r.getLast? = some t.newest := by
        rcases hlast with ⟨e, _⟩ | e
        · cases e
        · cases r with
          | nil => exact absurd rfl hr
          | cons y q =>
            rw [List.getLast?_cons_cons] at e
            exact e
      rw [List.nodup_cons] at hd
      have hfr : node ∉ r := fun e => hf (List.mem_cons_of_mem x e)
      have hcr : t.count - 1 = r.length := by
        simp only [List.length_cons] at hc
        omega
      have hlink := add_TLB_link_linked va pa node
        { t with oldest := (t.cell t.oldest).next, count := t.count - 1 } r
        (by rw [hx]; exact hch.2.2) hd.2 hcr
        (by show t.count - 1 < TLB_SIZE; rw [hfull]; decide) (Or.inr hlast1) hn hfr
      have hview := add_TLB_link_view va pa node
        { t with oldest := (t.cell t.oldest).next, count := t.count - 1 } r
        (fun b hb => hz b (List.mem_cons_of_mem x hb)) hn hfr
        (Or.inr (List.mem_of_getLast?_eq_some hlast1))
      refine ⟨_, rfl, hlink, ?_, rfl, rfl⟩
      exact hview
  · rw [if_neg hfull]
    have hlen : l.length + 1 - TLB_SIZE = 0 := by omega
    rw [hlen]
    have hnw : t.newest = 0 ∨ t.newest ∈ l := by
      rcases hlast with ⟨_, e⟩ | e
      · exact Or.inl e
      · exact Or.inr (List.mem_of_getLast?_eq_some e)
    refine ⟨_, rfl, add_TLB_link_linked va pa node t l hch hd hc (by omega) hlast hn hf,
      add_TLB_link_view va pa node t l hz hn hf hnw, rfl, rfl⟩

/-- The walk over the linked nodes ends within any number of steps above their
number, and finds what the walk over their list finds. -/
theorem check_TLB_mem_walk_chain (cell : Nat → TLB_cell) (va : Nat) :
    ∀ (l : List Nat) (a fuel : Nat), Chain cell a l → l.length < fuel →
      check_TLB_mem_walk cell va fuel a =
        some (check_TLB_walk va (l.map fun b => ⟨(cell b).va, (cell b).pa⟩)) := by
  intro l
  induction l with
  | nil =>
    intro a fuel h hf
    have h0 : a = 0 := h
    cases fuel with
    | zero => cases hf
    | succ fuel =>
      unfold check_TLB_mem_walk
      rw [if_pos h0]
      rfl
  | cons x r ih =>
    intro a fuel h hf
    obtain ⟨e, hx, hr⟩ := h
    subst e
    cases fuel with
    | zero => cases hf
    | succ fuel =>
      unfold check_TLB_mem_walk
      rw [if_neg hx]
      simp only [List.map_cons, check_TLB_walk]
      by_cases hv : va = (cell a).va
      · rw [if_pos hv, if_pos hv]
      · rw [if_neg hv, if_neg hv]
        exact ih _ fuel hr (by simp only [List.length_cons] at hf; omega)

theorem check_TLB_mem_linked (va fuel : Nat) (t : TLB_mem) (l : List Nat) (h : Linked t l)
    (hfuel : t.count < fuel) :
    ∃ r t1, check_TLB_mem va fuel t = some (r, t1) ∧ Linked t1 l ∧
      t1.cell = t.cell ∧
      ((check_TLB_walk va (t.view l).nodes = none ∧ r = 0 ∧
          t1 = { t with miss_count := t.miss_count + 1 }) ∨
       (check_TLB_walk va (t.view l).nodes = some r ∧
          t1 = { t with hit_count := t.hit_count + 1 })) := by
  obtain ⟨hch, hd, hc, hb, hlast⟩ := h
  have hw : check_TLB_mem_walk t.cell va fuel t.oldest =
      some (check_TLB_walk va (l.map fun b => ⟨(t.cell b).va, (t.cell b).pa⟩)) :=
    check_TLB_mem_walk_chain t.cell va l t.oldest fuel hch (by rw [← hc]; exact hfuel)
  unfold check_TLB_mem
  rw [hw]
  cases hres : check_TLB_walk va (l.map fun b => ⟨(t.cell b).va, (t.cell b).pa⟩) with
  | none =>
    exact ⟨0, _, rfl, ⟨hch, hd, hc, hb, hlast⟩, rfl, Or.inl ⟨hres, rfl, rfl⟩⟩
  | some pa =>
    exact ⟨pa, _, rfl, ⟨hch, hd, hc, hb, hlast⟩, rfl, Or.inr ⟨hres, rfl⟩⟩

theorem TLB_mem_run_linked :
    ∀ (ops : List TLB_op) (t : TLB_mem) (l : List Nat), Linked t l →
      (ops.filterMap TLB_op.node?).Nodup →
      (∀ a ∈ ops.filterMap TLB_op.node?, a ≠ 0 ∧ a ∉ l) →
      ∃ t1 l1, TLB_mem.run ops t = some t1 ∧ Linked t1 l1 := by
  intro ops
  induction ops with
  | nil =>
    intro t l h _ _
    exact ⟨t, l, rfl, h⟩
  | cons op rest ih =>
    intro t l h hd hfresh
    cases op with
    | add va pa node =>
      simp only [List.filterMap_cons, TLB_op.node?] at hd hfresh
      rw [List.nodup_cons] at hd
      have hnode := hfresh node (List.mem_cons_self node _)
      obtain ⟨t1, h1, hl1, _, _, _⟩ := add_TLB_mem_linked va pa node t l h hnode.1 hnode.2
      obtain ⟨t2, l2, h2, hl2⟩ := ih t1 _ hl1 hd.2 (by
        intro a ha
        refine ⟨(hfresh a (List.mem_cons_of_mem node ha)).1, ?_⟩
        intro hmem
        have hmem1 := List.mem_of_mem_drop hmem
        rcases List.mem_append.mp hmem1 with e | e
        · exact (hfresh a (List.mem_cons_of_mem node ha)).2 e
        · rw [List.mem_singleton] at e
          exact hd.1 (e ▸ ha))
      refine ⟨t2, l2, ?_, hl2⟩
      unfold TLB_mem.run
      simp only [TLB_mem.step]
      rw [h1]
      exact h2
    | check va =>
      simp only [List.filterMap_cons, TLB_op.node?] at hd hfresh
      obtain ⟨r, t1, h1, hl1, _, _⟩ :=
        check_TLB_mem_linked va (t.count + 1) t l h (Nat.lt_succ_self _)
      obtain ⟨t2, l2, h2, hl2⟩ := ih t1 l hl1 hd hfresh
      refine ⟨t2, l2, ?_, hl2⟩
      unfold TLB_mem.run
      simp only [TLB_mem.step]
      rw [h1]
      exact h2

theorem init_TLB_mem_linked (cell : Nat → TLB_cell) : Linked (init_TLB_mem cell) [] :=
  ⟨rfl, List.nodup_nil, rfl, Nat.zero_le _, Or.inl ⟨rfl, rfl⟩⟩


theorem TLB_ext (t1 t2 : TLB) (h1 : t1.nodes = t2.nodes) (h2 : t1.count = t2.count)
    (h3 : t1.miss_count = t2.miss_count) (h4 : t1.hit_count = t2.hit_count) : t1 = t2 := by
  cases t1
  cases t2
  simp only [TLB.mk.injEq]
  exact ⟨h1, h2, h3, h4⟩

/-- The list embedding follows the linked nodes: when the buffer of a state
is the view of linked nodes, `add_TLB` returns in the state whose buffer is
the view of the linked nodes after `add_TLB_mem`. -/
theorem add_TLB_refines (va pa node : Nat) (t : TLB_mem) (l : List Nat) (s : State)
    (h : Linked t l) (hn : node ≠ 0) (hf : node ∉ l) (hs : s.tlb_store = some (t.view l)) :
    ∃ t1 l1, add_TLB_mem va pa node t = some t1 ∧ Linked t1 l1 ∧
      add_TLB va pa s = .ret () { s with tlb_store := some (t1.view l1) } := by
  obtain ⟨t1, h1, hl1, hv1, hm1, hh1⟩ := add_TLB_mem_linked va pa node t l h hn hf
  have hcl : (t.view l).count = (t.view l).nodes.length := by
    simp only [TLB_mem.view, List.length_map]
    exact h.2.2.1
  obtain ⟨t2, h2, hn2, hc2, _, hm2, hh2⟩ :=
    add_TLB_nodes va pa s (t.view l) hs hcl h.2.2.2.1
  refine ⟨t1, _, h1, hl1, ?_⟩
  rw [h2]
  have hlen : (t.view l).nodes.length = l.length := by
    simp only [TLB_mem.view, List.length_map]
  have e : t2 = t1.view ((l ++ [node]).drop (l.length + 1 - TLB_SIZE)) := by
    apply TLB_ext
    · rw [hn2, hv1, hlen]
    · rw [hc2, hn2, hlen, ← hv1]
      simp only [TLB_mem.view, List.length_map]
      exact hl1.2.2.1.symm
    · rw [hm2]
      exact hm1.symm
    · rw [hh2]
      exact hh1.symm
  rw [e]

theorem drop_append_drop {α : Type} (N : List α) (n : α) (rest : List α) (T : Nat) :
    (((N ++ [n]).drop (N.length + 1 - T)) ++ rest).drop
        (((N ++ [n]).drop (N.length + 1 - T)).length + rest.length - T) =
      (N ++ n :: rest).drop (N.length + (n :: rest).length - T) := by
  have hlen : ((N ++ [n]).drop (N.length + 1 - T)).length
      = N.length + 1 - (N.length + 1 - T) := by
    rw [List.length_drop]
    simp only [List.length_append, List.length_cons, List.length_nil]
  have hle : N.length + 1 - T ≤ (N ++ [n]).length := by
    simp only [List.length_append, List.length_cons, List.length_nil]
    omega
  rw [hlen, ← List.drop_append_of_le_length hle, List.drop_drop, List.append_assoc]
  simp only [List.singleton_append, List.length_cons]
  congr 1
  omega

/-- A sequence of insertions on linked nodes returns, the nodes stay linked,
and they hold the pairs of the list embedding after the same insertions. -/
theorem insertions_linked :
    ∀ (ins : List TLB_node) (addrs : List Nat) (t : TLB_mem) (l : List Nat), Linked t l →
      addrs.length = ins.length → addrs.Nodup → (∀ a ∈ addrs, a ≠ 0 ∧ a ∉ l) →
      ∃ t1 l1, TLB_mem.run (insertions ins addrs) t = some t1 ∧ Linked t1 l1 ∧
        (t1.view l1).nodes = ((t.view l).nodes ++ ins).drop (l.length + ins.length - TLB_SIZE) ∧
        t1.miss_count = t.miss_count ∧ t1.hit_count = t.hit_count := by
  intro ins
  induction ins with
  | nil =>
    intro addrs t l h hlen _ _
    refine ⟨t, l, ?_, h, ?_, rfl, rfl⟩
    · cases addrs <;> rfl
    · have hb : l.length ≤ TLB_SIZE := by
        rw [← h.2.2.1]
        exact h.2.2.2.1
      have : l.length + ([] : List TLB_node).length - TLB_SIZE = 0 := by
        simp only [List.length_nil]
        omega
      rw [this, List.append_nil]
      rfl
  | cons n rest ih =>
    intro addrs t l h hlen hd hfresh
    cases addrs with
    | nil => cases hlen
    | cons a more =>
      rw [List.nodup_cons] at hd
      have ha := hfresh a (List.mem_cons_self a _)
      obtain ⟨t1, h1, hl1, hv1, hm1, hh1⟩ := add_TLB_mem_linked n.va n.pa a t l h ha.1 ha.2
      have he : TLB_node.mk n.va n.pa = n := rfl
      rw [he] at hv1
      obtain ⟨t2, l2, h2, hl2, hv2, hm2, hh2⟩ := ih more t1 _ hl1
        (by simp only [List.length_cons] at hlen; omega) hd.2 (by
          intro b hb
          refine ⟨(hfresh b (List.mem_cons_of_mem a hb)).1, ?_⟩
          intro hmem
          rcases List.mem_append.mp (List.mem_of_mem_drop hmem) with e | e
          · exact (hfresh b (List.mem_cons_of_mem a hb)).2 e
          · rw [List.mem_singleton] at e
            exact hd.1 (e ▸ hb))
      refine ⟨t2, l2, ?_, hl2, ?_, hm2.trans hm1, hh2.trans hh1⟩
      · simp only [insertions, TLB_mem.run, TLB_mem.step]
        rw [h1]
        exact h2
      · rw [hv2, hv1]
        have hlv : (t.view l).nodes.length = l.length := by
          simp only [TLB_mem.view, List.length_map]
        have hll : ((l ++ [a]).drop (l.length + 1 - TLB_SIZE)).length =
            (((t.view l).nodes ++ [n]).drop ((t.view l).nodes.length + 1 - TLB_SIZE)).length := by
          simp only [List.length_drop, List.length_append, List.length_cons, List.length_nil,
            hlv]
        rw [hll, ← hlv]
        exact drop_append_drop _ n rest TLB_SIZE

/-- Among pairs of distinct keys, the walk over all but the first `d` misses
the keys of the first `d` and finds every other key with its own address. -/
theorem check_TLB_walk_drop (ins : List TLB_node) (hd : (ins.map TLB_node.va).Nodup)
    (d i : Nat) (hi : i < ins.length) :
    (i < d → check_TLB_walk ins[i].va (ins.drop d) = none) ∧
    (d ≤ i → check_TLB_walk ins[i].va (ins.drop d) = some ins[i].pa) := by
  constructor
  · intro hlt
    apply check_TLB_walk_none
    intro n hn e
    obtain ⟨j, hj, rfl⟩ := List.mem_iff_getElem.mp hn
    rw [List.getElem_drop] at e
    have hj2 : d + j < ins.length := by
      rw [List.length_drop] at hj
      omega
    have hj3 : d + j < (ins.map TLB_node.va).length := by rw [List.length_map]; exact hj2
    have hi3 : i < (ins.map TLB_node.va).length := by rw [List.length_map]; exact hi
    have e2 : (ins.map TLB_node.va)[d + j] = (ins.map TLB_node.va)[i] := by
      rw [List.getElem_map, List.getElem_map]
      exact e
    have := (List.Nodup.getElem_inj_iff hd).mp e2
    omega
  · intro hle
    apply check_TLB_walk_some
    · exact List.Nodup.sublist (List.Sublist.map _ (List.drop_sublist d ins)) hd
    · have hj : d + (i - d) < ins.length := by omega
      have hb : i - d < (ins.drop d).length := by rw [List.length_drop]; omega
      have e : ins[i] = (ins.drop d)[i - d] := by
        rw [List.getElem_drop]
        congr 1
        omega
      rw [e]
      exact List.getElem_mem _

/-! ## The claims -/

theorem heap0_ok : heap_ok heap0 := ⟨by decide, by decide⟩

theorem state_one_page_mapped :
    state_one_page.virtual_bitmap 1 = 1 ∧ state_one_page.physical_bitmap 1 = 1 := by
  decide

theorem state_refused_table_reachable : Reachable state_refused_table :=
  reachable_of_run_calls [Call.myalloc 1] refusing state_refused_table
    (Reachable.boot heap0 zeros (fun _ => false) heap0_ok) rfl

/-- C10, at the failing input: on a fresh manager whose host returns `NULL`
for the page table, `myalloc(1)` marks page 1 and frame 1, `PageMap` returns
`-1`, and `myalloc` returns `NULL` without unmarking them. The state reached is
reachable; in it the virtual bitmap entry of page 1 is `1` and the directory
slot of page 1 holds no table. -/
theorem C10_marked_page_without_table :
    Reachable state_refused_table ∧
    (myalloc 1 refusing).value? = some 0 ∧
    state_refused_table.virtual_bitmap 1 = 1 ∧
    state_refused_table.physical_bitmap 1 = 1 ∧
    (state_refused_table.pgdir (1 / table_size)).isSome = false ∧
    state_refused_table.locks = ⟨true, true, false⟩ :=
  ⟨state_refused_table_reachable, by decide!, by decide!, by decide!, by decide!, by decide!⟩

/-- The consistency of the virtual bitmap and the page tables when the host
grants every table: in every such reachable state and for every virtual page
number `v`, the virtual bitmap entry of `v` is `1` if and only if the directory
slot `v / table_size` holds a table whose entry `v % table_size` is not `NULL`. -/
theorem consistency_when_granted (s : State) (h : Reachable s) (hg : Granting s) (v : Nat) :
    s.virtual_bitmap v = 1 ↔
      ∃ t, s.pgdir (v / table_size) = some t ∧ t (v % table_size) ≠ 0 :=
  (Reachable_inv h hg).1 v
/-- On a fresh manager the first scenario of the specification holds:
`myalloc(1)` returns the page-aligned address `4096`, and `"ABCD"` written
there is read back unchanged. -/
theorem first_round_trip :
    scenario_first_round_trip.value? = some ⟨4096, 0, 0, [65, 66, 67, 68]⟩ := by
  decide!

/-- C1, at the failing input: two pages are allocated and the first is
released, two more pages are allocated and released, the second page is
released, and `myalloc(12288)` returns `d = 4096`, not released afterwards.
`PutVal(d, B, 8193)` and `GetVal(d, B', 8193)` both return `0`, and the first
byte read is `67`, the byte `B[8192]`, not the byte `B[0] = 65`: the third page
of `d` is translated through an entry the translation buffer kept from the
released allocation, to the frame of the first page. -/
theorem C1_round_trip_fails :
    scenario_round_trip.value? = some ⟨4096, 0, 0, 67⟩ ∧
    letters 0 = 65 ∧ letters 8192 = 67 := by
  decide!

/-- C2, at the failing input: `myalloc(4096)` returns `a = 4096` and
`myalloc(1023 * 4096)` returns `b = 8192`; the page of `a` translates to
`memory + 4096` and the last page of `b`, mapped to frame 1024, translates to
`memory + 1024`, so the byte `memory + 4096` lies in the `PGSIZE`-byte ranges
of both pages. -/
theorem C2_frames_overlap :
    scenario_overlap.value? = some ⟨4096, 8192, heap0 + 4096, heap0 + 1024⟩ ∧
    heap0 + 1024 ≤ heap0 + 4096 ∧ heap0 + 4096 < heap0 + 1024 + PGSIZE ∧
    page_num_to_address 1024 = 1024 := by
  decide!

/-- C3, at the failing input: after `myalloc(8192)` returns `va = 4096`, a read
of 4 bytes at `va + 4096` returns `0`, and `myfree(va, 8192)`, the page of
`va + 4096` is marked `0` in the virtual bitmap, yet `Translate(va + 4096)`
returns the old physical address and the second read returns `0`, not `-1`. -/
theorem C3_unmapped_page_read :
    scenario_unmap.value? = some ⟨4096, 0, 0, some (heap0 + 8192), 0⟩ := by
  decide!

/-- C4, at the failing input: two pages are allocated at `a = 4096`, the first
is released, and two pages are allocated at `b = 12288`, whose first page is
mapped to frame 1 (table entry `memory + 4096`). The page of `a` is then marked
`0` in the virtual bitmap and frame 1 is marked `1`. `myfree(a, 4096)` does not
return `-1`: it runs to its end and clears the physical bitmap entry of
frame 1. -/
theorem C4_double_free :
    scenario_double_free.value? = some ⟨4096, 12288, 0, 1, heap0 + 4096, none, 0⟩ := by
  decide!

/-- C5, at the failing input: `myalloc(1024 * 4096)` returns `va = 4096` and
maps its last page, page 1024, to frame 1024 (marked `1`, translation
`memory + 1024`). After `myfree(va + 1023 * 4096, 4096)` page 1024 is marked
`0` and its table entry is `NULL`, but the physical bitmap entry of frame 1024
is still `1`: the frame number recomputed from the translation is `0`. -/
theorem C5_frame_leak :
    scenario_frame_leak.value? = some ⟨4096, 1, some (heap0 + 1024), none, 0, 0, 1⟩ ∧
    address_to_page_num (heap0 + 1024) heap0 = 0 := by
  decide!

/-- C6, at the failing input: after `myalloc(1)`, the call
`myalloc(1023 * 4096)` returns `va = 8192`; the frame with index 1022 among
the frames free before the call is frame 1024; after the call the page
`va + 1022 * PGSIZE` and frame 1024 are marked allocated, and
`Translate(va + 1022 * PGSIZE)` returns `memory + 1024`, not
`memory + 1024 * PGSIZE`. -/
theorem C6_wrong_frame :
    scenario_wrong_frame.value? = some ⟨some 1024, 8192, 1, 1, heap0 + 1024⟩ ∧
    heap0 + 1024 ≠ heap0 + 1024 * PGSIZE := by
  decide!

/-- C7, at the failing input: on a fresh manager `myalloc(2 ^ 30)` asks for
more frames than the frames `1 .. physical_pages - 1` and returns `NULL`. In
the initialised state it returns in, the frame search for the same request
fails again, but a second `myalloc(2 ^ 30)` does not return `NULL`: it waits
for ever on `bitmap_lock`, which the first call left held. -/
theorem C7_second_failure_blocks :
    ∃ s1, myalloc (2 ^ 30) fresh = .ret 0 s1 ∧ s1.is_initilized = true ∧
      get_avail_physical (pages_for (2 ^ 30)) s1 = none ∧
      myalloc (2 ^ 30) s1 = .blocked :=
  ⟨myalloc_entry fresh, fresh_large_request, myalloc_entry_init fresh,
    get_avail_physical_large _ _ (Nat.le_of_eq pages_for_large.symm),
    myalloc_blocked _ _ (myalloc_entry_bitmap_lock fresh)⟩

/-- C9, at the failing input: on a fresh manager the first
`physical_pages - 1` calls of `myalloc(1)` return the addresses `PGSIZE`,
`2 * PGSIZE`, ...; the next call returns `NULL`; the call after that does not
return `NULL`: it waits for ever on `bitmap_lock`. -/
theorem C9_call_after_exhaustion_blocks (heap : Nat) (ram : Nat → Nat) :
    ∃ s1 s2,
      alloc_ones (physical_pages - 1) (boot_state heap ram) =
        .ret ((List.range (physical_pages - 1)).map fun i => PGSIZE * (i + 1)) s1 ∧
      myalloc 1 s1 = .ret 0 s2 ∧ myalloc 1 s2 = .blocked := by
  obtain ⟨s1, h1, hf⟩ := Filled_alloc_ones (physical_pages - 1) 0 (boot_state heap ram)
    (boot_state_filled heap ram) (by decide)
  rw [Nat.zero_add] at hf
  have e : (fun i => PGSIZE * (0 + 1 + i)) = fun i => PGSIZE * (i + 1) := by
    funext i
    rw [Nat.zero_add, Nat.add_comm]
  rw [e] at h1
  exact ⟨s1, myalloc_entry s1, h1, Filled_full s1 hf,
    myalloc_blocked 1 _ (myalloc_entry_bitmap_lock s1)⟩

/-- C11, at the failing inputs. After `myalloc(1024 * 4096)` on a fresh manager
the mapped table entry of page 1024 holds `memory + 1024`, an address of
frame 0, and the physical bitmap entry of frame 0 is `0`. After the calls of
the double release (`a = myalloc(8192)`, `myfree(a, 4096)`, `b = myalloc(8192)`,
`myfree(a, 4096)`) the mapped entry of the first page of `b` holds
`memory + 4096`, an address of frame 1, and the entry of frame 1 is `0`. -/
theorem C11_mapped_frame_unmarked :
    scenario_unmarked_frame.value? = some ⟨heap0 + 1024, 0, 0⟩ ∧
    scenario_cleared_frame.value? = some ⟨heap0 + 4096, 1, 0⟩ := by
  decide!

/-- C12, at the failing input: three single pages `a = 4096`, `b`, `c` are
allocated, `b` is released and `d = 16384` is allocated on frames 2 and 4, so
page 2 is unmapped and the first page of `d` has the table entry
`memory + 8192`. `PutVal(a + 4094, "ABCD", 4)` returns `0` and writes the bytes
`C` and `D` past the end of the frame of `a`, into the frame of `d`, which
belongs to no page of `[a + 4094, a + 4098)`: `GetVal(d, buf, 2)` reads them. -/
theorem C12_write_past_frame :
    scenario_spill.value? = some ⟨4096, 16384, 0, heap0 + 8192, 0, 0, [67, 68]⟩ := by
  decide!

/-- C19, at the failing input: after `va = myalloc(1)` and `myfree(va, 1)` on a
fresh manager every entry of the table at directory slot 0 is `NULL`, and the
slot still holds the table. -/
theorem C19_empty_table_kept :
    scenario_kept_table.value? = some ⟨4096, none, true, true⟩ := by
  decide!

/-- C13: for every virtual page number `n` below
`directory_size * table_size`, the address built for `n` as `get_next_avail`
does, in unbounded arithmetic (`page_address`) and in the `int` arithmetic of
the source (`first_page_address`), decomposes with the masks into directory
index `n / table_size`, table index `n % table_size` and offset `0`, and the
page number recomputed from it is `n`. -/
theorem C13_geometry_inverse (n : Nat) (h : n < directory_size * table_size) :
    (upper_index_of (page_address n) = n / table_size ∧
     lower_index_of (page_address n) = n % table_size ∧
     offset_of (page_address n) = 0 ∧
     page_num_of (page_address n) = n) ∧
    (upper_index_of (first_page_address n) = n / table_size ∧
     lower_index_of (first_page_address n) = n % table_size ∧
     offset_of (first_page_address n) = 0 ∧
     page_num_of (first_page_address n) = n) := by
  rw [directory_table_size] at h
  constructor
  · rw [page_address_eq, upper_index_of_eq, lower_index_of_eq, offset_of_eq, page_num_of_eq,
      table_size_eq]
    omega
  · rw [first_page_address_eq n h, upper_index_of_eq, lower_index_of_eq, offset_of_eq,
      page_num_of_eq, table_size_eq, WORD_eq]
    split <;> omega

theorem C13_geometry_inverse_witness :
    (upper_index_of (page_address 700000) = 700000 / table_size ∧
     lower_index_of (page_address 700000) = 700000 % table_size ∧
     offset_of (page_address 700000) = 0 ∧
     page_num_of (page_address 700000) = 700000) ∧
    (upper_index_of (first_page_address 700000) = 700000 / table_size ∧
     lower_index_of (first_page_address 700000) = 700000 % table_size ∧
     offset_of (first_page_address 700000) = 0 ∧
     page_num_of (first_page_address 700000) = 700000) :=
  C13_geometry_inverse 700000 (by decide)

/-- C14, at the failing inputs. In the state after `myalloc(1)`, with the three
locks free: `Translate` of the unallocated address `8192` returns `NULL` with
`tlb_lock` held; `PutVal` and `GetVal` at `8192` return `-1` with `bitmap_lock`
and `tlb_lock` held; `myfree(8192, 4096)` returns `-1` with all three locks
held. On a fresh manager `myalloc(2 ^ 30)` returns `NULL` with `bitmap_lock`
held. -/
theorem C14_locks_left_held :
    state_one_page.locks = ⟨false, false, false⟩ ∧
    (Translate 8192 state_one_page).value? = some 0 ∧
    (Translate 8192 state_one_page).locks? = some ⟨false, false, true⟩ ∧
    (PutVal 8192 abcd 4 state_one_page).value? = some (-1) ∧
    (PutVal 8192 abcd 4 state_one_page).locks? = some ⟨true, false, true⟩ ∧
    (GetVal 8192 zeros 4 state_one_page).value?.map Prod.fst = some (-1) ∧
    (GetVal 8192 zeros 4 state_one_page).locks? = some ⟨true, false, true⟩ ∧
    (myfree 8192 4096 state_one_page).value? = some (some (-1)) ∧
    (myfree 8192 4096 state_one_page).locks? = some ⟨true, true, true⟩ ∧
    fresh.locks = ⟨false, false, false⟩ ∧
    (myalloc (2 ^ 30) fresh).value? = some 0 ∧
    (myalloc (2 ^ 30) fresh).locks? = some ⟨true, false, false⟩ := by
  rw [fresh_large_request]
  decide!

/-- C18, at the failing inputs. On the bitmap with every entry `0` and for
`n = virtual_pages` (the request of `myalloc(2 ^ 32 - 1)` on a fresh manager),
and on the bitmap that marks every page but the last for `n = 2`, no index `i`
with `1 ≤ i` and `i + n ≤ virtual_pages` starts a free run, and the search does
not end with the source's `-1`: it reads the entry with index `virtual_pages`,
past the end of the bitmap. -/
theorem C18_read_past_bitmap :
    get_next_avail virtual_pages (myalloc_entry fresh) = .outside ∧
    myalloc (2 ^ 32 - 1) fresh = .fault ∧
    get_next_avail 2 last_page_free = .outside ∧
    (∀ i, 1 ≤ i → ¬ i + virtual_pages ≤ virtual_pages) ∧
    (∀ i, 1 ≤ i → i + 2 ≤ virtual_pages → last_page_free.virtual_bitmap i ≠ 0) :=
  ⟨fresh_whole_space_search, fresh_whole_space_request, last_page_free_search,
    fun i h1 h2 => by omega,
    fun i h1 h2 => by
      rw [last_page_free_bitmap, if_neg (by omega)]
      decide⟩


/-- C15 (replacement is first in, first out): on the linked nodes of an empty
buffer, `k > TLB_SIZE` insertions of pairs with distinct keys, each in a new
node, all return; after them the lookup of each of the first `k - TLB_SIZE`
keys returns `NULL` and counts a miss, and the lookup of each of the last
`TLB_SIZE` keys returns the physical address inserted for it and counts a hit. -/
theorem C15_first_in_first_out (cell : Nat → TLB_cell) (ins : List TLB_node)
    (addrs : List Nat) (hlen : addrs.length = ins.length) (hk : TLB_SIZE < ins.length)
    (hd : (ins.map TLB_node.va).Nodup) (ha : addrs.Nodup) (hz : ∀ a ∈ addrs, a ≠ 0) :
    ∃ t, TLB_mem.run (insertions ins addrs) (init_TLB_mem cell) = some t ∧
      t.count = TLB_SIZE ∧
      ∀ (i : Nat) (hi : i < ins.length) (fuel : Nat), t.count < fuel →
        (i < ins.length - TLB_SIZE →
          check_TLB_mem ins[i].va fuel t =
            some (0, { t with miss_count := t.miss_count + 1 })) ∧
        (ins.length - TLB_SIZE ≤ i →
          check_TLB_mem ins[i].va fuel t =
            some (ins[i].pa, { t with hit_count := t.hit_count + 1 })) := by
  obtain ⟨t, l, hrun, hl, hv, _, _⟩ :=
    insertions_linked ins addrs (init_TLB_mem cell) [] (init_TLB_mem_linked cell) hlen ha
      (fun a h => ⟨hz a h, List.not_mem_nil a⟩)
  have hnodes : (t.view l).nodes = ins.drop (ins.length - TLB_SIZE) := by
    rw [hv]
    simp only [TLB_mem.view, List.map_nil, List.nil_append, List.length_nil, Nat.zero_add]
  have hcount : t.count = TLB_SIZE := by
    have h1 : (t.view l).nodes.length = l.length := by
      simp only [TLB_mem.view, List.length_map]
    rw [hl.2.2.1, ← h1, hnodes, List.length_drop]
    omega
  refine ⟨t, hrun, hcount, ?_⟩
  intro i hi fuel hfuel
  obtain ⟨hmiss, hhit⟩ := check_TLB_walk_drop ins hd (ins.length - TLB_SIZE) i hi
  obtain ⟨r, t1, h1, _, _, hcase⟩ := check_TLB_mem_linked ins[i].va fuel t l hl hfuel
  rw [hnodes] at hcase
  constructor
  · intro hlt
    rw [hmiss hlt] at hcase
    rcases hcase with ⟨_, hr, ht⟩ | ⟨hw, _⟩
    · rw [h1, hr, ht]
    · cases hw
  · intro hle
    rw [hhit hle] at hcase
    rcases hcase with ⟨hw, _, _⟩ | ⟨hw, ht⟩
    · cases hw
    · rw [h1, ht]
      cases hw
      rfl

theorem C15_first_in_first_out_witness :
    (numbered_addrs 121).length = (numbered_nodes 121).length ∧
    TLB_SIZE < (numbered_nodes 121).length ∧
    ((numbered_nodes 121).map TLB_node.va).Nodup ∧
    (numbered_addrs 121).Nodup ∧
    (∀ a ∈ numbered_addrs 121, a ≠ 0) ∧
    ∃ t, TLB_mem.run (insertions (numbered_nodes 121) (numbered_addrs 121))
        (init_TLB_mem blank_cells) = some t ∧
      t.count = TLB_SIZE ∧
      ∀ (i : Nat) (hi : i < (numbered_nodes 121).length) (fuel : Nat), t.count < fuel →
        (i < (numbered_nodes 121).length - TLB_SIZE →
          check_TLB_mem (numbered_nodes 121)[i].va fuel t =
            some (0, { t with miss_count := t.miss_count + 1 })) ∧
        ((numbered_nodes 121).length - TLB_SIZE ≤ i →
          check_TLB_mem (numbered_nodes 121)[i].va fuel t =
            some ((numbered_nodes 121)[i].pa, { t with hit_count := t.hit_count + 1 })) :=
  ⟨by decide, by decide, by decide, by decide, by decide,
    C15_first_in_first_out blank_cells (numbered_nodes 121) (numbered_addrs 121)
      (by decide) (by decide) (by decide) (by decide) (by decide)⟩

theorem Translate_blocked (va : Nat) (s : State) (h : s.tlb_lock = true) :
    Translate va s = .blocked := by
  unfold Translate
  rw [if_pos h]

theorem state_null_translation_reachable : Reachable state_null_translation :=
  reachable_of_run_calls [Call.myalloc 1, Call.Translate 8192] (boot_state heap0 zeros)
    state_null_translation (Reachable.boot heap0 zeros (fun _ => true) heap0_ok) rfl

/-- C17, at the failing input. The state after `myalloc(1)` and `Translate` of
the unallocated address `8192` is reachable; in it the address `4096` is on an
allocated page, the translation buffer has no node, its counters stand at one
miss and no hit, and the page tables give `heap0 + 4096` for the address; but
`Translate(4096)` does not return and changes no counter: it waits for ever on
`tlb_lock`, which `Translate(8192)` left held. -/
theorem C17_miss_not_counted :
    Reachable state_null_translation ∧
    state_null_translation.virtual_bitmap (page_num_of 4096) = 1 ∧
    state_null_translation.tlb_pairs = some [] ∧
    state_null_translation.counters = some (1, 0) ∧
    table_walk 4096 state_null_translation = some (heap0 + 4096) ∧
    (Translate 8192 state_one_page).value? = some 0 ∧
    state_null_translation.tlb_lock = true ∧
    Translate 4096 state_null_translation = .blocked :=
  ⟨state_null_translation_reachable, by decide!, by decide!, by decide!, by decide!,
    by decide!, by decide!, Translate_blocked _ _ (by decide!)⟩

theorem without_free_of_run_calls :
    ∀ (calls : List Call) (s s1 : State), ReachableWithoutFree s →
      calls.all Call.not_free = true → run_calls calls s = some s1 →
      ReachableWithoutFree s1 := by
  intro calls
  induction calls with
  | nil =>
    intro s s1 h _ hr
    cases hr
    exact h
  | cons c rest ih =>
    intro s s1 h hall hr
    rw [List.all_cons, Bool.and_eq_true] at hall
    unfold run_calls at hr
    cases hc : c.run s with
    | none =>
      rw [hc] at hr
      cases hr
    | some s2 =>
      rw [hc] at hr
      exact ih s2 s1 (ReachableWithoutFree.call c s s2 h hall.1 hc) hall.2 hr

theorem reachable_of_without_free (s : State) (h : ReachableWithoutFree s) : Reachable s := by
  induction h with
  | boot heap ram host h => exact Reachable.boot heap ram host h
  | call c s s1 _ _ hs ih => exact Reachable.call c s s1 ih hs

theorem state_without_free_reachable : ReachableWithoutFree state_without_free :=
  without_free_of_run_calls calls_without_free fresh state_without_free
    (ReachableWithoutFree.boot heap0 zeros (fun _ => true) heap0_ok) rfl rfl

/-- C20, at the failing input. The state after `myalloc(1)`,
`PutVal(4096, "ABCD", 4)` and `Translate(8192)` on a fresh manager is reached
without `myfree`. Its translation buffer holds the one pair
`(4096, heap0 + 4096)`, and the walk of the page tables gives `heap0 + 4096`
for `4096`; but `Translate(4096)` returns no value: it waits for ever on
`tlb_lock`, which `Translate` of the unallocated address `8192` left held. -/
theorem C20_translate_blocks_table_walk_answers :
    ReachableWithoutFree state_without_free ∧
    state_without_free.is_initilized = true ∧
    state_without_free.tlb_pairs = some [(4096, heap0 + 4096)] ∧
    table_walk 4096 state_without_free = some (heap0 + 4096) ∧
    state_without_free.tlb_lock = true ∧
    Translate 4096 state_without_free = .blocked :=
  ⟨state_without_free_reachable, by decide!, by decide!, by decide!, by decide!,
    Translate_blocked _ _ (by decide!)⟩

/-! ## The four ways of `Translate` -/

theorem check_TLB_walk_mem (va : Nat) :
    ∀ (nodes : List TLB_node) (pa : Nat), check_TLB_walk va nodes = some pa →
      ∃ n ∈ nodes, n.va = va ∧ n.pa = pa := by
  intro nodes
  induction nodes with
  | nil =>
    intro pa h
    cases h
  | cons x rest ih =>
    intro pa h
    unfold check_TLB_walk at h
    by_cases hv : va = x.va
    · rw [if_pos hv] at h
      cases h
      exact ⟨x, List.mem_cons_self x rest, hv.symm, rfl⟩
    · rw [if_neg hv] at h
      obtain ⟨n, hn, h1, h2⟩ := ih pa h
      exact ⟨n, List.mem_cons_of_mem x hn, h1, h2⟩

theorem check_TLB_walk_absent (va : Nat) :
    ∀ (nodes : List TLB_node), check_TLB_walk va nodes = none →
      va ∉ nodes.map TLB_node.va := by
  intro nodes
  induction nodes with
  | nil =>
    intro _ h
    cases h
  | cons x rest ih =>
    intro h
    unfold check_TLB_walk at h
    by_cases hv : va = x.va
    · rw [if_pos hv] at h
      cases h
    · rw [if_neg hv] at h
      rw [List.map_cons, List.mem_cons]
      rintro (e | e)
      · exact hv e
      · exact ih h e

/-- What `Translate` does in an initialised state with `tlb_lock` free: a hit
returns the stored address; a miss on an unmarked page returns `NULL` and keeps
`tlb_lock`; a miss on a marked page whose directory slot is empty reads through
`NULL`; any other miss returns the table entry plus the offset and inserts
the pair. -/
theorem Translate_spec (va : Nat) (s : State) (t : TLB) (hs : s.tlb_store = some t)
    (hc : t.count = t.nodes.length) (hb : t.count ≤ TLB_SIZE)
    (hpa : ∀ n ∈ t.nodes, n.pa ≠ 0) (hinit : s.is_initilized = true)
    (hl : s.tlb_lock = false) :
    (∃ pa, pa ≠ 0 ∧ check_TLB_walk va t.nodes = some pa ∧
      Translate va s = .ret pa { s with
        tlb_store := some { t with hit_count := t.hit_count + 1 }, tlb_lock := false }) ∨
    (check_TLB_walk va t.nodes = none ∧ s.virtual_bitmap (page_num_of va) = 0 ∧
      Translate va s = .ret 0 { s with
        tlb_store := some { t with miss_count := t.miss_count + 1 }, tlb_lock := true }) ∨
    (check_TLB_walk va t.nodes = none ∧ s.virtual_bitmap (page_num_of va) ≠ 0 ∧
      s.pgdir (upper_index_of va) = none ∧ Translate va s = .fault) ∨
    (check_TLB_walk va t.nodes = none ∧ s.virtual_bitmap (page_num_of va) ≠ 0 ∧
      ∃ table t1, s.pgdir (upper_index_of va) = some table ∧
        Translate va s = .ret ((table (lower_index_of va) + offset_of va) % WORD)
          { s with tlb_store := some t1, tlb_lock := false } ∧
        t1.nodes = (t.nodes ++
            [TLB_node.mk va ((table (lower_index_of va) + offset_of va) % WORD)]).drop
          (t.nodes.length + 1 - TLB_SIZE) ∧
        t1.count = t1.nodes.length ∧ t1.count ≤ TLB_SIZE ∧
        t1.miss_count = t.miss_count + 1 ∧ t1.hit_count = t.hit_count) := by
  have hs1 : ({ s with tlb_lock := true } : State).tlb_store = some t := hs
  have hlock : ¬ (s.tlb_lock = true) := by rw [hl]; decide
  cases hw : check_TLB_walk va t.nodes with
  | some pa =>
    left
    obtain ⟨n, hn, _, hp⟩ := check_TLB_walk_mem va t.nodes pa hw
    have hne : pa ≠ 0 := hp ▸ hpa n hn
    refine ⟨pa, hne, rfl, ?_⟩
    unfold Translate
    rw [if_neg hlock]
    simp only [check_TLB_hit va pa _ t hs1 hw]
    rw [if_pos hne]
  | none =>
    right
    have hm := check_TLB_miss va _ t hs1 hw
    by_cases hv : s.virtual_bitmap (page_num_of va) = 0
    · left
      refine ⟨rfl, hv, ?_⟩
      unfold Translate
      rw [if_neg hlock]
      simp only [hm]
      rw [if_neg (by decide), if_neg (by rw [hinit]; decide), if_pos hv]
    · right
      cases hd : s.pgdir (upper_index_of va) with
      | none =>
        left
        refine ⟨rfl, hv, rfl, ?_⟩
        unfold Translate
        rw [if_neg hlock]
        simp only [hm]
        rw [if_neg (by decide), if_neg (by rw [hinit]; decide), if_neg hv]
        simp only [hd]
      | some table =>
        right
        obtain ⟨t1, h1, hn1, hc1, hb1, hm1, hh1⟩ :=
          add_TLB_nodes va ((table (lower_index_of va) + offset_of va) % WORD)
            { s with tlb_lock := true,
                     tlb_store := some { t with miss_count := t.miss_count + 1 } }
            { t with miss_count := t.miss_count + 1 } rfl hc hb
        refine ⟨rfl, hv, table, t1, rfl, ?_, hn1, hc1, hb1, hm1, hh1⟩
        unfold Translate
        rw [if_neg hlock]
        simp only [hm]
        rw [if_neg (by decide), if_neg (by rw [hinit]; decide), if_neg hv]
        simp only [hd]
        rw [h1]

/-! ## The second invariant -/

/-- In a state with both invariants, the entry of a marked page is not `NULL`
and the table entry plus the offset is an address inside the physical buffer. -/
theorem walk_value (va : Nat) (s : State) (hi : Inv s) (he : EntriesInHeap s)
    (hv : s.virtual_bitmap (page_num_of va) = 1) :
    ∃ table, s.pgdir (upper_index_of va) = some table ∧
      table (lower_index_of va) ≠ 0 ∧
      (table (lower_index_of va) + offset_of va) % WORD =
        table (lower_index_of va) + offset_of va ∧
      s.heap ≤ table (lower_index_of va) + offset_of va ∧
      table (lower_index_of va) + offset_of va < s.heap + MEMSIZE := by
  obtain ⟨table, ht, hne⟩ := (hi.1 (page_num_of va)).mp hv
  rw [page_num_of_div] at ht
  rw [page_num_of_mod] at hne
  obtain ⟨h1, h2⟩ := he _ table _ ht hne
  obtain ⟨_, h4⟩ := hi.2.2.1
  have ho : offset_of va < PGSIZE := by
    rw [offset_of_eq, PGSIZE_eq]
    omega
  refine ⟨table, ht, hne, Nat.mod_eq_of_lt (by omega), by omega, by omega⟩

theorem TInv_of_same {s s1 : State} (h : SameTables s s1) (ht : s1.tlb_store = s.tlb_store)
    (hi : TInv s) : TInv s1 := by
  obtain ⟨a1, _, a3, a4, _, a6⟩ := h
  obtain ⟨hw, he, hb⟩ := hi
  refine ⟨?_, ?_, ?_, ?_⟩
  · intro hinit
    rw [a3] at hinit
    rw [ht]
    exact hw hinit
  · intro u table k
    rw [a6, a1]
    exact he u table k
  · intro v
    rw [a4]
    exact hb.1 v
  · intro hinit v
    rw [a3] at hinit
    rw [a4]
    exact hb.2 hinit v

/-- The second invariant is kept by `Translate`. -/
theorem Translate_tinv (va : Nat) (s s1 : State) (p : Nat) (hi : Inv s) (ht : TInv s)
    (h : Translate va s = .ret p s1) : TInv s1 := by
  have hsame := Translate_same va s s1 p h
  obtain ⟨hw, he, hb⟩ := ht
  have hrest : EntriesInHeap s1 ∧ Binary s1 := by
    obtain ⟨a1, _, a3, a4, _, a6⟩ := hsame
    refine ⟨?_, ?_, ?_⟩
    · intro u table k
      rw [a6, a1]
      exact he u table k
    · intro v
      rw [a4]
      exact hb.1 v
    · intro hinit v
      rw [a3] at hinit
      rw [a4]
      exact hb.2 hinit v
  refine ⟨?_, hrest.1, hrest.2⟩
  intro hinit1
  have hinit : s.is_initilized = true := by
    rw [← hsame.2.2.1]
    exact hinit1
  obtain ⟨t, hs, hc, hbd, hpa⟩ := hw hinit
  by_cases hl : s.tlb_lock = true
  · rw [Translate_blocked va s hl] at h
    cases h
  · have hl0 : s.tlb_lock = false := by
      cases hq : s.tlb_lock
      · rfl
      · exact absurd hq hl
    rcases Translate_spec va s t hs hc hbd hpa hinit hl0 with
      ⟨pa, _, _, e⟩ | ⟨_, _, e⟩ | ⟨_, _, _, e⟩ | ⟨_, hv, table, t1, hd, e, hn1, hc1, hb1, _, _⟩
    · rw [e] at h
      cases h
      exact ⟨_, rfl, hc, hbd, hpa⟩
    · rw [e] at h
      cases h
      exact ⟨_, rfl, hc, hbd, hpa⟩
    · rw [e] at h
      cases h
    · rw [e] at h
      cases h
      refine ⟨t1, rfl, hc1, hb1, ?_⟩
      intro n hn
      rw [hn1] at hn
      rcases List.mem_append.mp (List.mem_of_mem_drop hn) with hm | hm
      · exact hpa n hm
      · rw [List.mem_singleton] at hm
        rw [hm]
        have hv1 : s.virtual_bitmap (page_num_of va) = 1 := by
          rcases hb.1 (page_num_of va) with h0 | h1
          · exact absurd h0 hv
          · exact h1
        obtain ⟨table2, hd2, _, hmod, hge, _⟩ := walk_value va s hi he hv1
        rw [hd] at hd2
        cases hd2
        show (table (lower_index_of va) + offset_of va) % WORD ≠ 0
        rw [hmod]
        have := hi.2.2.1.1
        omega

theorem both_of_frame (s : State) (ram : Nat → Nat) (b : Bool) (hp : Inv s ∧ TInv s) :
    Inv { s with ram := ram, bitmap_lock := b } ∧ TInv { s with ram := ram, bitmap_lock := b } :=
  ⟨SameTables_inv ⟨rfl, rfl, rfl, rfl, rfl, rfl⟩ hp.1,
    TInv_of_same ⟨rfl, rfl, rfl, rfl, rfl, rfl⟩ rfl hp.2⟩

theorem both_of_same (s s1 : State) (h : SameTables s s1) (ht : s1.tlb_store = s.tlb_store)
    (hp : Inv s ∧ TInv s) : Inv s1 ∧ TInv s1 :=
  ⟨SameTables_inv h hp.1, TInv_of_same h ht hp.2⟩

theorem both_of_Translate (va : Nat) (s s1 : State) (p : Nat) (hp : Inv s ∧ TInv s)
    (h : Translate va s = .ret p s1) : Inv s1 ∧ TInv s1 :=
  ⟨SameTables_inv (Translate_same va s s1 p h) hp.1, Translate_tinv va s s1 p hp.1 hp.2 h⟩

/-! ## The second invariant is kept by `myalloc` and `myfree` -/

theorem page_num_to_address_whole (f : Nat) (h : f < physical_pages) :
    page_num_to_address f + PGSIZE ≤ MEMSIZE := by
  unfold page_num_to_address
  rw [table_size_eq, PGSIZE_eq, WORD_eq, MEMSIZE_eq]
  rw [physical_pages_eq] at h
  have hlt : f / 1024 * 1024 + f % 1024 * 4096 + 4096 ≤ 2 ^ 30 := by omega
  rw [Nat.mod_eq_of_lt (by omega)]
  exact hlt

theorem TInv_map (s : State) (va pa : Nat) (pb : Nat → Nat) (lk : Bool)
    (ht : TInv s) (hinit : s.is_initilized = true)
    (hpa : s.heap ≤ pa ∧ pa + PGSIZE ≤ s.heap + MEMSIZE) :
    TInv { s with
      virtual_bitmap := setAt s.virtual_bitmap (page_num_of va) 1
      physical_bitmap := pb
      pgdir := setAt s.pgdir (upper_index_of va)
        (some (setAt (match s.pgdir (upper_index_of va) with
                      | none => fun _ => 0
                      | some t => t) (lower_index_of va) pa))
      pagedir_lock := lk } := by
  obtain ⟨hw, he, hb⟩ := ht
  refine ⟨hw, ?_, ?_, ?_⟩
  · intro u table k hu hk
    change setAt s.pgdir (upper_index_of va) _ u = some table at hu
    change s.heap ≤ table k ∧ table k + PGSIZE ≤ s.heap + MEMSIZE
    by_cases e : u = upper_index_of va
    · subst e
      rw [setAt_same] at hu
      cases hu
      by_cases ek : k = lower_index_of va
      · subst ek
        rw [setAt_same]
        exact hpa
      · rw [setAt_other _ _ _ _ ek] at hk ⊢
        cases hq : s.pgdir (upper_index_of va) with
        | none =>
          rw [hq] at hk
          exact absurd rfl hk
        | some t0 =>
          rw [hq] at hk
          exact he _ t0 k hq hk
    · rw [setAt_other _ _ _ _ e] at hu
      exact he u table k hu hk
  · intro v
    change setAt s.virtual_bitmap (page_num_of va) 1 v = 0 ∨
      setAt s.virtual_bitmap (page_num_of va) 1 v = 1
    by_cases e : v = page_num_of va
    · subst e
      rw [setAt_same]
      exact Or.inr rfl
    · rw [setAt_other _ _ _ _ e]
      exact hb.1 v
  · intro h0
    change s.is_initilized = false at h0
    rw [hinit] at h0
    cases h0

theorem map_step_tinv (i0 f i : Nat) (s : State) (hi : Inv s) (ht : TInv s)
    (hinit : s.is_initilized = true) (hf : f < physical_pages)
    (hpn : page_num_of ((first_page_address i0 + PGSIZE * i) % WORD) = i0 + i) :
    TInv (map_step (first_page_address i0) i0 f i s) := by
  have hmem : s.memory = s.heap := hi.2.2.2 hinit
  have hw := page_num_to_address_whole f hf
  have hin : s.heap ≤ (page_num_to_address f + s.memory) % WORD ∧
      (page_num_to_address f + s.memory) % WORD + PGSIZE ≤ s.heap + MEMSIZE := by
    rw [hmem]
    obtain ⟨_, h4⟩ := hi.2.2.1
    have hP : 0 < PGSIZE := by decide
    rw [Nat.mod_eq_of_lt (by omega)]
    omega
  have htinv := TInv_map s ((first_page_address i0 + PGSIZE * i) % WORD)
    ((page_num_to_address f + s.memory) % WORD) (setAt s.physical_bitmap f 1) false
    ht hinit hin
  rw [hpn] at htinv
  exact htinv

theorem myalloc_loop_tinv (i0 : Nat) (h1 : 1 ≤ i0) :
    ∀ (frames : List Nat) (i : Nat) (s s1 : State) (r : Nat),
      (∀ f ∈ frames, f < physical_pages) → Inv s → TInv s → Granting s →
      s.is_initilized = true →
      myalloc_loop (first_page_address i0) i0 frames i s = .ret r s1 → TInv s1 := by
  intro frames
  induction frames with
  | nil =>
    intro i s s1 r _ _ ht _ _ h
    unfold myalloc_loop at h
    cases h
    exact TInv_of_same ⟨rfl, rfl, rfl, rfl, rfl, rfl⟩ rfl ht
  | cons f rest ih =>
    intro i s s1 r hf hi ht hg hinit h
    by_cases hb : virtual_pages ≤ i0 + i
    · unfold myalloc_loop at h
      rw [if_pos hb] at h
      cases h
    · have hb2 := hb
      rw [virtual_pages_eq] at hb2
      have hpn := page_num_of_first_page_address i0 i (by omega)
      have hfb := hf f (List.mem_cons_self f rest)
      by_cases hl : s.pagedir_lock = true
      · rw [myalloc_loop_locked _ i0 f rest i s hb hl hpn] at h
        cases h
      · have hl0 : s.pagedir_lock = false := by
          cases hq : s.pagedir_lock
          · rfl
          · exact absurd hq hl
        rw [myalloc_loop_step _ i0 f rest i s hb hl0 hpn (fun _ => hg _)] at h
        exact ih (i + 1) _ s1 r (fun g hg2 => hf g (List.mem_cons_of_mem f hg2))
          (map_step_inv i0 f i s hi hinit hfb (by omega) hpn)
          (map_step_tinv i0 f i s hi ht hinit hfb hpn) hg hinit h

theorem SetPhysicalMem_tinv (s : State) (ht : TInv s) : TInv (SetPhysicalMem s) := by
  unfold SetPhysicalMem
  split
  · exact ht
  · refine ⟨fun _ => ⟨init_TLB, rfl, rfl, by decide, ?_⟩, ?_, fun _ => Or.inl rfl,
      fun _ _ => rfl⟩
    · intro n hn
      cases hn
    · intro u table k hu
      cases hu

theorem myalloc_entry_tinv (s : State) (ht : TInv s) : TInv (myalloc_entry s) :=
  TInv_of_same ⟨rfl, rfl, rfl, rfl, rfl, rfl⟩ rfl
    (SetPhysicalMem_tinv _ (TInv_of_same (s := s) ⟨rfl, rfl, rfl, rfl, rfl, rfl⟩ rfl ht))

theorem myalloc_pages_tinv (n : Nat) (s0 s1 : State) (r : Nat) (hi0 : Inv s0) (ht0 : TInv s0)
    (hg : Granting s0) (hinit : s0.is_initilized = true)
    (h : myalloc_pages n s0 = .ret r s1) : TInv s1 := by
  unfold myalloc_pages at h
  split at h
  · cases h
  · cases h
    exact ht0
  · rename_i va_first hfound
    obtain ⟨i0, h1, h2, h3, _⟩ := get_next_avail_found _ _ _ hfound
    split at h
    · cases h
      exact ht0
    · rename_i pa_nums hphys
      have hb := get_avail_physical_bound _ _ _ hphys
      rw [virtual_pages_eq] at h2
      rw [h3, address_to_page_num_first i0 h2] at h
      exact myalloc_loop_tinv i0 h1 pa_nums 0 _ s1 r (fun f hf => (hb f hf).2) hi0 ht0 hg
        hinit h

theorem myalloc_tinv (n : Nat) (s s1 : State) (r : Nat) (hi : Inv s) (ht : TInv s)
    (hg : Granting s) (h : myalloc n s = .ret r s1) : TInv s1 :=
  myalloc_pages_tinv _ _ _ _ (myalloc_entry_inv s hi) (myalloc_entry_tinv s ht)
    (myalloc_entry_granting s hg) (myalloc_entry_init s) (myalloc_ret n s s1 r h)

theorem TInv_unmap (s : State) (va : Nat) (table : Nat → Nat) (pb : Nat → Nat)
    (ht : TInv s) (hd : s.pgdir (upper_index_of va) = some table) :
    TInv { s with
      pgdir := setAt s.pgdir (upper_index_of va) (some (setAt table (lower_index_of va) 0))
      physical_bitmap := pb
      virtual_bitmap := setAt s.virtual_bitmap (page_num_of va) 0 } := by
  obtain ⟨hw, he, hb⟩ := ht
  refine ⟨hw, ?_, ?_, ?_⟩
  · intro u tbl k hu hk
    change setAt s.pgdir (upper_index_of va) _ u = some tbl at hu
    change s.heap ≤ tbl k ∧ tbl k + PGSIZE ≤ s.heap + MEMSIZE
    by_cases e : u = upper_index_of va
    · subst e
      rw [setAt_same] at hu
      cases hu
      by_cases ek : k = lower_index_of va
      · subst ek
        rw [setAt_same] at hk
        exact absurd rfl hk
      · rw [setAt_other _ _ _ _ ek] at hk ⊢
        exact he _ table k hd hk
    · rw [setAt_other _ _ _ _ e] at hu
      exact he u tbl k hu hk
  · intro v
    change setAt s.virtual_bitmap (page_num_of va) 0 v = 0 ∨
      setAt s.virtual_bitmap (page_num_of va) 0 v = 1
    by_cases e : v = page_num_of va
    · subst e
      rw [setAt_same]
      exact Or.inl rfl
    · rw [setAt_other _ _ _ _ e]
      exact hb.1 v
  · intro h0 v
    change setAt s.virtual_bitmap (page_num_of va) 0 v = 0
    by_cases e : v = page_num_of va
    · subst e
      rw [setAt_same]
    · rw [setAt_other _ _ _ _ e]
      exact hb.2 h0 v

theorem myfree_release_tinv (va : Nat) :
    ∀ (pas : List Nat) (i : Nat) (s s1 : State) (u : Unit),
      TInv s → myfree_release va pas i s = .ret u s1 → TInv s1 := by
  intro pas
  induction pas with
  | nil =>
    intro i s s1 u ht h
    unfold myfree_release at h
    cases h
    exact ht
  | cons pa rest ih =>
    intro i s s1 u ht h
    unfold myfree_release at h
    simp only at h
    split at h
    · cases h
    · rename_i table hd
      split at h
      · cases h
      · rw [table_release_scan_eq] at h
        exact ih _ _ _ _ (TInv_unmap s _ table _ ht hd) h

theorem myfree_tinv (va size : Nat) (s s1 : State) (r : Option Int) (hi : Inv s)
    (ht : TInv s) (h : myfree va size s = .ret r s1) : TInv s1 := by
  unfold myfree at h
  split at h
  · cases h
    exact ht
  · split at h
    · cases h
    · split at h
      · cases h
      · have hp0 : Inv { s with bitmap_lock := true, pagedir_lock := true } ∧
            TInv { s with bitmap_lock := true, pagedir_lock := true } :=
          both_of_same s _ ⟨rfl, rfl, rfl, rfl, rfl, rfl⟩ rfl ⟨hi, ht⟩
        split at h
        · rename_i s2 htr
          cases h
          exact (myfree_translate_keeps _ both_of_Translate va _ _ _ _ _ hp0 htr).2
        · rename_i pas s2 htr
          have hp2 := myfree_translate_keeps _ both_of_Translate va _ _ _ _ _ hp0 htr
          split at h
          · rename_i u s3 hr
            cases h
            exact TInv_of_same ⟨rfl, rfl, rfl, rfl, rfl, rfl⟩ rfl
              (myfree_release_tinv va pas 0 s2 s3 u hp2.2 hr)
          · cases h
          · cases h
        · cases h
        · cases h

theorem boot_state_tinv (heap : Nat) (ram : Nat → Nat) : TInv (boot_state heap ram) := by
  refine ⟨?_, ?_, fun _ => Or.inl rfl, fun _ _ => rfl⟩
  · intro h
    cases h
  · intro u table k hu
    cases hu

theorem Call_run_tinv (c : Call) (s s1 : State) (hi : Inv s) (ht : TInv s) (hg : Granting s)
    (h : c.run s = some s1) : TInv s1 := by
  cases c with
  | myalloc n =>
    simp only [Call.run] at h
    cases ho : MyVM.myalloc n s with
    | ret v s2 =>
      rw [ho] at h
      cases h
      exact myalloc_tinv _ _ _ _ hi ht hg ho
    | blocked => rw [ho] at h; cases h
    | fault => rw [ho] at h; cases h
  | myfree va size =>
    simp only [Call.run] at h
    cases ho : MyVM.myfree va size s with
    | ret v s2 =>
      rw [ho] at h
      cases h
      exact myfree_tinv _ _ _ _ _ hi ht ho
    | blocked => rw [ho] at h; cases h
    | fault => rw [ho] at h; cases h
  | PutVal va val size =>
    simp only [Call.run] at h
    cases ho : MyVM.PutVal va val size s with
    | ret v s2 =>
      rw [ho] at h
      cases h
      unfold MyVM.PutVal at ho
      split at ho
      · cases ho
        exact ht
      · exact (PutVal_loop_keeps _ both_of_Translate both_of_frame _ _ _ _ _ _ _ _ _
          ⟨hi, ht⟩ ho).2
    | blocked => rw [ho] at h; cases h
    | fault => rw [ho] at h; cases h
  | GetVal va val size =>
    simp only [Call.run] at h
    cases ho : MyVM.GetVal va val size s with
    | ret v s2 =>
      rw [ho] at h
      cases h
      unfold MyVM.GetVal at ho
      split at ho
      · cases ho
        exact ht
      · exact (GetVal_loop_keeps _ both_of_Translate both_of_frame _ _ _ _ _ _ _ _ _
          ⟨hi, ht⟩ ho).2
    | blocked => rw [ho] at h; cases h
    | fault => rw [ho] at h; cases h
  | Translate va =>
    simp only [Call.run] at h
    cases ho : MyVM.Translate va s with
    | ret v s2 =>
      rw [ho] at h
      cases h
      exact Translate_tinv _ _ _ _ hi ht ho
    | blocked => rw [ho] at h; cases h
    | fault => rw [ho] at h; cases h

/-- Every reachable state whose host grants every table has the second
invariant. -/
theorem Reachable_tinv {s : State} (h : Reachable s) (hg : Granting s) : TInv s := by
  induction h with
  | boot heap ram host ho =>
    exact TInv_of_same (s := boot_state heap ram) ⟨rfl, rfl, rfl, rfl, rfl, rfl⟩ rfl
      (boot_state_tinv heap ram)
  | call c s s1 hr hs ih =>
    have hg0 := granting_before c s s1 hs hg
    exact Call_run_tinv c s s1 (Reachable_inv hr hg0) (ih hg0) hg0 hs

/-! ## A miss followed by a hit -/

theorem check_TLB_walk_new (va pa : Nat) (nodes : List TLB_node) (d : Nat)
    (hd : d ≤ nodes.length) (h : check_TLB_walk va nodes = none) :
    check_TLB_walk va ((nodes ++ [TLB_node.mk va pa]).drop d) = some pa := by
  rw [List.drop_append_of_le_length hd]
  have hab : ∀ n ∈ nodes.drop d, n.va ≠ va := by
    intro n hn e
    exact check_TLB_walk_absent va nodes h
      (List.mem_map.mpr ⟨n, List.mem_of_mem_drop hn, e⟩)
  generalize nodes.drop d = l at hab
  induction l with
  | nil =>
    simp only [List.nil_append, check_TLB_walk, if_true]
  | cons x rest ih =>
    rw [List.cons_append]
    unfold check_TLB_walk
    rw [if_neg (fun e => hab x (List.mem_cons_self x rest) e.symm)]
    exact ih (fun n hn => hab n (List.mem_cons_of_mem x hn))

theorem Bool_eq_false_of_ne_true (b : Bool) (h : ¬ b = true) : b = false := by
  cases b
  · rfl
  · exact absurd rfl h

/-- Hit and miss accounting with `tlb_lock` free: in a reachable state whose
host grants every table and in which `tlb_lock` is free, for an address `v` on
a marked page that is no key of the translation buffer, `Translate(v)` returns
an address that is not `NULL`, with one more miss and the same hits;
`Translate(v)` in the state it returns in returns the same address, with one
more hit and the same misses. -/
theorem miss_then_hit (s : State) (v : Nat) (h : Reachable s) (hg : Granting s)
    (hl : s.tlb_lock = false)
    (hv : s.virtual_bitmap (page_num_of v) = 1)
    (hk : ∀ t, s.tlb_store = some t → check_TLB_walk v t.nodes = none) :
    ∃ t t1 pa s1, s.tlb_store = some t ∧ pa ≠ 0 ∧
      Translate v s = .ret pa s1 ∧ s1.tlb_store = some t1 ∧
      t1.miss_count = t.miss_count + 1 ∧ t1.hit_count = t.hit_count ∧
      Translate v s1 = .ret pa { s1 with
        tlb_store := some { t1 with hit_count := t1.hit_count + 1 }, tlb_lock := false } := by
  have hi := Reachable_inv h hg
  have ht := Reachable_tinv h hg
  have hinit : s.is_initilized = true := by
    cases hq : s.is_initilized
    · have := ht.2.2.2 hq (page_num_of v)
      rw [hv] at this
      cases this
    · rfl
  obtain ⟨t, hs, hc, hb, hpa⟩ := ht.1 hinit
  have hw := hk t hs
  obtain ⟨table, hd, _, hmod, hge, _⟩ := walk_value v s hi ht.2.1 hv
  rcases Translate_spec v s t hs hc hb hpa hinit hl with
    ⟨pa, _, e, _⟩ | ⟨_, e, _⟩ | ⟨_, _, e, _⟩ | ⟨_, _, table1, t1, hd1, e, hn1, hc1, hb1, hm1, hh1⟩
  · rw [hw] at e
    cases e
  · rw [hv] at e
    cases e
  · rw [hd] at e
    cases e
  · rw [hd] at hd1
    cases hd1
    have ht1 := Translate_tinv v s _ _ hi ht e
    obtain ⟨t2, hs2, _, _, hpa2⟩ := ht1.1 hinit
    cases hs2
    have hne : (table (lower_index_of v) + offset_of v) % WORD ≠ 0 := by
      rw [hmod]
      have := hi.2.2.1.1
      omega
    refine ⟨t, t1, _, _, hs, hne, e, rfl, hm1, hh1, ?_⟩
    have hw1 : check_TLB_walk v t1.nodes =
        some ((table (lower_index_of v) + offset_of v) % WORD) := by
      rw [hn1]
      apply check_TLB_walk_new _ _ _ _ _ hw
      rw [TLB_SIZE_eq]
      omega
    rcases Translate_spec v { s with tlb_store := some t1, tlb_lock := false } t1 rfl hc1 hb1
        hpa2 hinit rfl with
      ⟨pa, _, e1, e2⟩ | ⟨e1, _⟩ | ⟨e1, _⟩ | ⟨e1, _⟩
    · rw [hw1] at e1
      cases e1
      exact e2
    · rw [hw1] at e1
      cases e1
    · rw [hw1] at e1
      cases e1
    · rw [hw1] at e1
      cases e1

/-! ## The run found by `get_next_avail` is free -/

theorem run_scan_full (vb : Nat → Nat) (i n : Nat) :
    ∀ (fuel j : Nat), run_scan vb i n fuel j = some n →
      ∀ k, j ≤ k → k < n → vb (i + k) ≠ 1 := by
  intro fuel
  induction fuel with
  | zero =>
    intro j h k h1 h2
    unfold run_scan at h
    cases h
    omega
  | succ fuel ih =>
    intro j h k h1 h2
    unfold run_scan at h
    split at h
    · split at h
      · split at h
        · cases h
          omega
        · rename_i hne
          by_cases e : k = j
          · subst e
            exact hne
          · exact ih (j + 1) h k (by omega) h2
      · cases h
    · omega

theorem get_next_avail_loop_run (vb : Nat → Nat) (n : Nat) :
    ∀ (fuel i va : Nat), get_next_avail_loop vb n fuel i = .found va →
      ∃ i0, i ≤ i0 ∧ i0 < i + fuel ∧ va = first_page_address i0 ∧
        ∀ k, k < n → vb (i0 + k) ≠ 1 := by
  intro fuel
  induction fuel with
  | zero =>
    intro i va h
    unfold get_next_avail_loop at h
    cases h
  | succ fuel ih =>
    intro i va h
    unfold get_next_avail_loop at h
    split at h
    · rename_i hz
      split at h
      · cases h
      · rename_i j hscan
        split at h
        · rename_i hj
          cases h
          subst hj
          refine ⟨i, Nat.le_refl i, by omega, rfl, ?_⟩
          intro k hk
          by_cases e : k = 0
          · subst e
            rw [Nat.add_zero, hz]
            decide
          · exact run_scan_full vb i j j 1 hscan k (by omega) hk
        · obtain ⟨i0, h1, h2, h3, h4⟩ := ih _ _ h
          exact ⟨i0, by omega, by omega, h3, h4⟩
    · obtain ⟨i0, h1, h2, h3, h4⟩ := ih _ _ h
      exact ⟨i0, by omega, by omega, h3, h4⟩

/-- The pages of the run `get_next_avail` finds are not marked `1`. -/
theorem get_next_avail_run (n : Nat) (s : State) (va : Nat)
    (h : get_next_avail n s = .found va) :
    ∃ i0, 1 ≤ i0 ∧ i0 < virtual_pages ∧ va = first_page_address i0 ∧
      ∀ k, k < n → s.virtual_bitmap (i0 + k) ≠ 1 := by
  unfold get_next_avail at h
  obtain ⟨i0, h1, h2, h3, h4⟩ := get_next_avail_loop_run _ _ _ _ _ h
  refine ⟨i0, h1, ?_, h3, h4⟩
  rw [virtual_pages_eq] at h2 ⊢
  omega

/-! ## `myalloc` keeps the entries of the marked pages -/

theorem Keeps_refl (s : State) : Keeps s s :=
  ⟨rfl, fun _ hv => ⟨hv, fun table hd => ⟨table, hd, rfl⟩⟩⟩

theorem Keeps_trans {s s1 s2 : State} (h1 : Keeps s s1) (h2 : Keeps s1 s2) : Keeps s s2 := by
  refine ⟨h2.1.trans h1.1, ?_⟩
  intro va hv
  obtain ⟨hv1, ht1⟩ := h1.2 va hv
  obtain ⟨hv2, ht2⟩ := h2.2 va hv1
  refine ⟨hv2, ?_⟩
  intro table hd
  obtain ⟨table1, hd1, e1⟩ := ht1 table hd
  obtain ⟨table2, hd2, e2⟩ := ht2 table1 hd1
  exact ⟨table2, hd2, e2.trans e1⟩

theorem Keeps_map (s : State) (va pa : Nat) (pb : Nat → Nat) (lk : Bool)
    (hfree : s.virtual_bitmap (page_num_of va) ≠ 1) :
    Keeps s { s with
      virtual_bitmap := setAt s.virtual_bitmap (page_num_of va) 1
      physical_bitmap := pb
      pgdir := setAt s.pgdir (upper_index_of va)
        (some (setAt (match s.pgdir (upper_index_of va) with
                      | none => fun _ => 0
                      | some t => t) (lower_index_of va) pa))
      pagedir_lock := lk } := by
  refine ⟨rfl, ?_⟩
  intro v hv
  have hne : page_num_of v ≠ page_num_of va := fun e => hfree (e ▸ hv)
  constructor
  · show setAt s.virtual_bitmap (page_num_of va) 1 (page_num_of v) = 1
    rw [setAt_other _ _ _ _ hne]
    exact hv
  · intro table hd
    show ∃ table1, setAt s.pgdir (upper_index_of va) _ (upper_index_of v) = some table1 ∧
      table1 (lower_index_of v) = table (lower_index_of v)
    by_cases e : upper_index_of v = upper_index_of va
    · have hl : lower_index_of v ≠ lower_index_of va := by
        intro el
        apply hne
        unfold page_num_of
        rw [e, el]
      rw [e, setAt_same]
      refine ⟨_, rfl, ?_⟩
      rw [setAt_other _ _ _ _ hl]
      rw [e] at hd
      rw [hd]
    · rw [setAt_other _ _ _ _ e]
      exact ⟨table, hd, rfl⟩

theorem map_step_keeps (i0 f i : Nat) (s : State)
    (hfree : s.virtual_bitmap (i0 + i) ≠ 1)
    (hpn : page_num_of ((first_page_address i0 + PGSIZE * i) % WORD) = i0 + i) :
    Keeps s (map_step (first_page_address i0) i0 f i s) := by
  have hk := Keeps_map s ((first_page_address i0 + PGSIZE * i) % WORD)
    ((page_num_to_address f + s.memory) % WORD) (setAt s.physical_bitmap f 1) false
    (by rw [hpn]; exact hfree)
  rw [hpn] at hk
  exact hk

theorem myalloc_loop_keeps (i0 : Nat) :
    ∀ (frames : List Nat) (i : Nat) (s s1 : State) (r : Nat),
      (∀ k, i ≤ k → k < i + frames.length → s.virtual_bitmap (i0 + k) ≠ 1) → Granting s →
      myalloc_loop (first_page_address i0) i0 frames i s = .ret r s1 → Keeps s s1 := by
  intro frames
  induction frames with
  | nil =>
    intro i s s1 r _ _ h
    unfold myalloc_loop at h
    cases h
    exact ⟨rfl, fun _ hv => ⟨hv, fun table hd => ⟨table, hd, rfl⟩⟩⟩
  | cons f rest ih =>
    intro i s s1 r hfree hg h
    by_cases hb : virtual_pages ≤ i0 + i
    · unfold myalloc_loop at h
      rw [if_pos hb] at h
      cases h
    · have hb2 := hb
      rw [virtual_pages_eq] at hb2
      have hpn := page_num_of_first_page_address i0 i (by omega)
      have hfi : s.virtual_bitmap (i0 + i) ≠ 1 :=
        hfree i (Nat.le_refl i) (by simp only [List.length_cons]; omega)
      by_cases hl : s.pagedir_lock = true
      · rw [myalloc_loop_locked _ i0 f rest i s hb hl hpn] at h
        cases h
      · have hl0 : s.pagedir_lock = false := by
          cases hq : s.pagedir_lock
          · rfl
          · exact absurd hq hl
        rw [myalloc_loop_step _ i0 f rest i s hb hl0 hpn (fun _ => hg _)] at h
        refine Keeps_trans (map_step_keeps i0 f i s hfi hpn) (ih (i + 1) _ s1 r ?_ hg h)
        intro k hk1 hk2
        show setAt s.virtual_bitmap (i0 + i) 1 (i0 + k) ≠ 1
        rw [setAt_other _ _ _ _ (by omega)]
        exact hfree k (by omega) (by simp only [List.length_cons]; omega)

theorem Coherent_of_keeps {s s1 : State} (hk : Keeps s s1) (hc : Coherent s) :
    Coherent s1 := by
  intro t ht
  rw [hk.1] at ht
  obtain ⟨hd, hn⟩ := hc t ht
  refine ⟨hd, ?_⟩
  intro n hmem
  obtain ⟨hv, table, hp, hpa⟩ := hn n hmem
  obtain ⟨hv1, ht1⟩ := hk.2 n.va hv
  obtain ⟨table1, hp1, e1⟩ := ht1 table hp
  exact ⟨hv1, table1, hp1, by rw [e1]; exact hpa⟩

theorem Coherent_of_same {s s1 : State} (h : SameTables s s1)
    (ht : s1.tlb_store = s.tlb_store) (hc : Coherent s) : Coherent s1 := by
  obtain ⟨_, _, _, a4, _, a6⟩ := h
  intro t hs
  rw [ht] at hs
  obtain ⟨hd, hn⟩ := hc t hs
  refine ⟨hd, ?_⟩
  intro n hmem
  rw [a4, a6]
  exact hn n hmem

theorem SetPhysicalMem_coherent (s : State) (hc : Coherent s) :
    Coherent (SetPhysicalMem s) := by
  unfold SetPhysicalMem
  split
  · exact hc
  · intro t ht
    cases ht
    exact ⟨List.nodup_nil, fun n hn => by cases hn⟩

theorem myalloc_pages_coherent (n : Nat) (s0 s1 : State) (r : Nat) (hc : Coherent s0)
    (hg : Granting s0) (h : myalloc_pages n s0 = .ret r s1) : Coherent s1 := by
  unfold myalloc_pages at h
  split at h
  · cases h
  · cases h
    exact hc
  · rename_i va_first hfound
    obtain ⟨i0, h1, h2, h3, hrun⟩ := get_next_avail_run _ _ _ hfound
    split at h
    · cases h
      exact hc
    · rename_i pa_nums hphys
      have hlen : pa_nums.length = n := by
        unfold get_avail_physical at hphys
        simp only at hphys
        split at hphys
        · cases hphys
        · rename_i hq
          cases hphys
          exact not_not.mp hq
      rw [virtual_pages_eq] at h2
      rw [h3, address_to_page_num_first i0 h2] at h
      refine Coherent_of_keeps (myalloc_loop_keeps i0 pa_nums 0 _ s1 r ?_ hg h) hc
      intro k _ hk
      exact hrun k (by omega)

theorem myalloc_entry_coherent (s : State) (hc : Coherent s) : Coherent (myalloc_entry s) := by
  have h1 : Coherent { s with bitmap_lock := true, pagedir_lock := true } :=
    Coherent_of_same ⟨rfl, rfl, rfl, rfl, rfl, rfl⟩ rfl hc
  have h2 := SetPhysicalMem_coherent _ h1
  exact Coherent_of_same ⟨rfl, rfl, rfl, rfl, rfl, rfl⟩ rfl h2

theorem myalloc_coherent (n : Nat) (s s1 : State) (r : Nat) (hc : Coherent s)
    (hg : Granting s) (h : myalloc n s = .ret r s1) : Coherent s1 :=
  myalloc_pages_coherent _ _ _ _ (myalloc_entry_coherent s hc) (myalloc_entry_granting s hg)
    (myalloc_ret n s s1 r h)

/-! ## `Translate` keeps the translation buffer coherent -/

theorem Translate_uninit (va : Nat) (s s1 : State) (p : Nat)
    (hinit : s.is_initilized = false) (h : Translate va s = .ret p s1) :
    ∃ t, s.tlb_store = some t ∧
      s1.tlb_store = some { t with hit_count := t.hit_count + 1 } := by
  unfold Translate at h
  split at h
  · cases h
  · simp only at h
    cases hs : s.tlb_store with
    | none =>
      have hs1 : ({ s with tlb_lock := true } : State).tlb_store = none := hs
      have e : check_TLB va { s with tlb_lock := true } = (0, { s with tlb_lock := true }) := by
        unfold check_TLB
        rw [hs1]
      rw [e] at h
      simp only at h
      rw [if_neg (by decide), if_pos hinit] at h
      cases h
    | some t =>
      have hs1 : ({ s with tlb_lock := true } : State).tlb_store = some t := hs
      cases hw : check_TLB_walk va t.nodes with
      | none =>
        rw [check_TLB_miss va _ t hs1 hw] at h
        simp only at h
        rw [if_neg (by decide), if_pos hinit] at h
        cases h
      | some pa =>
        rw [check_TLB_hit va pa _ t hs1 hw] at h
        simp only at h
        by_cases hp : pa ≠ 0
        · rw [if_pos hp] at h
          cases h
          exact ⟨t, rfl, rfl⟩
        · rw [if_neg hp, if_pos hinit] at h
          cases h

theorem Coherent_of_nodes {s s1 : State} (h : SameTables s s1) (t t1 : TLB)
    (hs : s.tlb_store = some t) (hs1 : s1.tlb_store = some t1) (hn : t1.nodes = t.nodes)
    (hc : Coherent s) : Coherent s1 := by
  obtain ⟨_, _, _, a4, _, a6⟩ := h
  intro t2 ht2
  rw [hs1] at ht2
  cases ht2
  rw [hn, a4, a6]
  exact hc t hs

theorem Coherent_add {s s1 : State} (h : SameTables s s1) (t t1 : TLB) (new : TLB_node)
    (d : Nat) (hs : s.tlb_store = some t) (hs1 : s1.tlb_store = some t1)
    (hn : t1.nodes = (t.nodes ++ [new]).drop d)
    (hkey : new.va ∉ t.nodes.map TLB_node.va)
    (hnew : s.virtual_bitmap (page_num_of new.va) = 1 ∧
      ∃ table, s.pgdir (upper_index_of new.va) = some table ∧
        new.pa = table (lower_index_of new.va) + offset_of new.va)
    (hc : Coherent s) : Coherent s1 := by
  obtain ⟨_, _, _, a4, _, a6⟩ := h
  obtain ⟨hd, hall⟩ := hc t hs
  intro t2 ht2
  rw [hs1] at ht2
  cases ht2
  rw [hn, a4, a6]
  constructor
  · apply List.Nodup.sublist (List.Sublist.map _ (List.drop_sublist d _))
    rw [List.map_append, List.map_singleton]
    apply List.Nodup.append hd (List.nodup_singleton _)
    intro x hx1 hx2
    rw [List.mem_singleton] at hx2
    exact hkey (hx2 ▸ hx1)
  · intro n hmem
    rcases List.mem_append.mp (List.mem_of_mem_drop hmem) with hm | hm
    · exact hall n hm
    · rw [List.mem_singleton] at hm
      rw [hm]
      exact hnew

/-- In a state with both invariants and a coherent translation buffer,
`Translate` keeps the translation buffer coherent. -/
theorem Translate_coherent (va : Nat) (s s1 : State) (p : Nat)
    (hp : Inv s ∧ TInv s ∧ Coherent s) (h : Translate va s = .ret p s1) : Coherent s1 := by
  obtain ⟨hi, ht, hc⟩ := hp
  have hsame := Translate_same va s s1 p h
  cases hq : s.is_initilized with
  | false =>
    obtain ⟨t, hs, hs1⟩ := Translate_uninit va s s1 p hq h
    exact Coherent_of_nodes hsame t _ hs hs1 rfl hc
  | true =>
    obtain ⟨t, hs, hcn, hbd, hpa⟩ := ht.1 hq
    by_cases hl : s.tlb_lock = true
    · rw [Translate_blocked va s hl] at h
      cases h
    · have hl0 := Bool_eq_false_of_ne_true _ hl
      rcases Translate_spec va s t hs hcn hbd hpa hq hl0 with
        ⟨pa, _, _, e⟩ | ⟨_, _, e⟩ | ⟨_, _, _, e⟩ | ⟨hw, hv, table, t1, hd, e, hn1, _, _, _, _⟩
      · rw [e] at h
        cases h
        exact Coherent_of_nodes hsame t _ hs rfl rfl hc
      · rw [e] at h
        cases h
        exact Coherent_of_nodes hsame t _ hs rfl rfl hc
      · rw [e] at h
        cases h
      · rw [e] at h
        cases h
        have hv1 : s.virtual_bitmap (page_num_of va) = 1 := by
          rcases ht.2.2.1 (page_num_of va) with h0 | h1
          · exact absurd h0 hv
          · exact h1
        obtain ⟨table2, hd2, _, hmod, _, _⟩ := walk_value va s hi ht.2.1 hv1
        rw [hd] at hd2
        cases hd2
        exact Coherent_add hsame t t1 _ _ hs rfl hn1 (check_TLB_walk_absent va t.nodes hw)
          ⟨hv1, table, hd, hmod⟩ hc

theorem three_of_frame (s : State) (ram : Nat → Nat) (b : Bool)
    (hp : Inv s ∧ TInv s ∧ Coherent s) :
    Inv { s with ram := ram, bitmap_lock := b } ∧ TInv { s with ram := ram, bitmap_lock := b } ∧
      Coherent { s with ram := ram, bitmap_lock := b } :=
  ⟨SameTables_inv ⟨rfl, rfl, rfl, rfl, rfl, rfl⟩ hp.1,
    TInv_of_same ⟨rfl, rfl, rfl, rfl, rfl, rfl⟩ rfl hp.2.1,
    Coherent_of_same ⟨rfl, rfl, rfl, rfl, rfl, rfl⟩ rfl hp.2.2⟩

theorem three_of_Translate (va : Nat) (s s1 : State) (p : Nat)
    (hp : Inv s ∧ TInv s ∧ Coherent s) (h : Translate va s = .ret p s1) :
    Inv s1 ∧ TInv s1 ∧ Coherent s1 :=
  ⟨SameTables_inv (Translate_same va s s1 p h) hp.1, Translate_tinv va s s1 p hp.1 hp.2.1 h,
    Translate_coherent va s s1 p hp h⟩

theorem Call_run_coherent (c : Call) (s s1 : State) (hi : Inv s) (ht : TInv s)
    (hc : Coherent s) (hg : Granting s) (hnf : c.not_free = true) (h : c.run s = some s1) :
    Coherent s1 := by
  cases c with
  | myalloc n =>
    simp only [Call.run] at h
    cases ho : MyVM.myalloc n s with
    | ret v s2 =>
      rw [ho] at h
      cases h
      exact myalloc_coherent _ _ _ _ hc hg ho
    | blocked => rw [ho] at h; cases h
    | fault => rw [ho] at h; cases h
  | myfree va size => cases hnf
  | PutVal va val size =>
    simp only [Call.run] at h
    cases ho : MyVM.PutVal va val size s with
    | ret v s2 =>
      rw [ho] at h
      cases h
      unfold MyVM.PutVal at ho
      split at ho
      · cases ho
        exact hc
      · exact (PutVal_loop_keeps _ three_of_Translate three_of_frame _ _ _ _ _ _ _ _ _
          ⟨hi, ht, hc⟩ ho).2.2
    | blocked => rw [ho] at h; cases h
    | fault => rw [ho] at h; cases h
  | GetVal va val size =>
    simp only [Call.run] at h
    cases ho : MyVM.GetVal va val size s with
    | ret v s2 =>
      rw [ho] at h
      cases h
      unfold MyVM.GetVal at ho
      split at ho
      · cases ho
        exact hc
      · exact (GetVal_loop_keeps _ three_of_Translate three_of_frame _ _ _ _ _ _ _ _ _
          ⟨hi, ht, hc⟩ ho).2.2
    | blocked => rw [ho] at h; cases h
    | fault => rw [ho] at h; cases h
  | Translate va =>
    simp only [Call.run] at h
    cases ho : MyVM.Translate va s with
    | ret v s2 =>
      rw [ho] at h
      cases h
      exact Translate_coherent _ _ _ _ ⟨hi, ht, hc⟩ ho
    | blocked => rw [ho] at h; cases h
    | fault => rw [ho] at h; cases h

/-- Coherence without `myfree`: in every state reached by calls of `myalloc`,
`PutVal`, `GetVal` and `Translate` only, with a host that grants every table,
the keys of the translation buffer are pairwise distinct, and every node
`(va, pa)` has the page of `va` marked and `pa` equal to the table entry of
`va` plus the offset of `va`. -/
theorem coherent_without_free {s : State} (h : ReachableWithoutFree s) (hg : Granting s) :
    Coherent s := by
  induction h with
  | boot heap ram host ho =>
    intro t ht
    cases ht
  | call c s s1 hr hnf hs ih =>
    have hg0 := granting_before c s s1 hs hg
    have hreach := reachable_of_without_free s hr
    exact Call_run_coherent c s s1 (Reachable_inv hreach hg0) (Reachable_tinv hreach hg0)
      (ih hg0) hg0 hnf hs

/-- The translation buffer is transparent when `tlb_lock` is free: in an
initialised state reached without `myfree`, with a host that grants every
table, in which `tlb_lock` is free, `Translate(v)` returns, and it returns the
value of the walk of the page tables. -/
theorem Translate_table_walk (s : State) (v : Nat) (h : ReachableWithoutFree s)
    (hg : Granting s) (hinit : s.is_initilized = true) (hl : s.tlb_lock = false) :
    ∃ p s1, Translate v s = .ret p s1 ∧ table_walk v s = some p := by
  have hreach := reachable_of_without_free s h
  have hi := Reachable_inv hreach hg
  have ht := Reachable_tinv hreach hg
  have hc := coherent_without_free h hg
  obtain ⟨t, hs, hcn, hbd, hpa⟩ := ht.1 hinit
  rcases Translate_spec v s t hs hcn hbd hpa hinit hl with
    ⟨pa, _, hw, e⟩ | ⟨_, hv, e⟩ | ⟨_, hv, hd, _⟩ | ⟨_, hv, table, t1, hd, e, _⟩
  · refine ⟨pa, _, e, ?_⟩
    obtain ⟨n, hn, hkey, hval⟩ := check_TLB_walk_mem v t.nodes pa hw
    obtain ⟨hv, table, hd, hpa1⟩ := (hc t hs).2 n hn
    rw [hkey] at hv hd hpa1
    obtain ⟨table2, hd2, _, hmod, _, _⟩ := walk_value v s hi ht.2.1 hv
    rw [hd] at hd2
    cases hd2
    unfold table_walk
    rw [if_neg (by rw [hv]; decide)]
    simp only [hd]
    rw [hmod, ← hpa1, hval]
  · refine ⟨0, _, e, ?_⟩
    unfold table_walk
    rw [if_pos hv]
  · have hv1 : s.virtual_bitmap (page_num_of v) = 1 := by
      rcases ht.2.2.1 (page_num_of v) with h0 | h1
      · exact absurd h0 hv
      · exact h1
    obtain ⟨table2, hd2, _⟩ := walk_value v s hi ht.2.1 hv1
    rw [hd] at hd2
    cases hd2
  · refine ⟨_, _, e, ?_⟩
    unfold table_walk
    rw [if_neg hv]
    simp only [hd]

/-- Whenever `Translate` returns in a state reached without `myfree`, with a
host that grants every table, it returns the value of the walk of the page
tables. -/
theorem Translate_value_table_walk (s s1 : State) (v p : Nat) (h : ReachableWithoutFree s)
    (hg : Granting s) (hr : Translate v s = .ret p s1) : table_walk v s = some p := by
  have hreach := reachable_of_without_free s h
  have ht := Reachable_tinv hreach hg
  by_cases hl : s.tlb_lock = true
  · rw [Translate_blocked v s hl] at hr
    cases hr
  · cases hq : s.is_initilized with
    | false =>
      exfalso
      have hc := coherent_without_free h hg
      obtain ⟨t, hs, _⟩ := Translate_uninit v s s1 p hq hr
      unfold Translate at hr
      rw [if_neg hl] at hr
      simp only at hr
      have hs1 : ({ s with tlb_lock := true } : State).tlb_store = some t := hs
      cases hw : check_TLB_walk v t.nodes with
      | none =>
        rw [check_TLB_miss v _ t hs1 hw] at hr
        simp only at hr
        rw [if_neg (by decide), if_pos hq] at hr
        cases hr
      | some pa =>
        obtain ⟨n, hn, _, _⟩ := check_TLB_walk_mem v t.nodes pa hw
        have hv := ((hc t hs).2 n hn).1
        rw [ht.2.2.2 hq] at hv
        cases hv
    | true =>
      obtain ⟨p1, s2, e, hwalk⟩ :=
        Translate_table_walk s v h hg hq (Bool_eq_false_of_ne_true _ hl)
      rw [e] at hr
      cases hr
      exact hwalk

/-! ## The bound of the translation buffer, whatever the host answers -/

theorem check_TLB_store (va : Nat) (s : State) (t : TLB) (hs : s.tlb_store = some t) :
    ∃ t1, (check_TLB va s).2.tlb_store = some t1 ∧ t1.nodes = t.nodes ∧
      t1.count = t.count := by
  cases hw : check_TLB_walk va t.nodes with
  | none =>
    rw [check_TLB_miss va s t hs hw]
    exact ⟨_, rfl, rfl, rfl⟩
  | some pa =>
    rw [check_TLB_hit va pa s t hs hw]
    exact ⟨_, rfl, rfl, rfl⟩

theorem add_TLB_bound (va pa : Nat) (s s1 : State) (u : Unit) (t : TLB)
    (h : add_TLB va pa s = .ret u s1) (hs : s.tlb_store = some t)
    (hc : t.count = t.nodes.length) (hb : t.count ≤ TLB_SIZE) :
    ∃ t2, s1.tlb_store = some t2 ∧ t2.count = t2.nodes.length ∧ t2.count ≤ TLB_SIZE := by
  obtain ⟨t2, h2, _, hc3, hb3, _, _⟩ := add_TLB_nodes va pa s t hs hc hb
  rw [h2] at h
  cases h
  exact ⟨t2, rfl, hc3, hb3⟩

/-- The bound of the translation buffer is kept by `Translate`. -/
theorem Translate_bound (va : Nat) (s s1 : State) (p : Nat) (hb : TLBBound s)
    (h : Translate va s = .ret p s1) : TLBBound s1 := by
  have hsame := Translate_same va s s1 p h
  intro hinit1
  have hinit : s.is_initilized = true := by
    rw [← hsame.2.2.1]
    exact hinit1
  obtain ⟨t, hs, hc, hbd⟩ := hb hinit
  obtain ⟨t1, hs1, hn1, hc1⟩ := check_TLB_store va { s with tlb_lock := true } t hs
  have hc2 : t1.count = t1.nodes.length := by rw [hc1, hn1]; exact hc
  have hb2 : t1.count ≤ TLB_SIZE := by rw [hc1]; exact hbd
  unfold Translate at h
  split at h
  · cases h
  · simp only at h
    generalize check_TLB va { s with tlb_lock := true } = r at h hs1
    split at h
    · cases h
      exact ⟨t1, hs1, hc2, hb2⟩
    · split at h
      · cases h
      · split at h
        · cases h
          exact ⟨t1, hs1, hc2, hb2⟩
        · split at h
          · cases h
          · split at h
            · rename_i u s3 hadd
              cases h
              exact add_TLB_bound _ _ _ s3 _ t1 hadd hs1 hc2 hb2
            · cases h
            · cases h

theorem SetPhysicalMem_bound (s : State) (hb : TLBBound s) : TLBBound (SetPhysicalMem s) := by
  unfold SetPhysicalMem
  split
  · exact hb
  · exact fun _ => ⟨init_TLB, rfl, rfl, by decide⟩

theorem myalloc_entry_bound (s : State) (hb : TLBBound s) : TLBBound (myalloc_entry s) := by
  have h1 : TLBBound { s with bitmap_lock := true, pagedir_lock := true } := hb
  exact SetPhysicalMem_bound _ h1

theorem myalloc_bound (n : Nat) (s s1 : State) (r : Nat) (hb : TLBBound s)
    (h : myalloc n s = .ret r s1) : TLBBound s1 := by
  have hb0 := myalloc_entry_bound s hb
  have h2 := myalloc_ret n s s1 r h
  unfold myalloc_pages at h2
  split at h2
  · cases h2
  · cases h2
    exact hb0
  · split at h2
    · cases h2
      exact hb0
    · obtain ⟨_, a2, a3, _, _, _⟩ := myalloc_loop_frame _ _ _ _ _ _ _ h2
      intro hinit
      rw [a2] at hinit
      rw [a3]
      exact hb0 hinit

theorem myfree_bound (va size : Nat) (s s1 : State) (r : Option Int) (hb : TLBBound s)
    (h : myfree va size s = .ret r s1) : TLBBound s1 := by
  unfold myfree at h
  split at h
  · cases h
    exact hb
  · split at h
    · cases h
    · split at h
      · cases h
      · have hb0 : TLBBound { s with bitmap_lock := true, pagedir_lock := true } := hb
        split at h
        · rename_i s2 ht
          cases h
          exact myfree_translate_keeps TLBBound Translate_bound va _ _ _ _ _ hb0 ht
        · rename_i pas s2 ht
          have hb2 := myfree_translate_keeps TLBBound Translate_bound va _ _ _ _ _ hb0 ht
          split at h
          · rename_i u s3 hr
            cases h
            obtain ⟨a1, a2, _, _⟩ := myfree_release_frame va pas 0 s2 s3 u hr
            intro hinit
            have hinit2 : s2.is_initilized = true := by
              rw [← a1]
              exact hinit
            obtain ⟨t, hs, hc, hbd⟩ := hb2 hinit2
            exact ⟨t, a2.trans hs, hc, hbd⟩
          · cases h
          · cases h
        · cases h
        · cases h

theorem Call_run_bound (c : Call) (s s1 : State) (hb : TLBBound s) (h : c.run s = some s1) :
    TLBBound s1 := by
  cases c with
  | myalloc n =>
    simp only [Call.run] at h
    cases ho : MyVM.myalloc n s with
    | ret v s2 =>
      rw [ho] at h
      cases h
      exact myalloc_bound _ _ _ _ hb ho
    | blocked => rw [ho] at h; cases h
    | fault => rw [ho] at h; cases h
  | myfree va size =>
    simp only [Call.run] at h
    cases ho : MyVM.myfree va size s with
    | ret v s2 =>
      rw [ho] at h
      cases h
      exact myfree_bound _ _ _ _ _ hb ho
    | blocked => rw [ho] at h; cases h
    | fault => rw [ho] at h; cases h
  | PutVal va val size =>
    simp only [Call.run] at h
    cases ho : MyVM.PutVal va val size s with
    | ret v s2 =>
      rw [ho] at h
      cases h
      unfold MyVM.PutVal at ho
      split at ho
      · cases ho
        exact hb
      · exact PutVal_loop_keeps TLBBound Translate_bound (fun _ _ _ hx => hx)
          _ _ _ _ _ _ _ _ _ hb ho
    | blocked => rw [ho] at h; cases h
    | fault => rw [ho] at h; cases h
  | GetVal va val size =>
    simp only [Call.run] at h
    cases ho : MyVM.GetVal va val size s with
    | ret v s2 =>
      rw [ho] at h
      cases h
      unfold MyVM.GetVal at ho
      split at ho
      · cases ho
        exact hb
      · exact GetVal_loop_keeps TLBBound Translate_bound (fun _ _ _ hx => hx)
          _ _ _ _ _ _ _ _ _ hb ho
    | blocked => rw [ho] at h; cases h
    | fault => rw [ho] at h; cases h
  | Translate va =>
    simp only [Call.run] at h
    cases ho : MyVM.Translate va s with
    | ret v s2 =>
      rw [ho] at h
      cases h
      exact Translate_bound _ _ _ _ hb ho
    | blocked => rw [ho] at h; cases h
    | fault => rw [ho] at h; cases h

/-- In every reachable state, whatever the host answered, the translation
buffer is within its bound. -/
theorem Reachable_bound {s : State} (h : Reachable s) : TLBBound s := by
  induction h with
  | boot heap ram host ho =>
    intro hinit
    cases hinit
  | call c s s1 _ hs ih => exact Call_run_bound c s s1 ih hs

/-- C16 (bound of the translation buffer): from the empty buffer `init_TLB`
creates, every sequence of `add_TLB` and `check_TLB` calls (the calls
`Translate` makes), each new node at a new address, returns, and after it the
nodes reached from `oldest` by following `next` are `count` many, the last of
them is `newest`, and `count` is at most `TLB_SIZE`. In the list embedding of
the buffer the same holds after every sequence of `myalloc`, `myfree`,
`PutVal`, `GetVal` and `Translate` calls: in every reachable initialised state
`count` is the number of nodes and is at most `TLB_SIZE`. -/
theorem C16_buffer_bound (cell : Nat → TLB_cell) (ops : List TLB_op)
    (hd : (ops.filterMap TLB_op.node?).Nodup)
    (hz : ∀ a ∈ ops.filterMap TLB_op.node?, a ≠ 0) :
    (∃ t l, TLB_mem.run ops (init_TLB_mem cell) = some t ∧
      Chain t.cell t.oldest l ∧ t.count = l.length ∧
      ((l = [] ∧ t.newest = 0) ∨ l.getLast? = some t.newest) ∧
      t.count ≤ TLB_SIZE) ∧
    (∀ s, Reachable s → s.is_initilized = true →
      ∃ t, s.tlb_store = some t ∧ t.count = t.nodes.length ∧ t.count ≤ TLB_SIZE) := by
  constructor
  · obtain ⟨t, l, hrun, hch, _, hc, hb, hlast⟩ :=
      TLB_mem_run_linked ops (init_TLB_mem cell) [] (init_TLB_mem_linked cell) hd
        (fun a h => ⟨hz a h, List.not_mem_nil a⟩)
    exact ⟨t, l, hrun, hch, hc, hlast, hb⟩
  · intro s hr hinit
    exact Reachable_bound hr hinit

theorem C16_buffer_bound_witness :
    (sample_ops.filterMap TLB_op.node?).Nodup ∧
    (∀ a ∈ sample_ops.filterMap TLB_op.node?, a ≠ 0) ∧
    (∃ t l, TLB_mem.run sample_ops (init_TLB_mem blank_cells) = some t ∧
      Chain t.cell t.oldest l ∧ t.count = l.length ∧
      ((l = [] ∧ t.newest = 0) ∨ l.getLast? = some t.newest) ∧
      t.count ≤ TLB_SIZE) ∧
    (∀ s, Reachable s → s.is_initilized = true →
      ∃ t, s.tlb_store = some t ∧ t.count = t.nodes.length ∧ t.count ≤ TLB_SIZE) :=
  ⟨by decide!, by decide!, C16_buffer_bound blank_cells sample_ops (by decide!) (by decide!)⟩

/-- First in, first out in the list embedding of the buffer, which `Translate`
uses: after the insertion of `k > TLB_SIZE` pairs with distinct keys into the
empty buffer, `check_TLB` misses the first `k - TLB_SIZE` keys and finds each
later key with the address inserted for it. -/
theorem first_in_first_out_lists (s : State) (ins : List TLB_node)
    (hs : s.tlb_store = some init_TLB) (hd : (ins.map TLB_node.va).Nodup) :
    ∃ t1, add_TLB_all ins s = .ret () { s with tlb_store := some t1 } ∧
      ∀ (i : Nat) (hi : i < ins.length),
        (i < ins.length - TLB_SIZE →
          check_TLB ins[i].va { s with tlb_store := some t1 } =
            (0, { s with tlb_store := some { t1 with miss_count := t1.miss_count + 1 } })) ∧
        (ins.length - TLB_SIZE ≤ i →
          check_TLB ins[i].va { s with tlb_store := some t1 } =
            (ins[i].pa,
              { s with tlb_store := some { t1 with hit_count := t1.hit_count + 1 } })) := by
  obtain ⟨t1, h1, hn1, _, _, _, _⟩ :=
    add_TLB_all_nodes ins s init_TLB hs rfl (by decide)
  have hnodes : t1.nodes = ins.drop (ins.length - TLB_SIZE) := by
    rw [hn1]
    simp only [init_TLB, List.nil_append, List.length_nil, Nat.zero_add]
  refine ⟨t1, h1, ?_⟩
  intro i hi
  obtain ⟨hmiss, hhit⟩ := check_TLB_walk_drop ins hd (ins.length - TLB_SIZE) i hi
  constructor
  · intro hlt
    exact check_TLB_miss _ _ t1 rfl (by rw [hnodes]; exact hmiss hlt)
  · intro hle
    exact check_TLB_hit _ _ _ t1 rfl (by rw [hnodes]; exact hhit hle)

end MyVM
